import Mathlib

/-!
# murrayc-suffix-tree: Trie and SuffixTree

A shallow embedding of `src/trees/trie/trie.cc` (class `Trie<std::string, T_Value>`)
and of the `SuffixTree` exercised by `tests/test_suffix_tree.cc`.

Keys and texts (`std::string`) are `List Char`.
-/

set_option autoImplicit false

/-! ## Trie (src/trees/trie/trie.cc) -/

namespace Trie

/-- `Trie::Node::Edge` (trie.cc 97-101): a character and the node it leads to. -/
structure Edge (N : Type) where
  part : Char
  dest : N

/-- `Trie::Node` (trie.cc 95-111): the outgoing edges in insertion order, the
`is_leaf` mark and the value. -/
inductive Node (V : Type) where
  | mk (children : List (Edge (Node V))) (is_leaf : Bool) (value : V)

namespace Node

variable {V : Type}

def children : Node V → List (Edge (Node V))
  | mk c _ _ => c

def is_leaf : Node V → Bool
  | mk _ l _ => l

def value : Node V → V
  | mk _ _ v => v

mutual
/-- Number of nodes of a subtree: the bound on the iterations of the explicit-stack
walk of `find_candidates`. -/
def size : Node V → Nat
  | mk cs _ _ => 1 + sizeEdges cs
/-- Number of nodes below a list of edges. -/
def sizeEdges : List (Edge (Node V)) → Nat
  | [] => 0
  | e :: es => size e.dest + sizeEdges es
end

end Node

variable {V : Type}

/-- A freshly constructed `Node` (trie.cc 106-110): no children, `is_leaf = false`,
`value = 0`, the value type's default. -/
def new_node [Inhabited V] : Node V := Node.mk [] false default

/-- The inner loop of `find_node` and of `insert` (trie.cc 69-74, 125-130):
the destination of the first edge whose `part` equals `ch`, if any. -/
def choose_child (children : List (Edge (Node V))) (ch : Char) : Option (Node V) :=
  match children with
  | [] => none
  | e :: es => if e.part = ch then some e.dest else choose_child es ch

/-- The `for (const auto ch : key)` loop of `find_node` (trie.cc 119-138):
`none` is the early `return nullptr`. -/
def find_node_walk (node : Node V) (key : List Char) : Option (Node V) :=
  match key with
  | [] => some node
  | ch :: rest =>
    match choose_child node.children ch with
    | none => none
    | some next => find_node_walk next rest

/-- `Trie::find_node(key, leaf_only)` (trie.cc 113-141). -/
def find_node (root : Node V) (key : List Char) (leaf_only : Bool) : Option (Node V) :=
  if key.isEmpty then none
  else
    match find_node_walk root key with
    | none => none
    | some node => if !leaf_only || node.is_leaf then some node else none

/-- `Trie::exists(key)` (trie.cc 11-14); `find_node` is called with its default
`leaf_only = true`. -/
def «exists» (root : Node V) (key : List Char) : Bool :=
  (find_node root key true).isSome

/-- `Trie::get_value(key)` (trie.cc 19-22): `T_Value()` if the key was not found. -/
def get_value [Inhabited V] (root : Node V) (key : List Char) : V :=
  match find_node root key true with
  | some node => node.value
  | none => default

/-- Replaces the destination of the first edge whose `part` equals `ch` by `f` of
it: the effect, on the owning node, of the writes made through the pointer
`next = edge.dest` chosen at trie.cc 69-74. -/
def update_child (children : List (Edge (Node V))) (ch : Char) (f : Node V → Node V) :
    List (Edge (Node V)) :=
  match children with
  | [] => []
  | e :: es =>
    if e.part = ch then { e with dest := f e.dest } :: es
    else e :: update_child es ch f

/-- The `for (const auto ch : key)` loop of `insert` followed by the two final
assignments (trie.cc 62-91), as the new contents of `node`. -/
def insert_walk [Inhabited V] (node : Node V) (appending : Bool) (key : List Char)
    (value : V) : Node V :=
  match key with
  | [] => Node.mk node.children true value
  | ch :: rest =>
    match (if appending then none else choose_child node.children ch) with
    | some _ =>
      Node.mk (update_child node.children ch (fun next => insert_walk next appending rest value))
        node.is_leaf node.value
    | none =>
      Node.mk (node.children ++ [{ part := ch, dest := insert_walk new_node true rest value }])
        node.is_leaf node.value

/-- `Trie::insert(key, value)` (trie.cc 57-92). -/
def insert [Inhabited V] (root : Node V) (key : List Char) (value : V) : Node V :=
  if key.isEmpty then root else insert_walk root false key value

/-- The `while (!stack.empty())` loop of `find_candidates` (trie.cc 40-52). The
stack is a list with its top at the head; `fuel` bounds the number of iterations
and `none` means the bound was too small. -/
def find_candidates_loop (fuel : Nat) (stack : List (List Char × Node V))
    (result : List (List Char)) : Option (List (List Char)) :=
  match fuel, stack with
  | _, [] => some result
  | 0, _ :: _ => none
  | fuel + 1, item :: stack =>
    let result := if item.2.children.isEmpty then result ++ [item.1] else result
    let stack := item.2.children.foldl (fun st edge => (item.1 ++ [edge.part], edge.dest) :: st) stack
    find_candidates_loop fuel stack result

/-- `Trie::find_candidates(prefix)` (trie.cc 24-55). Every iteration pops one node
of the subtree of `prefix_node`, so its size is the iteration bound. -/
def find_candidates (root : Node V) (pre : List Char) : Option (List (List Char)) :=
  if pre.isEmpty then some []
  else
    match find_node root pre false with
    | none => some []
    | some prefix_node => find_candidates_loop prefix_node.size [(pre, prefix_node)] []

/-- The trie after a sequence of `insert` calls on the empty trie (`Node root;`). -/
def build [Inhabited V] (ops : List (List Char × V)) : Node V :=
  ops.foldl (fun t kv => insert t kv.1 kv.2) new_node

/-- The trie built in `main` (trie.cc 148-152). -/
def main_trie : Node Int :=
  build [("banana".toList, 1), ("bandana".toList, 2), ("foo".toList, 3), ("foobar".toList, 4)]

/-- What a key leads to when only marked nodes count: the value of the node the walk
ends in if that node has `is_leaf`. -/
def lookup (node : Node V) (key : List Char) : Option V :=
  match find_node_walk node key with
  | some n => if n.is_leaf then some n.value else none
  | none => none

/-- Value of the most recent insert of `k` in the sequence `ops` of `insert(key, value)`
calls, `none` when `k` is not the key of any of them. -/
def last_value (ops : List (List Char × V)) (k : List Char) : Option V :=
  match ops with
  | [] => none
  | op :: rest =>
    match last_value rest k with
    | some v => some v
    | none => if op.1 = k then some op.2 else none

mutual
/-- Keys of the childless nodes of the subtree of a node reached by `key`, in depth-first
order where at each node the child edge created last is visited first: the order in which
the explicit stack of `find_candidates` (trie.cc 39-52) pops them. -/
def candidates_of (key : List Char) : Node V → List (List Char)
  | Node.mk cs _ _ => (if cs.isEmpty then [key] else []) ++ candidates_of_edges key cs
/-- Keys of `candidates_of` below the edges `cs`, last edge first. -/
def candidates_of_edges (key : List Char) : List (Edge (Node V)) → List (List Char)
  | [] => []
  | e :: es => candidates_of_edges key es ++ candidates_of (key ++ [e.part]) e.dest
end

mutual
/-- No node of the subtree has two outgoing edges with the same character. -/
def Det : Node V → Prop
  | Node.mk cs _ _ => (cs.map (fun e => e.part)).Nodup ∧ Det_edges cs
/-- Every destination of the edges satisfies `Det`. -/
def Det_edges : List (Edge (Node V)) → Prop
  | [] => True
  | e :: es => Det e.dest ∧ Det_edges es
end

mutual
/-- Every childless node strictly below the given node is a marked leaf. -/
def Marked : Node V → Prop
  | Node.mk cs _ _ => Marked_edges cs
/-- Every destination of the edges is marked when childless, and satisfies `Marked`. -/
def Marked_edges : List (Edge (Node V)) → Prop
  | [] => True
  | e :: es => (e.dest.children = [] → e.dest.is_leaf = true) ∧ Marked e.dest ∧ Marked_edges es
end

/-- A chain of edges spelling `key` leads from the first node down to the second; any edge
with the right character may be taken, not only the first one. -/
inductive Path : Node V → List Char → Node V → Prop
  | nil (n : Node V) : Path n [] n
  | cons (n : Node V) (e : Edge (Node V)) (rest : List Char) (t : Node V) :
      e ∈ n.children → Path e.dest rest t → Path n (e.part :: rest) t

/-- Number of the insert that created the chain of edges spelled by the non-empty key `q`
in the trie built by the inserts `ops`: the first insert whose key starts with `q`,
counted from 0; the number of inserts when no key starts with `q`. -/
def created (ops : List (List Char × V)) (q : List Char) : Nat :=
  match ops with
  | [] => 0
  | op :: rest => if q <+: op.1 then 0 else created rest q + 1

/-- Characters of the edges of the node that `p` leads to, in the order in which the node
stores them; empty when `p` leads to no node. -/
def edge_chars (node : Node V) (p : List Char) : List Char :=
  match find_node_walk node p with
  | some m => m.children.map (fun e => e.part)
  | none => []

end Trie

/-! ## SuffixTree

The header `murrayc-suffix-tree/suffix_tree.h` that `tests/test_suffix_tree.cc` includes is
not among the sources; the definitions of this section follow the specification's
sections 3, 4 and 6.
-/

namespace SuffixTree

/-- Modelled from the spec: the Text Buffer Registry of section 2 (external to the absent
`suffix_tree.h`): the caller-owned texts, addressed by position. The tree borrows from
it and never copies. -/
abbrev Buffers := List (List Char)

/-- Modelled from the spec: `Range` of section 3 (the class `SuffixTree::Range` of the
absent `suffix_tree.h`), the triple `(buffer_id, start_offset, end_offset)`: a borrowed
half-open span of one text buffer. -/
structure Range where
  buffer_id : Nat
  start_offset : Nat
  end_offset : Nat
  deriving DecidableEq

namespace Range

/-- Modelled from the spec: the dereferenced content of a `Range` (section 3, absent
`suffix_tree.h`), the characters `[start_offset, end_offset)` of its buffer. -/
def content (bufs : Buffers) (r : Range) : List Char :=
  ((bufs.getD r.buffer_id []).drop r.start_offset).take (r.end_offset - r.start_offset)

/-- Modelled from the spec: the length a `Range` supports (section 2, absent
`suffix_tree.h`), the number of characters of the span. -/
def size (bufs : Buffers) (r : Range) : Nat := (r.content bufs).length

/-- Modelled from the spec: the part of a label kept on the upper edge when an edge is
split (section 4.1, absent `suffix_tree.h`): its first `m` characters. -/
def first (r : Range) (m : Nat) : Range :=
  { r with end_offset := r.start_offset + m }

/-- Modelled from the spec: the part of a `Range` beyond its first `m` characters, "the
remaining suffix beyond that depth" (sections 4.1 and 4.4, absent `suffix_tree.h`). -/
def after (r : Range) (m : Nat) : Range :=
  { r with start_offset := r.start_offset + m }

end Range

/-- Modelled from the spec: `Edge` of section 3 (absent `suffix_tree.h`),
`(label: Range, child: Node)`. -/
structure Edge (N : Type) where
  label : Range
  child : N

/-- Modelled from the spec: `Node` of section 3 (absent `suffix_tree.h`): the ordered
collection of outgoing edges and, if the node is a leaf, the full suffix `Range` it
terminates with the value given at insertion. The suffix link, which the spec uses only
while constructing in linear time, is not represented. -/
inductive Node (V : Type) where
  | mk (edges : List (Edge (Node V))) (leaf : Option (Range × V))

namespace Node

variable {V : Type}

def edges : Node V → List (Edge (Node V))
  | mk es _ => es

def leaf : Node V → Option (Range × V)
  | mk _ l => l

mutual
/-- Number of nodes of a subtree: the bound on the iterations of the explicit-stack
collection of leaves. -/
def size : Node V → Nat
  | mk es _ => 1 + sizeEdges es
/-- Number of nodes below a list of edges. -/
def sizeEdges : List (Edge (Node V)) → Nat
  | [] => 0
  | e :: es => size e.child + sizeEdges es
end

end Node

variable {V : Type}

/-- Modelled from the spec: the length of the longest common prefix of two character
sequences (section 3, "LCP Array"; the comparison of a label with the unmatched
characters in sections 4.1 and 4.2; absent `suffix_tree.h`). -/
def common_prefix_length : List Char → List Char → Nat
  | a :: as, b :: bs => if a = b then common_prefix_length as bs + 1 else 0
  | _, _ => 0

/-- Modelled from the spec: the empty constructor of section 6 (absent `suffix_tree.h`):
a root without edges. -/
def empty_tree : Node V := Node.mk [] none

/-- Modelled from the spec: the test "the edge whose label starts with the next unmatched
character" of sections 4.1 and 4.2 (absent `suffix_tree.h`). -/
def starts_with_next (bufs : Buffers) (label : Range) (unmatched : List Char) : Bool :=
  match label.content bufs, unmatched with
  | a :: _, b :: _ => a = b
  | _, _ => false

/-- Modelled from the spec: "a new leaf edge is appended at the active node" (section
4.1, absent `suffix_tree.h`). When the node is itself the leaf of an earlier suffix, that
leaf is moved below an edge with an empty label, so that it keeps its path and stays a
node without edges. -/
def append_leaf_edge (bufs : Buffers) (edges : List (Edge (Node V)))
    (lf : Option (Range × V)) (e : Edge (Node V)) : Node V :=
  match lf with
  | none => Node.mk (edges ++ [e]) none
  | some old =>
    Node.mk ({ label := old.1.after (old.1.size bufs), child := Node.mk [] (some old) } ::
      (edges ++ [e])) none

/-- Modelled from the spec: "the leaf's full-suffix Range (covering from the suffix's
start through the end of the originating buffer)" of section 4.2 (absent
`suffix_tree.h`): the suffix of buffer `id`, of length `n`, that starts at offset `i`. -/
def suffix_range (id i n : Nat) : Range :=
  { buffer_id := id, start_offset := i, end_offset := n }

mutual
/-- Modelled from the spec: one suffix extension of section 4.1 (part of `insert` in the
absent `suffix_tree.h`), at a node, for the unmatched remainder `rest` of the suffix
`leaf.1`: the remainder continues along the edge that starts with its next character, or
"a new leaf edge is appended at the active node". A suffix that ends at the node gets a
leaf edge with an empty label, and a leaf that a later suffix runs through is moved below
an edge with an empty label, so that every suffix stays distinguishable and ends in a
node without edges (the per-string termination of section 4.1). The result is the tree
of the spec's correctness contract; the active point and the suffix links, which only
serve linear time, are not modelled. -/
def extend_node (bufs : Buffers) (leaf : Range × V) (rest : Range) : Node V → Node V
  | Node.mk edges lf =>
    match extend_edges bufs leaf rest edges with
    | some edges' => Node.mk edges' lf
    | none => append_leaf_edge bufs edges lf { label := rest, child := Node.mk [] (some leaf) }
/-- Modelled from the spec: the suffix extension of section 4.1 along the edges of a node
(absent `suffix_tree.h`); `none` when no edge starts with the next unmatched character.
When the label is matched in full the extension continues in the child; otherwise "an
existing edge is split at the mismatch to insert a new internal node followed by a new
leaf edge". -/
def extend_edges (bufs : Buffers) (leaf : Range × V) (rest : Range) :
    List (Edge (Node V)) → Option (List (Edge (Node V)))
  | [] => none
  | e :: es =>
    if starts_with_next bufs e.label (rest.content bufs) then
      let m := common_prefix_length (e.label.content bufs) (rest.content bufs)
      if m = e.label.size bufs then
        some ({ label := e.label, child := (extend_node bufs leaf (rest.after m) e.child) } :: es)
      else
        some ({ label := e.label.first m,
                child := Node.mk [{ label := e.label.after m, child := e.child },
                                  { label := rest.after m, child := Node.mk [] (some leaf) }] none } :: es)
    else
      match extend_edges bufs leaf rest es with
      | some es' => some (e :: es')
      | none => none
end

/-- Modelled from the spec: `insert(text, value)` of sections 4.1 and 6 (absent
`suffix_tree.h`): "append `text`'s suffixes as leaves tagged `value`; no-op if `text` is
empty". The text is the caller's buffer `id`; its suffixes are extended from the root,
left to right, each leaf carrying the `Range` from the suffix's start to the end of the
buffer. -/
def insert (bufs : Buffers) (root : Node V) (id : Nat) (value : V) : Node V :=
  let text := bufs.getD id []
  if text.isEmpty then root
  else
    (List.range text.length).foldl
      (fun node i =>
        extend_node bufs (suffix_range id i text.length, value) (suffix_range id i text.length)
          node) root

mutual
/-- Modelled from the spec: the walk of `exists` / `find` of section 4.2 (absent
`suffix_tree.h`) from a node: success, with the node reached, once the full pattern is
consumed. -/
def locate_node (bufs : Buffers) (pattern : List Char) : Node V → Option (Node V)
  | Node.mk edges lf =>
    if pattern.isEmpty then some (Node.mk edges lf) else locate_edges bufs pattern edges
/-- Modelled from the spec: the walk of section 4.2 over the edges of a node (absent
`suffix_tree.h`): "pick the edge whose label starts with the next unmatched character,
then compare however many further characters are needed"; `none` on a mismatch or when
no edge matches. -/
def locate_edges (bufs : Buffers) (pattern : List Char) :
    List (Edge (Node V)) → Option (Node V)
  | [] => none
  | e :: es =>
    if starts_with_next bufs e.label pattern then
      let m := common_prefix_length (e.label.content bufs) pattern
      if m = pattern.length then some e.child
      else if m = e.label.size bufs then locate_node bufs (pattern.drop m) e.child
      else none
    else locate_edges bufs pattern es
end

/-- Modelled from the spec: the collection of "every leaf in the subtree rooted at the
point reached (depth-first, explicit stack — no recursion)" of section 4.2 (absent
`suffix_tree.h`). The stack is a list with its top at the head; `fuel` bounds the number
of iterations and `none` means the bound was too small. -/
def collect_loop (fuel : Nat) (stack : List (Node V)) (result : List (Range × V)) :
    Option (List (Range × V)) :=
  match fuel, stack with
  | _, [] => some result
  | 0, _ :: _ => none
  | fuel + 1, node :: stack =>
    let result := match node.leaf with
      | some l => result ++ [l]
      | none => result
    let stack := node.edges.foldl (fun st edge => edge.child :: st) stack
    collect_loop fuel stack result

/-- Modelled from the spec: `find_with_positions(pattern)` of sections 4.2 and 6 (absent
`suffix_tree.h`): per matched leaf, the leaf's full-suffix `Range` paired with its value;
the empty result when the walk fails. Every iteration of the collection pops one node of
the subtree reached, so its size is the iteration bound. -/
def find_with_positions (bufs : Buffers) (root : Node V) (pattern : List Char) :
    Option (List (Range × V)) :=
  match locate_node bufs pattern root with
  | none => some []
  | some node => collect_loop node.size [node] []

/-- Modelled from the spec: `find(pattern) -> set_of(value)` of sections 4.2 and 6
(absent `suffix_tree.h`): the set of the values of the matched leaves. -/
def find [DecidableEq V] (bufs : Buffers) (root : Node V) (pattern : List Char) :
    Option (Finset V) :=
  (find_with_positions bufs root pattern).map (fun ms => (ms.map Prod.snd).toFinset)

/-- Modelled from the spec: `exists(pattern) -> bool` of sections 4.2 and 6 (absent
`suffix_tree.h`): whether the walk consumes the full pattern. -/
def «exists» (bufs : Buffers) (root : Node V) (pattern : List Char) : Bool :=
  (locate_node bufs pattern root).isSome

/-- Modelled from the spec: the first character of an edge's label, by which section 4.3
orders the edges of a node (absent `suffix_tree.h`); `none` for a label without
characters. -/
def edge_key (bufs : Buffers) (e : Edge (Node V)) : Option Char :=
  (e.label.content bufs).head?

/-- Modelled from the spec: "ascending order of their label's first character" of
section 4.3 (absent `suffix_tree.h`); a label without characters comes first. -/
def key_le : Option Char → Option Char → Bool
  | none, _ => true
  | some _, none => false
  | some a, some b => decide (a ≤ b)

/-- Modelled from the spec: one step of sorting the edges of a node on demand (section
4.3, absent `suffix_tree.h`): `e` is placed before the first edge whose key is not
smaller. -/
def insert_edge (bufs : Buffers) (e : Edge (Node V)) :
    List (Edge (Node V)) → List (Edge (Node V))
  | [] => [e]
  | f :: fs =>
    if key_le (edge_key bufs e) (edge_key bufs f) then e :: f :: fs
    else f :: insert_edge bufs e fs

mutual
/-- Modelled from the spec: the edges of every node "sorted on demand" for the traversal
of section 4.3 (absent `suffix_tree.h`). -/
def sort_node (bufs : Buffers) : Node V → Node V
  | Node.mk es lf => Node.mk (sort_edges bufs es) lf
/-- Modelled from the spec: insertion sort, by first character, of the edges of a node
whose subtrees are sorted likewise (section 4.3, absent `suffix_tree.h`). -/
def sort_edges (bufs : Buffers) : List (Edge (Node V)) → List (Edge (Node V))
  | [] => []
  | e :: es =>
    insert_edge bufs { label := e.label, child := (sort_node bufs e.child) } (sort_edges bufs es)
end

/-- Modelled from the spec: the junction of two consecutive parts of the traversal below
a node of string-depth `d` (section 4.3, absent `suffix_tree.h`): "the LCP between two
lexicographically-adjacent leaves equals the string-depth of their lowest common
ancestor". -/
def join (d : Nat) (x y : List (Range × V) × List Nat) : List (Range × V) × List Nat :=
  if x.1.isEmpty then y
  else if y.1.isEmpty then x
  else (x.1 ++ y.1, x.2 ++ d :: y.2)

mutual
/-- Modelled from the spec: the depth-first traversal of section 4.3 (absent
`suffix_tree.h`) below a node of string-depth `d`: the leaves in traversal order and
the LCP values between consecutive ones. -/
def walk_node (bufs : Buffers) (d : Nat) : Node V → List (Range × V) × List Nat
  | Node.mk es lf =>
    join d (match lf with
      | some l => ([l], [])
      | none => ([], [])) (walk_edges bufs d es)
/-- Modelled from the spec: the traversal of section 4.3 over the edges of a node of
string-depth `d` (absent `suffix_tree.h`); a child's string-depth adds the length of the
edge's label. -/
def walk_edges (bufs : Buffers) (d : Nat) :
    List (Edge (Node V)) → List (Range × V) × List Nat
  | [] => ([], [])
  | e :: es => join d (walk_node bufs (d + e.label.size bufs) e.child) (walk_edges bufs d es)
end

/-- Modelled from the spec: `get_suffix_array_and_lcp_array()` of sections 4.3 and 6
(absent `suffix_tree.h`): the pair `(suffix_array, lcp_array)`. -/
def get_suffix_array_and_lcp_array (bufs : Buffers) (root : Node V) :
    List (Range × V) × List Nat :=
  walk_node bufs 0 (sort_node bufs root)

/-- Modelled from the spec: an "open" internal node of the stack of section 4.4 (absent
`suffix_tree.h`), "annotated by string-depth": the label of the edge that will attach it
to the node below it on the stack, and the edges attached to it so far. -/
structure Open (V : Type) where
  depth : Nat
  label : Range
  edges : List (Edge (Node V))

/-- Modelled from the spec: attaching a popped node to the node below it on the stack
(section 4.4, absent `suffix_tree.h`). -/
def attach_open (top parent : Open V) : Open V :=
  { parent with edges := parent.edges ++ [{ label := top.label, child := Node.mk top.edges none }] }

/-- Modelled from the spec: "pop/attach internal nodes from the stack" while the top is
deeper than `l` (section 4.4, absent `suffix_tree.h`); `top` is the top of the stack and
the list is the rest of it. -/
def pop_to (l : Nat) (top : Open V) : List (Open V) → List (Open V)
  | [] => [top]
  | parent :: rest =>
    if l < top.depth then pop_to l (attach_open top parent) rest
    else top :: parent :: rest

/-- Modelled from the spec: "splitting or reusing a node there" (section 4.4, absent
`suffix_tree.h`): when the top is shallower than `l`, its last edge is split at depth
`l` and the new internal node becomes the top. -/
def split_top (l : Nat) (stack : List (Open V)) : List (Open V) :=
  match stack with
  | [] => []
  | top :: rest =>
    if top.depth < l then
      match top.edges.getLast? with
      | none => top :: rest
      | some e =>
        { depth := l, label := e.label.first (l - top.depth),
          edges := [{ label := e.label.after (l - top.depth), child := e.child }] } ::
        { top with edges := top.edges.dropLast } :: rest
    else top :: rest

/-- Modelled from the spec: "then attach a new leaf edge for the remaining suffix beyond
that depth, carrying the entry's Range and value" (section 4.4, absent
`suffix_tree.h`). -/
def attach_leaf (l : Nat) (entry : Range × V) (stack : List (Open V)) : List (Open V) :=
  match stack with
  | [] => []
  | top :: rest =>
    { top with edges := top.edges ++ [{ label := entry.1.after l,
                                        child := Node.mk [] (some entry) }] } :: rest

/-- Modelled from the spec: the processing of one suffix-array entry with the LCP value
`l` towards its predecessor (section 4.4, absent `suffix_tree.h`). -/
def reconstruct_step (stack : List (Open V)) (item : (Range × V) × Nat) : List (Open V) :=
  match stack with
  | [] => []
  | top :: rest => attach_leaf item.2 item.1 (split_top item.2 (pop_to item.2 top rest))

/-- Modelled from the spec: the end of the reconstruction of section 4.4 (absent
`suffix_tree.h`): every open node is popped and attached to the node below it; the last
one is the root. -/
def close (top : Open V) : List (Open V) → Node V
  | [] => Node.mk top.edges none
  | parent :: rest => close (attach_open top parent) rest

/-- Modelled from the spec: the open root with which the reconstruction of section 4.4
starts (absent `suffix_tree.h`): string-depth 0, no edges. -/
def open_root : Open V :=
  { depth := 0, label := suffix_range 0 0 0, edges := [] }

/-- Modelled from the spec: the reconstruction constructor `(suffix_array, lcp_array)`
of sections 4.4 and 6 (absent `suffix_tree.h`): the entries are processed in order, the
first with depth 0 and entry `i` with `lcp[i-1]`; at the end the open nodes are
closed. -/
def reconstruct (sa : List (Range × V)) (lcp : List Nat) : Node V :=
  match (sa.zip (0 :: lcp)).foldl reconstruct_step [open_root] with
  | [] => empty_tree
  | top :: rest => close top rest

/-- The caller-owned texts of a sequence of `insert(text, value)` calls: call number `k`
passes buffer `k`. -/
def texts (ops : List (List Char × V)) : Buffers := ops.map Prod.fst

/-- The tree after the sequence of calls `insert(text, value)` on the empty tree. -/
def build (ops : List (List Char × V)) : Node V :=
  ops.enum.foldl (fun t kv => insert (texts ops) t kv.1 kv.2.2) empty_tree

/-- The occurrences of a pattern in the inserted texts: for call number `k` with
`(text, value)` and every offset `i` at which `pattern` occurs in `text`, the `Range`
from `text + i` to the end of `text`, with `value`. -/
def occurrences (ops : List (List Char × V)) (pattern : List Char) : List (Range × V) :=
  ops.enum.flatMap (fun kv =>
    ((List.range (kv.2.1.length + 1)).filter (fun i => decide (pattern <+: kv.2.1.drop i))).map
      (fun i => (suffix_range kv.1 i kv.2.1.length, kv.2.2)))

/-- The inserts of `test_simple_multiple` (test_suffix_tree.cc 53-60). -/
def banana_ops : List (List Char × Nat) :=
  [("banana".toList, 0), ("bandana".toList, 1), ("bar".toList, 2), ("foobar".toList, 3)]

/-- The suffixes of buffer `id`, each with the leaf `insert` creates for it: the `Range`
from the suffix's start to the end of the buffer, with the value. -/
def suffix_entries (bufs : Buffers) (id : Nat) (value : V) : List (List Char × (Range × V)) :=
  (List.range (bufs.getD id []).length).map (fun i =>
    ((bufs.getD id []).drop i, (suffix_range id i (bufs.getD id []).length, value)))

/-- The suffixes of all inserted texts, each with its leaf. -/
def all_suffixes (ops : List (List Char × V)) : List (List Char × (Range × V)) :=
  ops.enum.flatMap (fun kv => suffix_entries (texts ops) kv.1 kv.2.2)

/-- The LCP values of consecutive elements of a list of character sequences, each
increased by `d`. -/
def lcps (d : Nat) : List (List Char) → List Nat
  | a :: b :: l => (d + common_prefix_length a b) :: lcps d (b :: l)
  | _ => []

mutual
/-- The leaves of a subtree in traversal order, each with the concatenated labels of the
path that leads to it from the node. -/
def entries (bufs : Buffers) : Node V → List (List Char × (Range × V))
  | Node.mk es lf =>
    (match lf with
      | some l => [([], l)]
      | none => []) ++ entries_edges bufs es
/-- The leaves below a list of edges, with their paths. -/
def entries_edges (bufs : Buffers) : List (Edge (Node V)) → List (List Char × (Range × V))
  | [] => []
  | e :: es =>
    (entries bufs e.child).map (fun x => (e.label.content bufs ++ x.1, x.2)) ++ entries_edges bufs es
end

/-- Determinism of traversal (section 3): among the edges of one node no two labels
share the same first character. -/
def Deterministic (bufs : Buffers) (es : List (Edge (Node V))) : Prop :=
  (es.map (edge_key bufs)).Pairwise (fun a b => ∀ c, a = some c → b ≠ some c)

mutual
/-- Well-formed subtree: at every node the edges are deterministic, and an edge with an
empty label leads to a node without edges. -/
def WF (bufs : Buffers) : Node V → Prop
  | Node.mk es _ => WF_edges bufs es ∧ Deterministic bufs es
/-- Well-formedness of the subtrees below a list of edges. -/
def WF_edges (bufs : Buffers) : List (Edge (Node V)) → Prop
  | [] => True
  | e :: es => WF bufs e.child ∧ (e.label.content bufs = [] → e.child.edges = []) ∧ WF_edges bufs es
end

mutual
/-- At every node of the subtree the edges are in ascending order of their keys. -/
def SortedKeys (bufs : Buffers) : Node V → Prop
  | Node.mk es _ =>
    SortedKeys_edges bufs es ∧
      es.Pairwise (fun a b => key_le (edge_key bufs a) (edge_key bufs b) = true)
/-- The subtrees below a list of edges have their edges in ascending order. -/
def SortedKeys_edges (bufs : Buffers) : List (Edge (Node V)) → Prop
  | [] => True
  | e :: es => SortedKeys bufs e.child ∧ SortedKeys_edges bufs es
end

/-- Lexicographic order of character sequences, equality included. -/
def lex_le (a b : List Char) : Prop := a = b ∨ List.Lex (· < ·) a b

/-- The edges attached to an open node are well-formed and deterministic, and no key
is greater than `nxt`, the character with which the path of the last suffix continues
below the node. -/
def TopBasic (bufs : Buffers) (nxt : Option Char) (f : Open V) : Prop :=
  WF_edges bufs f.edges ∧ Deterministic bufs f.edges ∧
    ∀ e ∈ f.edges, key_le (edge_key bufs e) nxt = true

/-- An open node that is not the top of the stack: as `TopBasic`, and no attached edge
starts with `nxt`, the first character of the open child's label. -/
def FrameOK (bufs : Buffers) (nxt : Option Char) (f : Open V) : Prop :=
  TopBasic bufs nxt f ∧ ∀ e ∈ f.edges, ∀ c, edge_key bufs e = some c → nxt ≠ some c

/-- The stack below the open node `child`, for the path `q` of the last suffix: depths
increase towards the top, the label of every open node spells the characters of `q`
between its parent's depth and its own, and the bottom is the root at depth 0. -/
def Below (bufs : Buffers) (q : List Char) : Open V → List (Open V) → Prop
  | child, [] => child.depth = 0
  | child, parent :: rest =>
    parent.depth < child.depth ∧ child.depth ≤ q.length ∧
      child.label.content bufs = (q.drop parent.depth).take (child.depth - parent.depth) ∧
      FrameOK bufs (q.drop parent.depth).head? parent ∧ Below bufs q parent rest

/-- The leaves of the closed tree in terms of the stack: `C` are the leaves below the
open node whose label is `lab`, and the list is the stack below it. -/
def up (bufs : Buffers) : List (Open V) → Range → List (List Char × (Range × V)) →
    List (List Char × (Range × V))
  | [], _, C => C
  | parent :: rest, lab, C =>
    up bufs rest parent.label
      (entries_edges bufs parent.edges ++ C.map (fun x => (lab.content bufs ++ x.1, x.2)))

/-- The concatenated labels from the root to the open node with label `lab`. -/
def path_above (bufs : Buffers) : List (Open V) → Range → List Char
  | [], _ => []
  | parent :: rest, lab => path_above bufs rest parent.label ++ lab.content bufs

/-- When the top is shallower than `l`, its last edge runs along the path `q` of the last
suffix at least to depth `l`, and ends in a node without edges if it ends at `l`. -/
def SplitCond (bufs : Buffers) (l : Nat) (q : List Char) (top : Open V) : Prop :=
  top.depth < l → ∃ init e, top.edges = init ++ [e] ∧
    l ≤ top.depth + (e.label.content bufs).length ∧
    e.label.content bufs <+: q.drop top.depth ∧
    (l = top.depth + (e.label.content bufs).length → e.child.edges = [])

/-- The state of the reconstruction between two entries, `q` being the path of the last
suffix. -/
def Inv (bufs : Buffers) (q : List Char) (top : Open V) (rest : List (Open V)) : Prop :=
  TopBasic bufs (q.drop top.depth).head? top ∧ Below bufs q top rest ∧
    ∀ l, l ≤ q.length → SplitCond bufs l q top

/-- The items of the reconstruction are consistent with the path `q` of the preceding
suffix: each LCP value is exact and the paths ascend. -/
def Valid (bufs : Buffers) : List Char → List ((Range × V) × Nat) → Prop
  | _, [] => True
  | q, item :: items =>
    item.2 = common_prefix_length q (item.1.1.content bufs) ∧
      lex_le q (item.1.1.content bufs) ∧ Valid bufs (item.1.1.content bufs) items

/-- The leaves whose path starts with the pattern, in the order of `entries`. -/
def matching (p : List Char) (l : List (List Char × (Range × V))) : List (Range × V) :=
  (l.filter (fun x => decide (p <+: x.1))).map Prod.snd

/-- The leaves below the node the walk reaches; none when the walk fails. -/
def located (bufs : Buffers) (r : Option (Node V)) : List (Range × V) :=
  match r with
  | some n => (entries bufs n).map Prod.snd
  | none => []

mutual
/-- The leaves of a subtree in the order in which the explicit-stack walk emits them:
a node first, then its children from the last edge to the first. -/
def leaves_rev : Node V → List (Range × V)
  | Node.mk es lf =>
    (match lf with
      | some l => [l]
      | none => []) ++ leaves_rev_edges es
/-- The leaves below a list of edges, last edge first. -/
def leaves_rev_edges : List (Edge (Node V)) → List (Range × V)
  | [] => []
  | e :: es => leaves_rev_edges es ++ leaves_rev e.child
end

end SuffixTree
/-! ## Trie: lemmas -/

namespace Trie

variable {V : Type}

@[simp] theorem Node.children_mk (c : List (Edge (Node V))) (l : Bool) (v : V) :
    (Node.mk c l v).children = c := rfl

@[simp] theorem Node.is_leaf_mk (c : List (Edge (Node V))) (l : Bool) (v : V) :
    (Node.mk c l v).is_leaf = l := rfl

@[simp] theorem Node.value_mk (c : List (Edge (Node V))) (l : Bool) (v : V) :
    (Node.mk c l v).value = v := rfl

theorem choose_child_cons (e : Edge (Node V)) (es : List (Edge (Node V))) (c : Char) :
    choose_child (e :: es) c = if e.part = c then some e.dest else choose_child es c := rfl

theorem update_child_cons (e : Edge (Node V)) (es : List (Edge (Node V))) (ch : Char)
    (f : Node V → Node V) :
    update_child (e :: es) ch f =
      if e.part = ch then { e with dest := f e.dest } :: es else e :: update_child es ch f := rfl

theorem choose_child_append (cs : List (Edge (Node V))) (e : Edge (Node V)) (c : Char) :
    choose_child (cs ++ [e]) c =
      match choose_child cs c with
      | some n => some n
      | none => if e.part = c then some e.dest else none := by
  induction cs with
  | nil => simp [choose_child]
  | cons d ds ih =>
    by_cases h : d.part = c
    · simp [choose_child, h]
    · simp [choose_child, h, ih]

theorem choose_child_update_same (cs : List (Edge (Node V))) (ch : Char)
    (f : Node V → Node V) :
    choose_child (update_child cs ch f) ch = (choose_child cs ch).map f := by
  induction cs with
  | nil => simp [choose_child, update_child]
  | cons d ds ih =>
    by_cases h : d.part = ch
    · simp [choose_child, update_child, h]
    · simp [choose_child, update_child, h, ih]

theorem choose_child_update_other (cs : List (Edge (Node V))) (ch c : Char)
    (f : Node V → Node V) (hc : c ≠ ch) :
    choose_child (update_child cs ch f) c = choose_child cs c := by
  induction cs with
  | nil => simp [choose_child, update_child]
  | cons d ds ih =>
    rw [update_child_cons]
    by_cases h : d.part = ch
    · have h2 : d.part ≠ c := fun h3 => hc (h3.symm.trans h)
      rw [if_pos h, choose_child_cons, choose_child_cons, if_neg h2, if_neg h2]
    · rw [if_neg h, choose_child_cons, choose_child_cons, ih]

theorem lookup_nil (node : Node V) :
    lookup node [] = if node.is_leaf then some node.value else none := by
  simp [lookup, find_node_walk]

theorem lookup_cons (node : Node V) (c : Char) (rest : List Char) :
    lookup node (c :: rest) =
      match choose_child node.children c with
      | some next => lookup next rest
      | none => none := by
  simp only [lookup, find_node_walk]
  cases choose_child node.children c <;> rfl

theorem lookup_new_node [Inhabited V] (key : List Char) :
    lookup (new_node : Node V) key = none := by
  cases key with
  | nil => simp [lookup_nil, new_node, Node.is_leaf]
  | cons c rest => simp [lookup_cons, new_node, Node.children, choose_child]

/-- After the walk of `insert` over `key`, the walk of `find_node` over `key` ends in a
marked node holding `value`. With `appending` set the node is a fresh one. -/
theorem lookup_insert_walk_same [Inhabited V] (key : List Char) (value : V) :
    ∀ (node : Node V) (appending : Bool), (appending = true → node.children = []) →
      lookup (insert_walk node appending key value) key = some value := by
  induction key with
  | nil =>
    intro node appending _
    simp [insert_walk, lookup_nil]
  | cons ch rest ih =>
    intro node appending happ
    rw [lookup_cons]
    cases appending with
    | true =>
      have hc : node.children = [] := happ rfl
      simp only [insert_walk, if_true, Node.children_mk, hc, List.nil_append, choose_child]
      exact ih new_node true (fun _ => rfl)
    | false =>
      cases hcc : choose_child node.children ch with
      | none =>
        simp only [insert_walk, Bool.false_eq_true, if_false, hcc, Node.children_mk,
          choose_child_append, if_true]
        exact ih new_node true (fun _ => rfl)
      | some next =>
        simp only [insert_walk, Bool.false_eq_true, if_false, hcc, Node.children_mk,
          choose_child_update_same, Option.map_some']
        exact ih next false (fun h => by cases h)

/-- The walk of `insert` over `key` leaves what every other key leads to unchanged. -/
theorem lookup_insert_walk_other [Inhabited V] (key : List Char) (value : V) :
    ∀ (k : List Char) (node : Node V) (appending : Bool), k ≠ key →
      lookup (insert_walk node appending key value) k = lookup node k := by
  induction key with
  | nil =>
    intro k node appending hk
    cases k with
    | nil => exact absurd rfl hk
    | cons c r => simp [insert_walk, lookup_cons]
  | cons ch rest ih =>
    intro k node appending hk
    cases k with
    | nil =>
      cases h : (if appending = true then none else choose_child node.children ch) <;>
        simp [insert_walk, h, lookup_nil]
    | cons c r =>
      rw [lookup_cons, lookup_cons]
      cases h : (if appending = true then none else choose_child node.children ch) with
      | some next =>
        have hcc : choose_child node.children ch = some next := by
          cases appending <;> simp_all
        simp only [insert_walk, h, Node.children_mk]
        by_cases hc : c = ch
        · subst hc
          have hr : r ≠ rest := fun h2 => hk (by rw [h2])
          rw [choose_child_update_same, hcc]
          simp only [Option.map_some']
          exact ih r next appending hr
        · rw [choose_child_update_other _ _ _ _ hc]
      | none =>
        simp only [insert_walk, h, Node.children_mk, choose_child_append]
        cases hcc : choose_child node.children c with
        | some n => rfl
        | none =>
          by_cases hc : ch = c
          · subst hc
            have hr : r ≠ rest := fun h2 => hk (by rw [h2])
            simp only [if_true]
            rw [ih r new_node true hr, lookup_new_node]
          · simp [hc]

theorem exists_eq_lookup (root : Node V) (key : List Char) :
    «exists» root key = (!key.isEmpty && (lookup root key).isSome) := by
  unfold «exists» find_node lookup
  cases key with
  | nil => simp
  | cons c r =>
    cases find_node_walk root (c :: r) with
    | none => simp
    | some n => cases hl : n.is_leaf <;> simp [hl]

theorem get_value_eq_lookup [Inhabited V] (root : Node V) (key : List Char) :
    get_value root key = if key.isEmpty then default else (lookup root key).getD default := by
  unfold get_value find_node lookup
  cases key with
  | nil => simp
  | cons c r =>
    cases find_node_walk root (c :: r) with
    | none => simp
    | some n => cases hl : n.is_leaf <;> simp [hl]

end Trie

/-! ## Trie: claims -/

namespace Trie

variable {V : Type}

theorem exists_insert_other [Inhabited V] (t : Node V) (key k : List Char) (value : V)
    (hk : k ≠ key) : «exists» (insert t key value) k = «exists» t k := by
  rw [exists_eq_lookup, exists_eq_lookup]
  unfold insert
  cases hkey : key.isEmpty with
  | true => simp
  | false => simp [lookup_insert_walk_other key value k t false hk]

theorem exists_insert_same [Inhabited V] (t : Node V) (key : List Char) (value : V)
    (hk : key ≠ []) : «exists» (insert t key value) key = true := by
  rw [exists_eq_lookup]
  unfold insert
  have h1 : key.isEmpty = false := by cases key <;> simp_all
  simp [h1, lookup_insert_walk_same key value t false (fun h => by cases h)]

theorem exists_new_node [Inhabited V] (k : List Char) :
    «exists» (new_node : Node V) k = false := by
  rw [exists_eq_lookup, lookup_new_node]; simp

theorem exists_foldl_insert [Inhabited V] (ops : List (List Char × V)) :
    ∀ (t : Node V) (k : List Char),
      «exists» (ops.foldl (fun t kv => insert t kv.1 kv.2) t) k = true ↔
        (k ≠ [] ∧ ∃ v, (k, v) ∈ ops) ∨ «exists» t k = true := by
  induction ops with
  | nil => intro t k; simp
  | cons op rest ih =>
    intro t k
    rw [List.foldl_cons, ih]
    by_cases hk : k = op.1
    · by_cases hne : k = []
      · have h0 : op.1 = [] := hk ▸ hne
        have : insert t op.1 op.2 = t := by simp [insert, h0]
        rw [this]; simp [hne]
      · have h1 : «exists» (insert t op.1 op.2) k = true := by
          rw [hk]; exact exists_insert_same t op.1 op.2 (hk ▸ hne)
        have h2 : ∃ v, (k, v) ∈ op :: rest := ⟨op.2, by rw [hk]; exact List.mem_cons_self _ _⟩
        simp only [h1, or_true, true_iff]
        exact Or.inl ⟨hne, h2⟩
    · rw [exists_insert_other t op.1 k op.2 hk]
      have h3 : ∀ v, (k, v) ≠ op := fun v h => hk (by rw [← h])
      simp [List.mem_cons, h3]

/-- The assertions of `main` (trie.cc 154-172) hold on the embedding. -/
theorem main_assertions :
    «exists» main_trie "banana".toList = true ∧ get_value main_trie "banana".toList = 1 ∧
    «exists» main_trie "foo".toList = true ∧ get_value main_trie "foo".toList = 3 ∧
    «exists» main_trie "foop".toList = false ∧ get_value main_trie "foop".toList = 0 ∧
    «exists» main_trie "ban".toList = false ∧ get_value main_trie "ban".toList = 0 ∧
    find_candidates main_trie "ban".toList = some ["bandana".toList, "banana".toList] := by
  decide

/-- C8: after `insert(k, v)` with a non-empty key `k`, on a trie built by any sequence of
inserts, `exists(k)` is true and `get_value(k)` is `v`; whether `k` was present before,
is a proper prefix of a present key, or extends one, plays no role. -/
theorem insert_then_exists_and_get_value [Inhabited V] (ops : List (List Char × V))
    (k : List Char) (v : V) (hk : k ≠ []) :
    «exists» (insert (build ops) k v) k = true ∧ get_value (insert (build ops) k v) k = v := by
  refine ⟨exists_insert_same _ k v hk, ?_⟩
  rw [get_value_eq_lookup]
  unfold insert
  have h1 : k.isEmpty = false := by cases k <;> simp_all
  simp [h1, lookup_insert_walk_same k v (build ops) false (fun h => by cases h)]

/-- Witness of C8 on the trie of `main`: `foo` is re-inserted with another value; it was
present, is a proper prefix of `foobar`, and `insert` is applied to a built trie. -/
theorem insert_then_exists_and_get_value_witness :
    "foo".toList ≠ [] ∧
      («exists» (insert (build [("banana".toList, (1 : Int)), ("bandana".toList, 2),
          ("foo".toList, 3), ("foobar".toList, 4)]) "foo".toList 7) "foo".toList = true ∧
       get_value (insert (build [("banana".toList, (1 : Int)), ("bandana".toList, 2),
          ("foo".toList, 3), ("foobar".toList, 4)]) "foo".toList 7) "foo".toList = 7) :=
  ⟨by decide, insert_then_exists_and_get_value _ _ _ (by decide)⟩

/-- C9: on the trie built by a sequence of inserts, `exists(k)` is true exactly when `k`
is non-empty and is the key of some insert of the sequence. -/
theorem exists_iff_inserted [Inhabited V] (ops : List (List Char × V)) (k : List Char) :
    «exists» (build ops) k = true ↔ (k ≠ [] ∧ ∃ v, (k, v) ∈ ops) := by
  unfold build
  rw [exists_foldl_insert, exists_new_node]
  simp

/-- C10 (failing input): on the trie of `main`, which holds both `foo` and `foobar`,
`find_candidates("foo")` is `["foobar"]`: the inserted key `foo`, which starts with the
queried `foo`, is left out because its node has a child. -/
theorem find_candidates_misses_inner_key :
    find_candidates main_trie "foo".toList = some ["foobar".toList] ∧
      «exists» main_trie "foo".toList = true := by
  decide

end Trie

/-! ## Trie: default value, frame of insert, candidates, distinct edges -/

namespace Trie

variable {V : Type}

theorem insert_nil [Inhabited V] (t : Node V) (v : V) : insert t [] v = t := by
  simp [insert]

theorem find_node_nil (t : Node V) (b : Bool) : find_node t [] b = none := by
  simp [find_node]

theorem lookup_insert_same [Inhabited V] (t : Node V) (k : List Char) (v : V) (hk : k ≠ []) :
    lookup (insert t k v) k = some v := by
  unfold insert
  have h1 : k.isEmpty = false := by cases k <;> simp_all
  simp [h1, lookup_insert_walk_same k v t false (fun h => by cases h)]

theorem lookup_insert_other [Inhabited V] (t : Node V) (key k : List Char) (v : V)
    (hk : k ≠ key) : lookup (insert t key v) k = lookup t k := by
  unfold insert
  cases hkey : key.isEmpty with
  | true => simp
  | false => simp [lookup_insert_walk_other key v k t false hk]

theorem lookup_foldl_insert [Inhabited V] (k : List Char) (hk : k ≠ []) :
    ∀ (ops : List (List Char × V)) (t : Node V),
      lookup (ops.foldl (fun t kv => insert t kv.1 kv.2) t) k =
        match last_value ops k with
        | some v => some v
        | none => lookup t k := by
  intro ops
  induction ops with
  | nil => intro t; simp [last_value]
  | cons op rest ih =>
    intro t
    rw [List.foldl_cons, ih, last_value]
    cases h : last_value rest k with
    | some v => rfl
    | none =>
      by_cases h1 : op.1 = k
      · simp only [h1, if_true]
        rw [← h1, lookup_insert_same t op.1 op.2 (h1 ▸ hk)]
      · simp only [h1, if_false]
        exact lookup_insert_other t op.1 k op.2 (fun h2 => h1 h2.symm)

theorem lookup_build [Inhabited V] (ops : List (List Char × V)) (k : List Char) (hk : k ≠ []) :
    lookup (build ops) k = last_value ops k := by
  unfold build
  rw [lookup_foldl_insert k hk, lookup_new_node]
  cases last_value ops k <;> rfl

/-- C11: on a trie built by inserts, `get_value(k)` is the default value whenever
`exists(k)` is false, and whenever `exists(k)` is true it is the value of the most recent
insert of `k`. -/
theorem get_value_default_or_last_inserted [Inhabited V] (ops : List (List Char × V))
    (k : List Char) :
    («exists» (build ops) k = false → get_value (build ops) k = default) ∧
    («exists» (build ops) k = true →
      ∃ v, last_value ops k = some v ∧ get_value (build ops) k = v) := by
  rw [exists_eq_lookup, get_value_eq_lookup]
  cases k with
  | nil => simp
  | cons c r =>
    rw [lookup_build ops (c :: r) (by simp)]
    cases last_value ops (c :: r) <;> simp

/-- Witness of C11 on the trie of `main` with `foo` inserted a second time: `ban` is only
an interior prefix, `foo` was last inserted with 7. -/
theorem get_value_default_or_last_inserted_witness :
    «exists» (build [("banana".toList, (1 : Int)), ("bandana".toList, 2),
        ("foo".toList, 3), ("foobar".toList, 4), ("foo".toList, 7)]) "ban".toList = false ∧
    get_value (build [("banana".toList, (1 : Int)), ("bandana".toList, 2),
        ("foo".toList, 3), ("foobar".toList, 4), ("foo".toList, 7)]) "ban".toList = default ∧
    «exists» (build [("banana".toList, (1 : Int)), ("bandana".toList, 2),
        ("foo".toList, 3), ("foobar".toList, 4), ("foo".toList, 7)]) "foo".toList = true ∧
    (∃ v, last_value [("banana".toList, (1 : Int)), ("bandana".toList, 2),
        ("foo".toList, 3), ("foobar".toList, 4), ("foo".toList, 7)] "foo".toList = some v ∧
      get_value (build [("banana".toList, (1 : Int)), ("bandana".toList, 2),
        ("foo".toList, 3), ("foobar".toList, 4), ("foo".toList, 7)]) "foo".toList = v) :=
  ⟨by decide,
   (get_value_default_or_last_inserted _ _).1 (by decide),
   by decide,
   (get_value_default_or_last_inserted _ _).2 (by decide)⟩

/-- C12: `insert` with the empty key returns the trie unchanged: the root gains no edge
and is not marked, `exists`, `get_value` and `find_candidates` answer every argument as
before, and `exists` of the empty key is false. -/
theorem insert_empty_key_unchanged [Inhabited V] (t : Node V) (v : V) :
    insert t [] v = t ∧
    (insert t [] v).children = t.children ∧ (insert t [] v).is_leaf = t.is_leaf ∧
    (∀ k, «exists» (insert t [] v) k = «exists» t k) ∧
    (∀ k, get_value (insert t [] v) k = get_value t k) ∧
    (∀ p, find_candidates (insert t [] v) p = find_candidates t p) ∧
    «exists» (insert t [] v) [] = false := by
  rw [insert_nil]
  refine ⟨rfl, rfl, rfl, fun _ => rfl, fun _ => rfl, fun _ => rfl, ?_⟩
  simp [«exists», find_node]

/-- C17: on every trie, `insert(k, v)` changes neither `exists(k')` nor `get_value(k')`
for any other key `k'`; this holds for every non-empty `k`, and for the empty one too, as
`insert` then does nothing. -/
theorem insert_frame [Inhabited V] (t : Node V) (k k' : List Char) (v : V) (hne : k' ≠ k) :
    «exists» (insert t k v) k' = «exists» t k' ∧
      get_value (insert t k v) k' = get_value t k' := by
  rw [exists_eq_lookup, exists_eq_lookup, get_value_eq_lookup, get_value_eq_lookup,
    lookup_insert_other t k k' v hne]
  exact ⟨rfl, rfl⟩

/-- Witness of C17 on the trie of `main`: inserting `ban` changes nothing for `banana`. -/
theorem insert_frame_witness :
    "banana".toList ≠ "ban".toList ∧
    («exists» (insert main_trie "ban".toList 9) "banana".toList
        = «exists» main_trie "banana".toList ∧
      get_value (insert main_trie "ban".toList 9) "banana".toList
        = get_value main_trie "banana".toList) :=
  ⟨by decide, insert_frame _ _ _ _ (by decide)⟩


theorem trie_size_mk (cs : List (Edge (Node V))) (l : Bool) (v : V) :
    (Node.mk cs l v).size = 1 + Node.sizeEdges cs := by rw [Node.size]

theorem trie_sizeEdges_nil : Node.sizeEdges ([] : List (Edge (Node V))) = 0 := by
  rw [Node.sizeEdges]

theorem trie_sizeEdges_cons (e : Edge (Node V)) (es : List (Edge (Node V))) :
    Node.sizeEdges (e :: es) = e.dest.size + Node.sizeEdges es := by rw [Node.sizeEdges]

theorem trie_size_pos (n : Node V) : 1 ≤ n.size := by
  cases n with
  | mk cs l v => rw [trie_size_mk]; omega

theorem candidates_of_mk (key : List Char) (cs : List (Edge (Node V))) (l : Bool) (v : V) :
    candidates_of key (Node.mk cs l v) =
      (if cs.isEmpty then [key] else []) ++ candidates_of_edges key cs := by
  rw [candidates_of]

theorem candidates_of_edges_nil (key : List Char) :
    candidates_of_edges key ([] : List (Edge (Node V))) = [] := by rw [candidates_of_edges]

theorem candidates_of_edges_cons (key : List Char) (e : Edge (Node V))
    (es : List (Edge (Node V))) :
    candidates_of_edges key (e :: es) =
      candidates_of_edges key es ++ candidates_of (key ++ [e.part]) e.dest := by
  rw [candidates_of_edges]

theorem Det_mk (cs : List (Edge (Node V))) (l : Bool) (v : V) :
    Det (Node.mk cs l v) ↔ (cs.map (fun e => e.part)).Nodup ∧ Det_edges cs := by
  rw [Det]

theorem Det_edges_nil : Det_edges ([] : List (Edge (Node V))) ↔ True := by rw [Det_edges]

theorem Det_edges_cons (e : Edge (Node V)) (es : List (Edge (Node V))) :
    Det_edges (e :: es) ↔ Det e.dest ∧ Det_edges es := by rw [Det_edges]

theorem Marked_mk (cs : List (Edge (Node V))) (l : Bool) (v : V) :
    Marked (Node.mk cs l v) ↔ Marked_edges cs := by rw [Marked]

theorem Marked_edges_nil : Marked_edges ([] : List (Edge (Node V))) ↔ True := by
  rw [Marked_edges]

theorem Marked_edges_cons (e : Edge (Node V)) (es : List (Edge (Node V))) :
    Marked_edges (e :: es) ↔
      (e.dest.children = [] → e.dest.is_leaf = true) ∧ Marked e.dest ∧ Marked_edges es := by
  rw [Marked_edges]

theorem trie_push_children (key : List Char) (cs : List (Edge (Node V)))
    (st : List (List Char × Node V)) :
    cs.foldl (fun st edge => (key ++ [edge.part], edge.dest) :: st) st =
      (cs.map (fun e => (key ++ [e.part], e.dest))).reverse ++ st := by
  induction cs generalizing st with
  | nil => simp
  | cons e es ih => simp [ih]

theorem trie_sum_size_children (key : List Char) (cs : List (Edge (Node V))) :
    (((cs.map (fun e => (key ++ [e.part], e.dest))).reverse).map
      (fun it : List Char × Node V => it.2.size)).sum = Node.sizeEdges cs := by
  induction cs with
  | nil => simp [trie_sizeEdges_nil]
  | cons e es ih =>
    simp only [List.map_cons, List.reverse_cons, List.map_append, List.sum_append, ih,
      List.map_nil, List.sum_cons, List.sum_nil, trie_sizeEdges_cons]
    omega

theorem flatMap_candidates_children (key : List Char) (cs : List (Edge (Node V))) :
    (cs.map (fun e => (key ++ [e.part], e.dest))).reverse.flatMap
      (fun it : List Char × Node V => candidates_of it.1 it.2) = candidates_of_edges key cs := by
  induction cs with
  | nil => simp [candidates_of_edges_nil]
  | cons e es ih =>
    simp only [List.map_cons, List.reverse_cons, List.flatMap_append, ih, List.flatMap_cons,
      List.flatMap_nil, List.append_nil, candidates_of_edges_cons]

/-- With fuel for every node on the stack, the loop of `find_candidates` ends and appends
to `result` the keys of the childless nodes of the stacked subtrees, top of the stack
first. -/
theorem find_candidates_loop_eq (fuel : Nat) :
    ∀ (stack : List (List Char × Node V)) (result : List (List Char)),
      (stack.map (fun it => it.2.size)).sum ≤ fuel →
      find_candidates_loop fuel stack result =
        some (result ++ stack.flatMap (fun it => candidates_of it.1 it.2)) := by
  induction fuel with
  | zero =>
    intro stack result h
    cases stack with
    | nil => simp [find_candidates_loop]
    | cons it st =>
      have := trie_size_pos it.2
      simp only [List.map_cons, List.sum_cons] at h
      omega
  | succ fuel ih =>
    intro stack result h
    cases stack with
    | nil => simp [find_candidates_loop]
    | cons it st =>
      obtain ⟨key, n⟩ := it
      cases n with
      | mk cs l v =>
        simp only [List.map_cons, List.sum_cons, trie_size_mk] at h
        simp only [find_candidates_loop, Node.children_mk, trie_push_children]
        rw [ih]
        · simp only [List.flatMap_append, flatMap_candidates_children, List.flatMap_cons,
            candidates_of_mk]
          cases cs <;> simp
        · simp only [List.map_append, List.sum_append, trie_sum_size_children]
          omega

/-- The result of `find_candidates` in terms of the node the prefix leads to. -/
theorem find_candidates_eq (root : Node V) (pre : List Char) :
    find_candidates root pre =
      match find_node root pre false with
      | none => some []
      | some n => some (candidates_of pre n) := by
  unfold find_candidates
  cases hp : pre.isEmpty with
  | true =>
    have : pre = [] := by simpa using hp
    subst this
    simp [find_node]
  | false =>
    simp only [Bool.false_eq_true, if_false]
    cases hf : find_node root pre false with
    | none => rfl
    | some n =>
      simp only
      rw [find_candidates_loop_eq n.size [(pre, n)] [] (by simp)]
      simp

mutual
theorem node_induction {P : Node V → Prop}
    (h : ∀ cs l v, (∀ e ∈ cs, P (Edge.dest e)) → P (Node.mk cs l v)) : ∀ n, P n
  | Node.mk cs l v => h cs l v (edges_induction h cs)
theorem edges_induction {P : Node V → Prop}
    (h : ∀ cs l v, (∀ e ∈ cs, P (Edge.dest e)) → P (Node.mk cs l v)) :
    ∀ (cs : List (Edge (Node V))), ∀ e ∈ cs, P (Edge.dest e)
  | [] => fun _ he => absurd he (List.not_mem_nil _)
  | e :: es => fun d hd =>
    (List.mem_cons.1 hd).elim (fun h1 => h1 ▸ node_induction h e.dest)
      (fun h2 => edges_induction h es d h2)
end

theorem Det_edges_iff (cs : List (Edge (Node V))) :
    Det_edges cs ↔ ∀ e ∈ cs, Det (Edge.dest e) := by
  induction cs with
  | nil => simp [Det_edges_nil]
  | cons e es ih => simp [Det_edges_cons, ih]

theorem Marked_edges_iff (cs : List (Edge (Node V))) :
    Marked_edges cs ↔
      ∀ e ∈ cs, ((Edge.dest e).children = [] → (Edge.dest e).is_leaf = true) ∧
        Marked (Edge.dest e) := by
  induction cs with
  | nil => simp [Marked_edges_nil]
  | cons e es ih =>
    simp only [Marked_edges_cons, ih, List.mem_cons, forall_eq_or_imp]
    tauto

theorem Det_iff (n : Node V) :
    Det n ↔ (n.children.map (fun e => e.part)).Nodup ∧ ∀ e ∈ n.children, Det (Edge.dest e) := by
  cases n with
  | mk cs l v => rw [Det_mk, Det_edges_iff, Node.children_mk]

theorem Marked_iff (n : Node V) :
    Marked n ↔
      ∀ e ∈ n.children, ((Edge.dest e).children = [] → (Edge.dest e).is_leaf = true) ∧
        Marked (Edge.dest e) := by
  cases n with
  | mk cs l v => rw [Marked_mk, Marked_edges_iff, Node.children_mk]

theorem choose_child_mem (cs : List (Edge (Node V))) (ch : Char) (n : Node V)
    (h : choose_child cs ch = some n) : ∃ e ∈ cs, e.part = ch ∧ e.dest = n := by
  induction cs with
  | nil => simp [choose_child] at h
  | cons d ds ih =>
    rw [choose_child_cons] at h
    by_cases hd : d.part = ch
    · rw [if_pos hd] at h
      exact ⟨d, List.mem_cons_self _ _, hd, Option.some.inj h⟩
    · rw [if_neg hd] at h
      obtain ⟨e, he, h1, h2⟩ := ih h
      exact ⟨e, List.mem_cons_of_mem _ he, h1, h2⟩

theorem choose_child_eq_none (cs : List (Edge (Node V))) (ch : Char) :
    choose_child cs ch = none ↔ ch ∉ cs.map (fun e => e.part) := by
  induction cs with
  | nil => simp [choose_child]
  | cons d ds ih =>
    rw [choose_child_cons]
    by_cases hd : d.part = ch
    · simp [hd]
    · rw [if_neg hd, ih]
      simp [hd, Ne.symm hd]

theorem choose_child_of_mem (cs : List (Edge (Node V))) (e : Edge (Node V))
    (hn : (cs.map (fun e => e.part)).Nodup) (he : e ∈ cs) :
    choose_child cs e.part = some e.dest := by
  induction cs with
  | nil => cases he
  | cons d ds ih =>
    rw [choose_child_cons]
    rw [List.map_cons, List.nodup_cons] at hn
    rcases List.mem_cons.1 he with h1 | h1
    · subst h1; simp
    · have hd : d.part ≠ e.part := by
        intro h2
        exact hn.1 (h2 ▸ List.mem_map_of_mem (fun e => e.part) h1)
      rw [if_neg hd]
      exact ih hn.2 h1

theorem map_part_update_child (cs : List (Edge (Node V))) (ch : Char) (f : Node V → Node V) :
    (update_child cs ch f).map (fun e => e.part) = cs.map (fun e => e.part) := by
  induction cs with
  | nil => simp [update_child]
  | cons d ds ih =>
    rw [update_child_cons]
    by_cases hd : d.part = ch
    · rw [if_pos hd]; simp
    · rw [if_neg hd, List.map_cons, List.map_cons, ih]

theorem mem_update_child (cs : List (Edge (Node V))) (ch : Char) (f : Node V → Node V)
    (d : Edge (Node V)) (hd : d ∈ update_child cs ch f) :
    d ∈ cs ∨ ∃ e ∈ cs, e.part = ch ∧ d.dest = f e.dest := by
  induction cs with
  | nil => simp [update_child] at hd
  | cons c cs ih =>
    rw [update_child_cons] at hd
    by_cases hc : c.part = ch
    · rw [if_pos hc] at hd
      rcases List.mem_cons.1 hd with h1 | h1
      · exact Or.inr ⟨c, List.mem_cons_self _ _, hc, by rw [h1]⟩
      · exact Or.inl (List.mem_cons_of_mem _ h1)
    · rw [if_neg hc] at hd
      rcases List.mem_cons.1 hd with h1 | h1
      · exact Or.inl (h1 ▸ List.mem_cons_self _ _)
      · rcases ih h1 with h2 | ⟨e, he, h3, h4⟩
        · exact Or.inl (List.mem_cons_of_mem _ h2)
        · exact Or.inr ⟨e, List.mem_cons_of_mem _ he, h3, h4⟩

theorem update_child_ne_nil (cs : List (Edge (Node V))) (ch : Char) (f : Node V → Node V)
    (h : cs ≠ []) : update_child cs ch f ≠ [] := by
  cases cs with
  | nil => exact absurd rfl h
  | cons c cs =>
    rw [update_child_cons]
    by_cases hc : c.part = ch
    · rw [if_pos hc]; simp
    · rw [if_neg hc]; simp

theorem Det_new_node [Inhabited V] : Det (new_node : Node V) := by
  rw [Det_iff]; simp [new_node]

theorem Marked_new_node [Inhabited V] : Marked (new_node : Node V) := by
  rw [Marked_iff]; simp [new_node]

theorem insert_walk_nil [Inhabited V] (node : Node V) (appending : Bool) (value : V) :
    insert_walk node appending [] value = Node.mk node.children true value := by
  rw [insert_walk]

theorem insert_walk_cons_some [Inhabited V] (node next : Node V) (ch : Char)
    (rest : List Char) (value : V) (h : choose_child node.children ch = some next) :
    insert_walk node false (ch :: rest) value =
      Node.mk (update_child node.children ch (fun n => insert_walk n false rest value))
        node.is_leaf node.value := by
  rw [insert_walk]
  simp [h]

theorem insert_walk_cons_none [Inhabited V] (node : Node V) (appending : Bool) (ch : Char)
    (rest : List Char) (value : V)
    (h : appending = true ∨ choose_child node.children ch = none) :
    insert_walk node appending (ch :: rest) value =
      Node.mk (node.children ++ [{ part := ch, dest := insert_walk new_node true rest value }])
        node.is_leaf node.value := by
  rw [insert_walk]
  rcases h with h | h
  · simp [h]
  · cases appending <;> simp [h]

/-- The two ways the walk of `insert` takes a step. -/
theorem insert_walk_cons_cases [Inhabited V] (node : Node V) (appending : Bool) (ch : Char) :
    (appending = false ∧ ∃ next, choose_child node.children ch = some next) ∨
    (appending = true ∨ choose_child node.children ch = none) := by
  cases appending with
  | true => exact Or.inr (Or.inl rfl)
  | false =>
    cases h : choose_child node.children ch with
    | none => exact Or.inr (Or.inr rfl)
    | some next => exact Or.inl ⟨rfl, next, rfl⟩

/-- The node returned by the walk of `insert` is marked or has a child. -/
theorem insert_walk_leaf_or_child [Inhabited V] (key : List Char) (value : V) (node : Node V)
    (appending : Bool) :
    (insert_walk node appending key value).children = [] →
      (insert_walk node appending key value).is_leaf = true := by
  cases key with
  | nil => intro _; rw [insert_walk_nil]; rfl
  | cons ch rest =>
    intro h
    exfalso
    rcases insert_walk_cons_cases node appending ch with ⟨ha, next, hn⟩ | hn
    · subst ha
      rw [insert_walk_cons_some node next ch rest value hn, Node.children_mk] at h
      refine update_child_ne_nil _ _ _ ?_ h
      intro h0
      rw [h0] at hn
      simp [choose_child] at hn
    · rw [insert_walk_cons_none node appending ch rest value hn, Node.children_mk] at h
      simp at h

/-- The walk of `insert` keeps the edges of every node distinct in their characters; in
appending mode it works on a fresh node. -/
theorem Det_insert_walk [Inhabited V] (key : List Char) (value : V) :
    ∀ (node : Node V) (appending : Bool), (appending = true → node.children = []) →
      Det node → Det (insert_walk node appending key value) := by
  induction key with
  | nil =>
    intro node appending _ hd
    rw [insert_walk_nil, Det_iff]
    exact (Det_iff node).1 hd
  | cons ch rest ih =>
    intro node appending happ hd
    rw [Det_iff] at hd
    rcases insert_walk_cons_cases node appending ch with ⟨ha, next, hn⟩ | hn
    · subst ha
      rw [insert_walk_cons_some node next ch rest value hn, Det_iff, Node.children_mk,
        map_part_update_child]
      refine ⟨hd.1, ?_⟩
      intro d hmem
      rcases mem_update_child _ _ _ d hmem with h1 | ⟨e, he, _, h3⟩
      · exact hd.2 d h1
      · rw [h3]
        exact ih e.dest false (fun h => by cases h) (hd.2 e he)
    · rw [insert_walk_cons_none node appending ch rest value hn, Det_iff, Node.children_mk]
      have hnone : choose_child node.children ch = none := by
        rcases hn with h | h
        · rw [happ h]; rfl
        · exact h
      rw [choose_child_eq_none] at hnone
      constructor
      · rw [List.map_append, List.nodup_append]
        refine ⟨hd.1, by simp, ?_⟩
        intro a ha hb
        simp only [List.map_cons, List.map_nil, List.mem_singleton] at hb
        exact hnone (hb ▸ ha)
      · intro d hmem
        rcases List.mem_append.1 hmem with h1 | h1
        · exact hd.2 d h1
        · rw [List.mem_singleton] at h1
          rw [h1]
          exact ih new_node true (fun _ => rfl) Det_new_node

/-- The walk of `insert` keeps every childless node below the root marked. -/
theorem Marked_insert_walk [Inhabited V] (key : List Char) (value : V) :
    ∀ (node : Node V) (appending : Bool),
      Marked node → Marked (insert_walk node appending key value) := by
  induction key with
  | nil =>
    intro node appending hm
    rw [insert_walk_nil, Marked_iff]
    exact (Marked_iff node).1 hm
  | cons ch rest ih =>
    intro node appending hm
    rw [Marked_iff] at hm
    rcases insert_walk_cons_cases node appending ch with ⟨ha, next, hn⟩ | hn
    · subst ha
      rw [insert_walk_cons_some node next ch rest value hn, Marked_iff, Node.children_mk]
      intro d hmem
      rcases mem_update_child _ _ _ d hmem with h1 | ⟨e, he, _, h3⟩
      · exact hm d h1
      · rw [h3]
        exact ⟨insert_walk_leaf_or_child rest value e.dest false, ih e.dest false (hm e he).2⟩
    · rw [insert_walk_cons_none node appending ch rest value hn, Marked_iff, Node.children_mk]
      intro d hmem
      rcases List.mem_append.1 hmem with h1 | h1
      · exact hm d h1
      · rw [List.mem_singleton] at h1
        rw [h1]
        exact ⟨insert_walk_leaf_or_child rest value new_node true,
          ih new_node true Marked_new_node⟩

theorem Det_insert [Inhabited V] (t : Node V) (k : List Char) (v : V) (h : Det t) :
    Det (insert t k v) := by
  unfold insert
  cases k.isEmpty with
  | true => exact h
  | false => exact Det_insert_walk k v t false (fun h => by cases h) h

theorem Marked_insert [Inhabited V] (t : Node V) (k : List Char) (v : V) (h : Marked t) :
    Marked (insert t k v) := by
  unfold insert
  cases k.isEmpty with
  | true => exact h
  | false => exact Marked_insert_walk k v t false h

theorem Det_Marked_foldl [Inhabited V] (ops : List (List Char × V)) :
    ∀ (t : Node V), Det t → Marked t →
      Det (ops.foldl (fun t kv => insert t kv.1 kv.2) t) ∧
        Marked (ops.foldl (fun t kv => insert t kv.1 kv.2) t) := by
  induction ops with
  | nil => intro t h1 h2; exact ⟨h1, h2⟩
  | cons op rest ih =>
    intro t h1 h2
    rw [List.foldl_cons]
    exact ih _ (Det_insert t op.1 op.2 h1) (Marked_insert t op.1 op.2 h2)

theorem Det_build [Inhabited V] (ops : List (List Char × V)) : Det (build ops) :=
  (Det_Marked_foldl ops new_node Det_new_node Marked_new_node).1

theorem Marked_build [Inhabited V] (ops : List (List Char × V)) : Marked (build ops) :=
  (Det_Marked_foldl ops new_node Det_new_node Marked_new_node).2

theorem find_node_walk_nil (node : Node V) : find_node_walk node [] = some node := by
  rw [find_node_walk]

theorem find_node_walk_cons (node : Node V) (c : Char) (rest : List Char) :
    find_node_walk node (c :: rest) =
      match choose_child node.children c with
      | none => none
      | some next => find_node_walk next rest := by
  cases h : choose_child node.children c <;> simp [find_node_walk, h]

theorem find_node_walk_append (a b : List Char) :
    ∀ (node : Node V),
      find_node_walk node (a ++ b) =
        match find_node_walk node a with
        | none => none
        | some n => find_node_walk n b := by
  induction a with
  | nil => intro node; simp [find_node_walk_nil]
  | cons c r ih =>
    intro node
    rw [List.cons_append, find_node_walk_cons, find_node_walk_cons]
    cases choose_child node.children c with
    | none => rfl
    | some next => exact ih next

/-- The first-match walk of `find_node` follows a chain of edges. -/
theorem Path_of_walk (key : List Char) :
    ∀ (node t : Node V), find_node_walk node key = some t → Path node key t := by
  induction key with
  | nil =>
    intro node t h
    rw [find_node_walk_nil] at h
    cases h
    exact Path.nil node
  | cons c r ih =>
    intro node t h
    rw [find_node_walk_cons] at h
    cases hc : choose_child node.children c with
    | none => rw [hc] at h; cases h
    | some next =>
      rw [hc] at h
      obtain ⟨e, he, h1, h2⟩ := choose_child_mem _ _ _ hc
      subst h1
      subst h2
      exact Path.cons node e r t he (ih e.dest t h)

/-- Where no node has two edges with the same character, every chain of edges spelling
a key is the one the first-match walk of `find_node` follows. -/
theorem walk_of_Path (node t : Node V) (key : List Char) (hp : Path node key t) :
    Det node → find_node_walk node key = some t := by
  induction hp with
  | nil n => intro _; exact find_node_walk_nil n
  | cons n e rest t he _ ih =>
    intro hd
    rw [Det_iff] at hd
    rw [find_node_walk_cons, choose_child_of_mem n.children e hd.1 he]
    exact ih (hd.2 e he)

theorem Det_of_Path (node t : Node V) (key : List Char) (hp : Path node key t) :
    Det node → Det t := by
  induction hp with
  | nil n => exact id
  | cons n e rest t he _ ih =>
    intro hd
    exact ih (((Det_iff n).1 hd).2 e he)

theorem Marked_of_Path (node t : Node V) (key : List Char) (hp : Path node key t) :
    ((node.children = [] → node.is_leaf = true) ∧ Marked node) →
      (t.children = [] → t.is_leaf = true) ∧ Marked t := by
  induction hp with
  | nil n => exact id
  | cons n e rest t he _ ih =>
    intro hm
    exact ih ((Marked_iff n).1 hm.2 e he)

theorem Marked_of_Path_cons (node t : Node V) (c : Char) (rest : List Char)
    (hp : Path node (c :: rest) t) (hm : Marked node) :
    (t.children = [] → t.is_leaf = true) ∧ Marked t := by
  cases hp with
  | cons _ e _ _ he hp2 => exact Marked_of_Path e.dest t rest hp2 ((Marked_iff node).1 hm e he)

theorem mem_candidates_of_edges (key c : List Char) (cs : List (Edge (Node V))) :
    c ∈ candidates_of_edges key cs ↔
      ∃ e ∈ cs, c ∈ candidates_of (key ++ [Edge.part e]) (Edge.dest e) := by
  induction cs with
  | nil => simp [candidates_of_edges_nil]
  | cons d ds ih =>
    rw [candidates_of_edges_cons, List.mem_append, ih]
    constructor
    · rintro (⟨e, he, h⟩ | h)
      · exact ⟨e, List.mem_cons_of_mem _ he, h⟩
      · exact ⟨d, List.mem_cons_self _ _, h⟩
    · rintro ⟨e, he, h⟩
      rcases List.mem_cons.1 he with h1 | h1
      · exact Or.inr (h1 ▸ h)
      · exact Or.inl ⟨e, h1, h⟩

theorem mem_candidates_of (key c : List Char) (n : Node V) :
    c ∈ candidates_of key n ↔
      (n.children = [] ∧ c = key) ∨
        ∃ e ∈ n.children, c ∈ candidates_of (key ++ [Edge.part e]) (Edge.dest e) := by
  cases n with
  | mk cs l v =>
    rw [candidates_of_mk, List.mem_append, mem_candidates_of_edges, Node.children_mk]
    cases cs <;> simp

/-- The keys listed for a node are those of the childless nodes at the end of a chain of
edges from it. -/
theorem mem_candidates_iff_Path (n : Node V) :
    ∀ (key c : List Char),
      c ∈ candidates_of key n ↔
        ∃ path t, c = key ++ path ∧ Path n path t ∧ t.children = [] := by
  induction n using node_induction with
  | h cs l v ih =>
    intro key c
    rw [mem_candidates_of, Node.children_mk]
    constructor
    · rintro (⟨h1, h2⟩ | ⟨e, he, h3⟩)
      · exact ⟨[], Node.mk cs l v, by simp [h2], Path.nil _, by simp [h1]⟩
      · obtain ⟨path, t, h4, h5, h6⟩ := (ih e he (key ++ [e.part]) c).1 h3
        exact ⟨e.part :: path, t, by simp [h4], Path.cons _ e path t he h5, h6⟩
    · rintro ⟨path, t, h1, h2, h3⟩
      cases h2 with
      | nil => exact Or.inl ⟨by simpa using h3, by simp [h1]⟩
      | cons _ e rest _ he hp =>
        refine Or.inr ⟨e, he, (ih e he (key ++ [e.part]) c).2 ⟨rest, t, by simp [h1], hp, h3⟩⟩

theorem candidates_start_with_key (n : Node V) (key c : List Char) (h : c ∈ candidates_of key n) :
    key <+: c := by
  obtain ⟨path, _, h1, _, _⟩ := (mem_candidates_iff_Path n key c).1 h
  exact ⟨path, h1.symm⟩

theorem snoc_inj_of_common_start (key c : List Char) (a b : Char)
    (ha : key ++ [a] <+: c) (hb : key ++ [b] <+: c) : a = b := by
  obtain ⟨x, hx⟩ := ha
  obtain ⟨y, hy⟩ := hb
  have h : key ++ ([a] ++ x) = key ++ ([b] ++ y) := by
    rw [← List.append_assoc, ← List.append_assoc, hx, hy]
  have h2 := List.append_cancel_left h
  simp only [List.singleton_append, List.cons.injEq] at h2
  exact h2.1

theorem nodup_candidates_of_edges (key : List Char) (cs : List (Edge (Node V)))
    (hn : (cs.map (fun e => e.part)).Nodup)
    (ih : ∀ e ∈ cs, ∀ k, (candidates_of k (Edge.dest e)).Nodup) :
    (candidates_of_edges key cs).Nodup := by
  induction cs with
  | nil => simp [candidates_of_edges_nil]
  | cons d ds ihd =>
    rw [List.map_cons, List.nodup_cons] at hn
    rw [candidates_of_edges_cons, List.nodup_append]
    refine ⟨ihd hn.2 (fun e he => ih e (List.mem_cons_of_mem _ he)),
      ih d (List.mem_cons_self _ _) _, ?_⟩
    intro c h1 h2
    obtain ⟨e, he, h3⟩ := (mem_candidates_of_edges key c ds).1 h1
    have h4 := snoc_inj_of_common_start key c _ _ (candidates_start_with_key _ _ _ h3) (candidates_start_with_key _ _ _ h2)
    exact hn.1 (h4 ▸ List.mem_map_of_mem (fun e => e.part) he)

/-- Where no node has two edges with the same character, no key is listed twice. -/
theorem nodup_candidates_of (n : Node V) :
    ∀ (key : List Char), Det n → (candidates_of key n).Nodup := by
  induction n using node_induction with
  | h cs l v ih =>
    intro key hd
    rw [Det_iff, Node.children_mk] at hd
    rw [candidates_of_mk]
    cases cs with
    | nil => simp [candidates_of_edges_nil]
    | cons d ds =>
      simp only [List.isEmpty_cons, Bool.false_eq_true, if_false, List.nil_append]
      exact nodup_candidates_of_edges key _ hd.1 (fun e he k => ih e he k (hd.2 e he))

theorem find_node_walk_new_node [Inhabited V] (p : List Char)
    (h : (find_node_walk (new_node : Node V) p).isSome = true) : p = [] := by
  cases p with
  | nil => rfl
  | cons c r =>
    rw [find_node_walk_cons] at h
    simp [new_node, choose_child] at h

theorem find_node_walk_mk_cons (cs : List (Edge (Node V))) (l : Bool) (v : V) (node : Node V)
    (c : Char) (r : List Char) (h : node.children = cs) :
    find_node_walk (Node.mk cs l v) (c :: r) = find_node_walk node (c :: r) := by
  rw [find_node_walk_cons, find_node_walk_cons, Node.children_mk, h]

/-- Every key the walk of `find_node` can follow after the walk of `insert` over `key` is
a prefix of `key` or could be followed before. -/
theorem walk_insert_walk [Inhabited V] (key : List Char) (value : V) :
    ∀ (node : Node V) (appending : Bool) (p : List Char),
      (find_node_walk (insert_walk node appending key value) p).isSome = true →
        p <+: key ∨ (find_node_walk node p).isSome = true := by
  induction key with
  | nil =>
    intro node appending p h
    cases p with
    | nil => exact Or.inl (List.prefix_refl _)
    | cons c r =>
      rw [insert_walk_nil, find_node_walk_mk_cons _ _ _ node c r rfl] at h
      exact Or.inr h
  | cons ch rest ih =>
    intro node appending p h
    cases p with
    | nil => exact Or.inl List.nil_prefix
    | cons c r =>
      rcases insert_walk_cons_cases node appending ch with ⟨ha, next, hn⟩ | hn
      · subst ha
        rw [insert_walk_cons_some node next ch rest value hn, find_node_walk_cons,
          Node.children_mk] at h
        by_cases hc : c = ch
        · subst hc
          rw [choose_child_update_same, hn] at h
          simp only [Option.map_some'] at h
          rcases ih next false r h with h1 | h1
          · exact Or.inl ((List.prefix_cons_inj c).2 h1)
          · right
            rw [find_node_walk_cons, hn]
            exact h1
        · rw [choose_child_update_other _ _ _ _ hc] at h
          right
          rw [find_node_walk_cons]
          exact h
      · rw [insert_walk_cons_none node appending ch rest value hn, find_node_walk_cons,
          Node.children_mk, choose_child_append] at h
        cases hcc : choose_child node.children c with
        | some n =>
          rw [hcc] at h
          right
          rw [find_node_walk_cons, hcc]
          exact h
        | none =>
          rw [hcc] at h
          by_cases hc : ch = c
          · subst hc
            simp only [if_true] at h
            left
            rcases ih new_node true r h with h1 | h1
            · exact (List.prefix_cons_inj ch).2 h1
            · rw [find_node_walk_new_node r h1]
              exact (List.prefix_cons_inj ch).2 List.nil_prefix
          · simp [hc] at h

theorem walk_foldl_insert [Inhabited V] (ops : List (List Char × V)) :
    ∀ (t : Node V) (p : List Char),
      (find_node_walk (ops.foldl (fun t kv => insert t kv.1 kv.2) t) p).isSome = true →
        (∃ kv ∈ ops, p <+: Prod.fst kv) ∨ (find_node_walk t p).isSome = true := by
  induction ops with
  | nil => intro t p h; exact Or.inr h
  | cons op rest ih =>
    intro t p h
    rw [List.foldl_cons] at h
    rcases ih _ p h with ⟨kv, hkv, h1⟩ | h1
    · exact Or.inl ⟨kv, List.mem_cons_of_mem _ hkv, h1⟩
    · unfold insert at h1
      cases hk : op.1.isEmpty with
      | true =>
        rw [hk] at h1
        exact Or.inr h1
      | false =>
        rw [hk] at h1
        rcases walk_insert_walk op.1 op.2 t false p h1 with h2 | h2
        · exact Or.inl ⟨op, List.mem_cons_self _ _, h2⟩
        · exact Or.inr h2

/-- On a built trie the walk of `find_node` can follow only the empty key and the
prefixes of inserted keys. -/
theorem walk_build [Inhabited V] (ops : List (List Char × V)) (p : List Char)
    (h : (find_node_walk (build ops) p).isSome = true) :
    p = [] ∨ ∃ kv ∈ ops, p <+: Prod.fst kv := by
  rcases walk_foldl_insert ops new_node p h with h1 | h1
  · exact Or.inr h1
  · exact Or.inl (find_node_walk_new_node p h1)

theorem find_node_false_eq (root : Node V) (p : List Char) :
    find_node root p false = if p.isEmpty then none else find_node_walk root p := by
  unfold find_node
  cases p.isEmpty with
  | true => rfl
  | false =>
    simp only [Bool.false_eq_true, if_false]
    cases find_node_walk root p <;> simp

theorem find_node_false_some (root n : Node V) (p : List Char)
    (h : find_node root p false = some n) : p ≠ [] ∧ find_node_walk root p = some n := by
  rw [find_node_false_eq] at h
  cases p with
  | nil => simp at h
  | cons c r => exact ⟨by simp, by simpa using h⟩

theorem exists_of_walk (root n : Node V) (key : List Char) (hk : key ≠ [])
    (hw : find_node_walk root key = some n) (hl : n.is_leaf = true) :
    «exists» root key = true := by
  rw [exists_eq_lookup]
  unfold lookup
  rw [hw]
  cases key with
  | nil => exact absurd rfl hk
  | cons c r => simp [hl]

theorem created_nil (q : List Char) : created ([] : List (List Char × V)) q = 0 := rfl

theorem created_cons (op : List Char × V) (rest : List (List Char × V)) (q : List Char) :
    created (op :: rest) q = if q <+: op.1 then 0 else created rest q + 1 := rfl

theorem created_append_of_mem (ops l : List (List Char × V)) (q : List Char)
    (h : ∃ kv ∈ ops, q <+: Prod.fst kv) :
    created (ops ++ l) q = created ops q ∧ created ops q < ops.length := by
  induction ops with
  | nil => obtain ⟨kv, hkv, _⟩ := h; cases hkv
  | cons op rest ih =>
    rw [List.cons_append, created_cons, created_cons]
    by_cases hq : q <+: op.1
    · rw [if_pos hq, if_pos hq]
      exact ⟨rfl, Nat.succ_pos _⟩
    · rw [if_neg hq, if_neg hq]
      obtain ⟨kv, hkv, h1⟩ := h
      rcases List.mem_cons.1 hkv with h2 | h2
      · exact absurd (h2 ▸ h1) hq
      · obtain ⟨h3, h4⟩ := ih ⟨kv, h2, h1⟩
        rw [h3, List.length_cons]
        exact ⟨rfl, by omega⟩

theorem created_append_of_not_mem (ops l : List (List Char × V)) (q : List Char)
    (h : ¬ ∃ kv ∈ ops, q <+: Prod.fst kv) : ops.length ≤ created (ops ++ l) q := by
  induction ops with
  | nil => simp
  | cons op rest ih =>
    rw [List.cons_append, created_cons]
    have hq : ¬ q <+: op.1 := fun h1 => h ⟨op, List.mem_cons_self _ _, h1⟩
    rw [if_neg hq, List.length_cons]
    have := ih (fun ⟨kv, hkv, h1⟩ => h ⟨kv, List.mem_cons_of_mem _ hkv, h1⟩)
    omega

/-- The key `q` is a prefix of one of the first `i` keys exactly when `created` is below
`i`. -/
theorem created_lt_iff (q : List Char) (ops : List (List Char × V)) :
    ∀ i, i ≤ ops.length → ((∃ kv ∈ ops.take i, q <+: Prod.fst kv) ↔ created ops q < i) := by
  induction ops with
  | nil =>
    intro i hi
    have h0 : i = 0 := Nat.le_zero.1 hi
    subst h0
    constructor
    · rintro ⟨kv, hkv, _⟩
      cases hkv
    · intro h
      exact absurd h (Nat.not_lt_zero _)
  | cons op rest ih =>
    intro i hi
    cases i with
    | zero =>
      constructor
      · rintro ⟨kv, hkv, _⟩
        cases hkv
      · intro h
        exact absurd h (Nat.not_lt_zero _)
    | succ j =>
      rw [List.take_succ_cons, created_cons]
      have hj : j ≤ rest.length := Nat.le_of_succ_le_succ hi
      by_cases hq : q <+: op.1
      · rw [if_pos hq]
        exact ⟨fun _ => Nat.succ_pos j, fun _ => ⟨op, List.mem_cons_self _ _, hq⟩⟩
      · rw [if_neg hq]
        constructor
        · rintro ⟨kv, hkv, h1⟩
          rcases List.mem_cons.1 hkv with h2 | h2
          · exact absurd (h2 ▸ h1) hq
          · have := (ih j hj).1 ⟨kv, h2, h1⟩
            omega
        · intro h
          obtain ⟨kv, hkv, h1⟩ := (ih j hj).2 (by omega)
          exact ⟨kv, List.mem_cons_of_mem _ hkv, h1⟩

theorem edge_chars_of_walk (node m : Node V) (p : List Char)
    (h : find_node_walk node p = some m) :
    edge_chars node p = m.children.map (fun e => e.part) := by
  unfold edge_chars
  rw [h]

theorem edge_chars_nil (node : Node V) :
    edge_chars node [] = node.children.map (fun e => e.part) :=
  edge_chars_of_walk node node [] (find_node_walk_nil node)

theorem edge_chars_cons (node : Node V) (c : Char) (r : List Char) :
    edge_chars node (c :: r) =
      match choose_child node.children c with
      | some next => edge_chars next r
      | none => [] := by
  unfold edge_chars
  rw [find_node_walk_cons]
  cases choose_child node.children c <;> rfl

theorem edge_chars_new_node [Inhabited V] (p : List Char) :
    edge_chars (new_node : Node V) p = [] := by
  cases p with
  | nil => rw [edge_chars_nil]; rfl
  | cons c r => rw [edge_chars_cons]; rfl

/-- The walk of `insert` keeps the stored edges of every node in place and in order, and
puts at most one new edge behind them, for the next character of the key. -/
theorem edge_chars_insert_walk [Inhabited V] (key : List Char) (value : V) :
    ∀ (node : Node V) (appending : Bool) (p : List Char),
      (appending = true → node.children = []) →
      ∃ l, edge_chars (insert_walk node appending key value) p = edge_chars node p ++ l ∧
        l.length ≤ 1 ∧ ∀ c ∈ l, p ++ [c] <+: key ∧ c ∉ edge_chars node p := by
  induction key with
  | nil =>
    intro node appending p _
    refine ⟨[], ?_, by simp, by simp⟩
    rw [insert_walk_nil, List.append_nil]
    cases p with
    | nil => rw [edge_chars_nil, edge_chars_nil, Node.children_mk]
    | cons c r => rw [edge_chars_cons, edge_chars_cons, Node.children_mk]
  | cons ch rest ih =>
    intro node appending p happ
    rcases insert_walk_cons_cases node appending ch with ⟨ha, next, hn⟩ | hn
    · subst ha
      rw [insert_walk_cons_some node next ch rest value hn]
      cases p with
      | nil =>
        refine ⟨[], ?_, by simp, by simp⟩
        rw [edge_chars_nil, edge_chars_nil, Node.children_mk, map_part_update_child,
          List.append_nil]
      | cons c r =>
        rw [edge_chars_cons, edge_chars_cons, Node.children_mk]
        by_cases hc : c = ch
        · subst hc
          rw [choose_child_update_same, hn]
          simp only [Option.map_some']
          obtain ⟨l, h1, h2, h3⟩ := ih next false r (fun h => by cases h)
          refine ⟨l, h1, h2, ?_⟩
          intro c' hc'
          exact ⟨(List.prefix_cons_inj c).2 (h3 c' hc').1, (h3 c' hc').2⟩
        · rw [choose_child_update_other _ _ _ _ hc]
          exact ⟨[], by simp, by simp, by simp⟩
    · rw [insert_walk_cons_none node appending ch rest value hn]
      have hnone : choose_child node.children ch = none := by
        rcases hn with h | h
        · rw [happ h]; rfl
        · exact h
      cases p with
      | nil =>
        refine ⟨[ch], ?_, by simp, ?_⟩
        · rw [edge_chars_nil, edge_chars_nil, Node.children_mk, List.map_append]
          rfl
        · intro c hc
          rw [List.mem_singleton] at hc
          subst hc
          rw [edge_chars_nil]
          refine ⟨?_, (choose_child_eq_none _ _).1 hnone⟩
          rw [List.nil_append]
          exact (List.prefix_cons_inj c).2 List.nil_prefix
      | cons c r =>
        rw [edge_chars_cons, edge_chars_cons, Node.children_mk, choose_child_append]
        cases hcc : choose_child node.children c with
        | some n => exact ⟨[], by simp, by simp, by simp⟩
        | none =>
          by_cases hc : ch = c
          · subst hc
            simp only [if_true]
            obtain ⟨l, h1, h2, h3⟩ := ih new_node true r (fun _ => rfl)
            rw [edge_chars_new_node] at h1
            refine ⟨l, h1, h2, ?_⟩
            intro c' hc'
            exact ⟨(List.prefix_cons_inj ch).2 (h3 c' hc').1, by simp⟩
          · simp only [hc, if_false]
            exact ⟨[], by simp, by simp, by simp⟩

theorem edge_chars_insert [Inhabited V] (t : Node V) (k : List Char) (v : V) (p : List Char) :
    ∃ l, edge_chars (insert t k v) p = edge_chars t p ++ l ∧
      l.length ≤ 1 ∧ ∀ c ∈ l, p ++ [c] <+: k ∧ c ∉ edge_chars t p := by
  unfold insert
  cases k.isEmpty with
  | true => exact ⟨[], by simp, by simp, by simp⟩
  | false => exact edge_chars_insert_walk k v t false p (fun h => by cases h)

theorem walk_of_exists (root : Node V) (key : List Char) (h : «exists» root key = true) :
    (find_node_walk root key).isSome = true := by
  rw [exists_eq_lookup] at h
  unfold lookup at h
  cases hw : find_node_walk root key with
  | none => rw [hw] at h; simp at h
  | some n => rfl

theorem walk_of_walk_append (root : Node V) (a b : List Char)
    (h : (find_node_walk root (a ++ b)).isSome = true) :
    (find_node_walk root a).isSome = true := by
  rw [find_node_walk_append] at h
  cases hw : find_node_walk root a with
  | none => rw [hw] at h; simp at h
  | some n => rfl

/-- On a built trie the walk of `find_node` can follow a non-empty key exactly when the
key is a prefix of an inserted key. -/
theorem walk_build_iff [Inhabited V] (ops : List (List Char × V)) (q : List Char)
    (hq : q ≠ []) :
    (find_node_walk (build ops) q).isSome = true ↔ ∃ kv ∈ ops, q <+: Prod.fst kv := by
  constructor
  · intro h
    rcases walk_build ops q h with h1 | h1
    · exact absurd h1 hq
    · exact h1
  · rintro ⟨kv, hkv, r, hr⟩
    have hne : kv.1 ≠ [] := by
      rw [← hr]
      intro h0
      exact hq (List.append_eq_nil.1 h0).1
    have hex : «exists» (build ops) kv.1 = true := by
      unfold build
      rw [exists_foldl_insert]
      exact Or.inl ⟨hne, kv.2, hkv⟩
    have hw := walk_of_exists _ _ hex
    rw [← hr] at hw
    exact walk_of_walk_append _ q r hw

theorem mem_edge_chars_iff_walk (t : Node V) (q : List Char) (c : Char) :
    c ∈ edge_chars t q ↔ (find_node_walk t (q ++ [c])).isSome = true := by
  unfold edge_chars
  rw [find_node_walk_append]
  cases find_node_walk t q with
  | none => simp
  | some m =>
    simp only
    rw [find_node_walk_cons]
    cases hc : choose_child m.children c with
    | none =>
      have := (choose_child_eq_none _ _).1 hc
      simp [this]
    | some next =>
      have h1 : ¬ c ∉ m.children.map (fun e => e.part) := by
        rw [← choose_child_eq_none, hc]
        simp
      simp only [find_node_walk_nil, Option.isSome_some, iff_true]
      exact not_not.1 h1

theorem mem_edge_chars_build [Inhabited V] (ops : List (List Char × V)) (q : List Char)
    (c : Char) :
    c ∈ edge_chars (build ops) q ↔ ∃ kv ∈ ops, q ++ [c] <+: Prod.fst kv := by
  rw [mem_edge_chars_iff_walk, walk_build_iff ops (q ++ [c]) (by simp)]

theorem build_append_singleton [Inhabited V] (ops : List (List Char × V))
    (op : List Char × V) : build (ops ++ [op]) = insert (build ops) op.1 op.2 := by
  unfold build
  rw [List.foldl_append]
  rfl

/-- On a built trie every node stores its edges in the order in which the inserts
created them. -/
theorem edge_chars_build_sorted [Inhabited V] (ops : List (List Char × V)) :
    ∀ q, List.Pairwise (fun a b => created ops (q ++ [a]) < created ops (q ++ [b]))
      (edge_chars (build ops) q) := by
  induction ops using List.reverseRecOn with
  | nil =>
    intro q
    unfold build
    rw [List.foldl_nil, edge_chars_new_node]
    exact List.Pairwise.nil
  | append_singleton ops op ih =>
    intro q
    rw [build_append_singleton]
    obtain ⟨l, h1, h2, h3⟩ := edge_chars_insert (build ops) op.1 op.2 q
    rw [h1, List.pairwise_append]
    refine ⟨?_, ?_, ?_⟩
    · refine List.Pairwise.imp_of_mem ?_ (ih q)
      intro a b ha hb hab
      rw [(created_append_of_mem ops [op] _ ((mem_edge_chars_build ops q a).1 ha)).1,
        (created_append_of_mem ops [op] _ ((mem_edge_chars_build ops q b).1 hb)).1]
      exact hab
    · cases l with
      | nil => exact List.Pairwise.nil
      | cons x xs =>
        cases xs with
        | nil => exact List.pairwise_singleton _ _
        | cons y ys => simp at h2
    · intro a ha b hb
      obtain ⟨h4, h5⟩ := created_append_of_mem ops [op] _ ((mem_edge_chars_build ops q a).1 ha)
      rw [h4]
      have h6 := created_append_of_not_mem ops [op] (q ++ [b])
        (fun h => (h3 b hb).2 ((mem_edge_chars_build ops q b).2 h))
      omega

theorem Path_snoc (node t : Node V) (key : List Char) (hp : Path node key t) :
    ∀ e ∈ t.children, Path node (key ++ [Edge.part e]) (Edge.dest e) := by
  induction hp with
  | nil n =>
    intro e he
    exact Path.cons n e [] e.dest he (Path.nil _)
  | cons n d rest t hd _ ih =>
    intro e he
    exact Path.cons n d (rest ++ [e.part]) e.dest hd (ih e he)

/-- Two keys that part ways after a common key do so at one place only. -/
theorem parting_unique (k : List Char) :
    ∀ (q s1 s2 r1 r2 : List Char) (x y a b : Char), x ≠ y → a ≠ b →
      k ++ x :: s1 = q ++ a :: r1 → k ++ y :: s2 = q ++ b :: r2 → k = q ∧ x = a ∧ y = b := by
  induction k with
  | nil =>
    intro q s1 s2 r1 r2 x y a b hxy _ h1 h2
    cases q with
    | nil =>
      simp only [List.nil_append, List.cons.injEq] at h1 h2
      exact ⟨rfl, h1.1, h2.1⟩
    | cons h q =>
      simp only [List.nil_append, List.cons_append, List.cons.injEq] at h1 h2
      exact absurd (h1.1.trans h2.1.symm) hxy
  | cons c k ih =>
    intro q s1 s2 r1 r2 x y a b hxy hab h1 h2
    cases q with
    | nil =>
      simp only [List.nil_append, List.cons_append, List.cons.injEq] at h1 h2
      exact absurd (h1.1.symm.trans h2.1) hab
    | cons h q =>
      simp only [List.cons_append, List.cons.injEq] at h1 h2
      obtain ⟨h3, h4, h5⟩ := ih q s1 s2 r1 r2 x y a b hxy hab h1.2 h2.2
      exact ⟨by rw [h1.1, h3], h4, h5⟩

theorem candidates_of_edges_ordered [Inhabited V] (ops : List (List Char × V))
    (k : List Char) (cs : List (Edge (Node V)))
    (hn : (cs.map (fun e => e.part)).Nodup)
    (hs : List.Pairwise (fun a b => created ops (k ++ [a]) < created ops (k ++ [b]))
      (cs.map (fun e => e.part)))
    (ih : ∀ e ∈ cs, List.Pairwise (fun c1 c2 : List Char => ∀ q a b r1 r2,
      c1 = q ++ a :: r1 → c2 = q ++ b :: r2 → a ≠ b →
        created ops (q ++ [b]) < created ops (q ++ [a]))
      (candidates_of (k ++ [Edge.part e]) (Edge.dest e))) :
    List.Pairwise (fun c1 c2 : List Char => ∀ q a b r1 r2,
      c1 = q ++ a :: r1 → c2 = q ++ b :: r2 → a ≠ b →
        created ops (q ++ [b]) < created ops (q ++ [a]))
      (candidates_of_edges k cs) := by
  induction cs with
  | nil => rw [candidates_of_edges_nil]; exact List.Pairwise.nil
  | cons d ds ihd =>
    rw [List.map_cons, List.nodup_cons] at hn
    rw [List.map_cons, List.pairwise_cons] at hs
    rw [candidates_of_edges_cons, List.pairwise_append]
    refine ⟨ihd hn.2 hs.2 (fun e he => ih e (List.mem_cons_of_mem _ he)),
      ih d (List.mem_cons_self _ _), ?_⟩
    intro c1 h1 c2 h2 q a b r1 r2 e1 e2 hab
    obtain ⟨e, he, h3⟩ := (mem_candidates_of_edges k c1 ds).1 h1
    obtain ⟨s1, hs1⟩ := candidates_start_with_key _ _ _ h3
    obtain ⟨s2, hs2⟩ := candidates_start_with_key _ _ _ h2
    have hmem : e.part ∈ ds.map (fun e => e.part) := List.mem_map_of_mem (fun e => e.part) he
    have hne : e.part ≠ d.part := fun h0 => hn.1 (h0 ▸ hmem)
    have e1' : k ++ e.part :: s1 = q ++ a :: r1 := by
      rw [← e1, ← hs1, List.append_assoc]; rfl
    have e2' : k ++ d.part :: s2 = q ++ b :: r2 := by
      rw [← e2, ← hs2, List.append_assoc]; rfl
    obtain ⟨hq, ha, hb⟩ := parting_unique k q s1 s2 r1 r2 e.part d.part a b hne hab e1' e2'
    rw [← hq, ← ha, ← hb]
    exact hs.1 e.part hmem

/-- On a built trie, of two listed keys that part ways after a common key, the one that
goes on along the edge created later is listed first. -/
theorem candidates_of_ordered [Inhabited V] (ops : List (List Char × V)) (m : Node V) :
    ∀ k, Path (build ops) k m →
      List.Pairwise (fun c1 c2 : List Char => ∀ q a b r1 r2,
        c1 = q ++ a :: r1 → c2 = q ++ b :: r2 → a ≠ b →
          created ops (q ++ [b]) < created ops (q ++ [a]))
        (candidates_of k m) := by
  induction m using node_induction with
  | h cs l v ih =>
    intro k hp
    have hw := walk_of_Path _ _ _ hp (Det_build ops)
    have hd := (Det_iff _).1 (Det_of_Path _ _ _ hp (Det_build ops))
    rw [Node.children_mk] at hd
    have hs := edge_chars_build_sorted ops k
    rw [edge_chars_of_walk _ _ k hw, Node.children_mk] at hs
    rw [candidates_of_mk]
    cases cs with
    | nil =>
      rw [candidates_of_edges_nil]
      simp
    | cons d ds =>
      simp only [List.isEmpty_cons, Bool.false_eq_true, if_false, List.nil_append]
      refine candidates_of_edges_ordered ops k _ hd.1 hs ?_
      intro e he
      exact ih e he (k ++ [e.part]) (Path_snoc _ _ k hp e (by rw [Node.children_mk]; exact he))

/-- C15: on a trie built by inserts, for a prefix `p` that `find_node` leads to a node
(so `p` is non-empty), `find_candidates(p)` returns the keys of the childless nodes at and
below that node, each key being `p` followed by the characters of the chain of edges to
the node, in the depth-first order of `candidates_of`, which at each node visits the edge
stored last first. The stored order is the order of creation: the chain of edges for a
key `q` exists after the first `i` inserts exactly when `created ops q < i`, and at
every node of the trie the edges stored earlier were created by earlier inserts. So at
each node the most recently created child edge is visited first: of two returned keys
that part ways after a common key `q`, the one that goes on along the edge created later
comes first. -/
theorem find_candidates_depth_first [Inhabited V] (ops : List (List Char × V))
    (p : List Char) (n : Node V) (h : find_node (build ops) p false = some n) :
    p ≠ [] ∧ find_candidates (build ops) p = some (candidates_of p n) ∧
    (∀ c, c ∈ candidates_of p n ↔
      ∃ path t, c = p ++ path ∧ Path n path t ∧ t.children = []) ∧
    (∀ q i, q ≠ [] → i ≤ ops.length →
      ((find_node_walk (build (ops.take i)) q).isSome = true ↔ created ops q < i)) ∧
    (∀ q m, find_node_walk (build ops) q = some m →
      List.Pairwise (fun a b => created ops (q ++ [a]) < created ops (q ++ [b]))
        (m.children.map (fun e => e.part))) ∧
    List.Pairwise (fun c1 c2 : List Char => ∀ q a b r1 r2,
      c1 = q ++ a :: r1 → c2 = q ++ b :: r2 → a ≠ b →
        created ops (q ++ [b]) < created ops (q ++ [a])) (candidates_of p n) := by
  refine ⟨(find_node_false_some _ _ _ h).1, ?_, mem_candidates_iff_Path n p, ?_, ?_,
    candidates_of_ordered ops n p (Path_of_walk p _ _ (find_node_false_some _ _ _ h).2)⟩
  · rw [find_candidates_eq, h]
  · intro q i hq hi
    rw [walk_build_iff (ops.take i) q hq]
    exact created_lt_iff q ops i hi
  · intro q m hm
    rw [← edge_chars_of_walk _ m q hm]
    exact edge_chars_build_sorted ops q

/-- Witness of C15 on the trie of `main`: `ban` leads to the node with the edge `a`
created by the insert of `banana` (insert 0) and the edge `d` created later by the insert
of `bandana` (insert 1), and `find_candidates("ban")` is `bandana`, then `banana`. -/
theorem find_candidates_depth_first_witness :
    find_node (build [("banana".toList, (1 : Int)), ("bandana".toList, 2),
        ("foo".toList, 3), ("foobar".toList, 4)]) "ban".toList false =
      some (Node.mk [⟨'a', Node.mk [⟨'n', Node.mk [⟨'a', Node.mk [] true 1⟩] false 0⟩] false 0⟩,
        ⟨'d', Node.mk [⟨'a', Node.mk [⟨'n', Node.mk [⟨'a', Node.mk [] true 2⟩] false 0⟩]
          false 0⟩] false 0⟩] false 0) ∧
    candidates_of "ban".toList
      (Node.mk [⟨'a', Node.mk [⟨'n', Node.mk [⟨'a', Node.mk [] true (1 : Int)⟩] false 0⟩] false 0⟩,
        ⟨'d', Node.mk [⟨'a', Node.mk [⟨'n', Node.mk [⟨'a', Node.mk [] true 2⟩] false 0⟩]
          false 0⟩] false 0⟩] false 0) = ["bandana".toList, "banana".toList] ∧
    created [("banana".toList, (1 : Int)), ("bandana".toList, 2),
        ("foo".toList, 3), ("foobar".toList, 4)] "bana".toList = 0 ∧
    created [("banana".toList, (1 : Int)), ("bandana".toList, 2),
        ("foo".toList, 3), ("foobar".toList, 4)] "band".toList = 1 ∧
    find_candidates (build [("banana".toList, (1 : Int)), ("bandana".toList, 2),
        ("foo".toList, 3), ("foobar".toList, 4)]) "ban".toList =
      some (candidates_of "ban".toList
        (Node.mk [⟨'a', Node.mk [⟨'n', Node.mk [⟨'a', Node.mk [] true 1⟩] false 0⟩] false 0⟩,
          ⟨'d', Node.mk [⟨'a', Node.mk [⟨'n', Node.mk [⟨'a', Node.mk [] true 2⟩] false 0⟩]
            false 0⟩] false 0⟩] false 0)) :=
  ⟨rfl, by decide, by decide, by decide,
    (find_candidates_depth_first _ _ _ (by rfl)).2.1⟩

/-- C16: on a trie built by inserts, for every prefix `p`, `find_candidates(p)` returns a
list in which every key starts with `p` and satisfies `exists`, and in which no key
appears twice; every childless node other than the root is a marked leaf. -/
theorem find_candidates_sound [Inhabited V] (ops : List (List Char × V)) (p : List Char) :
    (∀ key t, key ≠ [] → Path (build ops) key t → t.children = [] → t.is_leaf = true) ∧
    ∃ res, find_candidates (build ops) p = some res ∧
      (∀ c ∈ res, p <+: c ∧ «exists» (build ops) c = true) ∧ res.Nodup := by
  constructor
  · intro key t hk hp hc
    cases key with
    | nil => exact absurd rfl hk
    | cons c r => exact (Marked_of_Path_cons _ t c r hp (Marked_build ops)).1 hc
  · rw [find_candidates_eq]
    cases hf : find_node (build ops) p false with
    | none => exact ⟨[], rfl, by simp, List.nodup_nil⟩
    | some n =>
      obtain ⟨hp, hw⟩ := find_node_false_some _ _ _ hf
      have hpath := Path_of_walk p _ _ hw
      have hdn : Det n := Det_of_Path _ _ _ hpath (Det_build ops)
      have hmn : (n.children = [] → n.is_leaf = true) ∧ Marked n := by
        cases p with
        | nil => exact absurd rfl hp
        | cons c r => exact Marked_of_Path_cons _ n c r hpath (Marked_build ops)
      refine ⟨candidates_of p n, rfl, ?_, nodup_candidates_of n p hdn⟩
      intro c hc
      refine ⟨candidates_start_with_key n p c hc, ?_⟩
      obtain ⟨path, t, h1, h2, h3⟩ := (mem_candidates_iff_Path n p c).1 hc
      have hwt : find_node_walk (build ops) c = some t := by
        rw [h1, find_node_walk_append, hw]
        exact walk_of_Path n t path h2 hdn
      have hl : t.is_leaf = true := (Marked_of_Path n t path h2 hmn).1 h3
      refine exists_of_walk _ t c ?_ hwt hl
      rw [h1]
      intro h0
      exact hp (List.append_eq_nil.1 h0).1

/-- Witness of C16 on the trie of `main` and the prefix `ban`. -/
theorem find_candidates_sound_witness :
    (∀ key t, key ≠ [] →
      Path (build [("banana".toList, (1 : Int)), ("bandana".toList, 2),
        ("foo".toList, 3), ("foobar".toList, 4)]) key t → t.children = [] →
        t.is_leaf = true) ∧
    ∃ res, find_candidates (build [("banana".toList, (1 : Int)), ("bandana".toList, 2),
        ("foo".toList, 3), ("foobar".toList, 4)]) "ban".toList = some res ∧
      (∀ c ∈ res, "ban".toList <+: c ∧
        «exists» (build [("banana".toList, (1 : Int)), ("bandana".toList, 2),
          ("foo".toList, 3), ("foobar".toList, 4)]) c = true) ∧ res.Nodup :=
  find_candidates_sound _ _

/-- C18: in a trie built by inserts no node has two outgoing edges with the same
character; `insert` keeps this property on every trie that has it; and on a built trie a
chain of edges spells a key down to a node exactly when the first-match walk of
`find_node` over the key ends in that node, so the chain for a key is unique. -/
theorem no_two_edges_with_same_character [Inhabited V] (ops : List (List Char × V))
    (t : Node V) (k : List Char) (v : V) :
    Det (build ops) ∧ (Det t → Det (insert t k v)) ∧
      ∀ key n, Path (build ops) key n ↔ find_node_walk (build ops) key = some n :=
  ⟨Det_build ops, Det_insert t k v,
    fun key _ => ⟨fun h => walk_of_Path _ _ _ h (Det_build ops), Path_of_walk key _ _⟩⟩

/-- Witness of C18: the trie of `main`, and the insert of `bar` into the trie that holds
`banana`. -/
theorem no_two_edges_with_same_character_witness :
    Det (build [("banana".toList, (1 : Int))]) ∧
    Det (build [("banana".toList, (1 : Int)), ("bandana".toList, 2),
        ("foo".toList, 3), ("foobar".toList, 4)]) ∧
    Det (insert (build [("banana".toList, (1 : Int))]) "bar".toList 5) :=
  ⟨Det_build _,
   (no_two_edges_with_same_character _ (build [("banana".toList, (1 : Int))])
      "bar".toList 5).1,
   (no_two_edges_with_same_character [("banana".toList, (1 : Int)), ("bandana".toList, 2),
      ("foo".toList, 3), ("foobar".toList, 4)] _ _ _).2.1 (Det_build _)⟩

/-- C19: `find_candidates` with the empty prefix returns the empty list on every trie,
and on a trie built by inserts `find_candidates(p)` returns the empty list for every `p`
that is not a prefix of any inserted key. -/
theorem find_candidates_empty_result [Inhabited V] (t : Node V)
    (ops : List (List Char × V)) (p : List Char) :
    find_candidates t [] = some [] ∧
      ((∀ kv ∈ ops, ¬ p <+: Prod.fst kv) → find_candidates (build ops) p = some []) := by
  constructor
  · simp [find_candidates]
  · intro h
    rw [find_candidates_eq, find_node_false_eq]
    cases p with
    | nil => rfl
    | cons c r =>
      simp only [List.isEmpty_cons, Bool.false_eq_true, if_false]
      cases hw : find_node_walk (build ops) (c :: r) with
      | none => rfl
      | some _ =>
        exfalso
        rcases walk_build ops (c :: r) (by rw [hw]; rfl) with h1 | ⟨kv, hkv, h1⟩
        · cases h1
        · exact h kv hkv h1

/-- Witness of C19 on the trie of `main`: `bax` is not a prefix of any of the four keys. -/
theorem find_candidates_empty_result_witness :
    find_candidates main_trie [] = some [] ∧
    (∀ kv ∈ [("banana".toList, (1 : Int)), ("bandana".toList, 2), ("foo".toList, 3),
        ("foobar".toList, 4)], ¬ "bax".toList <+: Prod.fst kv) ∧
    find_candidates (build [("banana".toList, (1 : Int)), ("bandana".toList, 2),
        ("foo".toList, 3), ("foobar".toList, 4)]) "bax".toList = some [] :=
  ⟨(find_candidates_empty_result main_trie [] []).1, by decide,
    (find_candidates_empty_result new_node _ _).2 (by decide)⟩

end Trie
namespace SuffixTree

variable {V : Type}

/-! ### Lists -/

theorem cpl_nil_left (b : List Char) : common_prefix_length [] b = 0 := by
  simp [common_prefix_length]

theorem cpl_nil_right (a : List Char) : common_prefix_length a [] = 0 := by
  cases a <;> simp [common_prefix_length]

theorem cpl_cons (x y : Char) (xs ys : List Char) :
    common_prefix_length (x :: xs) (y :: ys) =
      if x = y then common_prefix_length xs ys + 1 else 0 := by
  simp [common_prefix_length]

theorem cpl_le_left (a b : List Char) : common_prefix_length a b ≤ a.length := by
  induction a generalizing b with
  | nil => simp [cpl_nil_left]
  | cons x xs ih =>
    cases b with
    | nil => simp [cpl_nil_right]
    | cons y ys =>
      rw [cpl_cons]
      split
      · simp; exact ih ys
      · simp

theorem cpl_le_right (a b : List Char) : common_prefix_length a b ≤ b.length := by
  induction a generalizing b with
  | nil => simp [cpl_nil_left]
  | cons x xs ih =>
    cases b with
    | nil => simp [cpl_nil_right]
    | cons y ys =>
      rw [cpl_cons]
      split
      · simp; exact ih ys
      · simp

theorem take_cpl (a b : List Char) :
    a.take (common_prefix_length a b) = b.take (common_prefix_length a b) := by
  induction a generalizing b with
  | nil => simp [cpl_nil_left]
  | cons x xs ih =>
    cases b with
    | nil => simp [cpl_nil_right]
    | cons y ys =>
      rw [cpl_cons]
      split
      · rename_i h; subst h; simp [ih ys]
      · simp

theorem cpl_head_ne (a b : List Char) (c : Char)
    (h : (a.drop (common_prefix_length a b)).head? = some c) :
    (b.drop (common_prefix_length a b)).head? ≠ some c := by
  induction a generalizing b with
  | nil => simp [cpl_nil_left] at h
  | cons x xs ih =>
    cases b with
    | nil => simp [cpl_nil_right]
    | cons y ys =>
      rw [cpl_cons] at h ⊢
      split at h
      · rename_i hxy
        rw [if_pos hxy]
        simp only [List.drop_succ_cons] at h ⊢
        exact ih ys h
      · rename_i hxy
        rw [if_neg hxy]
        simp only [List.drop_zero, List.head?_cons, Option.some.injEq] at h ⊢
        intro h2; exact hxy (h.trans (Option.some.inj h2).symm)

theorem cpl_append_left (p a b : List Char) :
    common_prefix_length (p ++ a) (p ++ b) = p.length + common_prefix_length a b := by
  induction p with
  | nil => simp
  | cons x xs ih => simp [cpl_cons, ih]; omega

theorem cpl_eq_zero_of_head (a b : List Char)
    (h : ∀ c, a.head? = some c → b.head? ≠ some c) : common_prefix_length a b = 0 := by
  cases a with
  | nil => exact cpl_nil_left b
  | cons x xs =>
    cases b with
    | nil => exact cpl_nil_right _
    | cons y ys =>
      rw [cpl_cons, if_neg]
      intro hxy
      exact h x rfl (by simp [hxy])

theorem cpl_eq_length_left_iff (a b : List Char) :
    common_prefix_length a b = a.length ↔ a <+: b := by
  induction a generalizing b with
  | nil => simp [cpl_nil_left]
  | cons x xs ih =>
    cases b with
    | nil => simp [cpl_nil_right]
    | cons y ys =>
      rw [cpl_cons]
      by_cases hxy : x = y
      · subst hxy
        simp [List.cons_prefix_cons, ih ys]
      · simp [hxy, List.cons_prefix_cons]

theorem cpl_comm (a b : List Char) : common_prefix_length a b = common_prefix_length b a := by
  induction a generalizing b with
  | nil => simp [cpl_nil_left, cpl_nil_right]
  | cons x xs ih =>
    cases b with
    | nil => simp [cpl_nil_left, cpl_nil_right]
    | cons y ys =>
      rw [cpl_cons, cpl_cons]
      by_cases hxy : x = y
      · subst hxy; simp [ih ys]
      · have : ¬ y = x := fun h => hxy h.symm
        simp [hxy, this]

/-! ### Ranges -/

theorem Range.content_after (bufs : Buffers) (r : Range) (m : Nat) :
    (r.after m).content bufs = (r.content bufs).drop m := by
  simp only [Range.content, Range.after, List.drop_take, List.drop_drop]
  congr 1
  omega

theorem Range.content_first (bufs : Buffers) (r : Range) (m : Nat)
    (h : m ≤ (r.content bufs).length) :
    (r.first m).content bufs = (r.content bufs).take m := by
  simp only [Range.content, Range.first, List.take_take, List.length_take] at h ⊢
  congr 1
  omega

theorem starts_with_next_iff (bufs : Buffers) (label : Range) (p : List Char) :
    starts_with_next bufs label p = true ↔
      ∃ c, (label.content bufs).head? = some c ∧ p.head? = some c := by
  unfold starts_with_next
  cases label.content bufs with
  | nil => simp
  | cons a as =>
    cases p with
    | nil => simp
    | cons b bs => simp [eq_comm]


/-! ### Unfolding -/

theorem entries_mk (bufs : Buffers) (es : List (Edge (Node V))) (lf : Option (Range × V)) :
    entries bufs (Node.mk es lf) =
      (match lf with
        | some l => [([], l)]
        | none => []) ++ entries_edges bufs es := by
  rw [entries.eq_def]

theorem entries_edges_nil (bufs : Buffers) :
    entries_edges bufs ([] : List (Edge (Node V))) = [] := by
  rw [entries_edges]

theorem entries_edges_cons (bufs : Buffers) (e : Edge (Node V)) (es : List (Edge (Node V))) :
    entries_edges bufs (e :: es) =
      (entries bufs e.child).map (fun x => (e.label.content bufs ++ x.1, x.2)) ++
        entries_edges bufs es := by
  rw [entries_edges]

theorem entries_edges_append (bufs : Buffers) (es fs : List (Edge (Node V))) :
    entries_edges bufs (es ++ fs) = entries_edges bufs es ++ entries_edges bufs fs := by
  induction es with
  | nil => simp [entries_edges_nil]
  | cons e es ih => simp [entries_edges_cons, ih]

theorem entries_leaf_node (bufs : Buffers) (leaf : Range × V) :
    entries bufs (Node.mk [] (some leaf)) = [([], leaf)] := by
  simp [entries_mk, entries_edges_nil]

theorem extend_node_mk (bufs : Buffers) (leaf : Range × V) (rest : Range)
    (es : List (Edge (Node V))) (lf : Option (Range × V)) :
    extend_node bufs leaf rest (Node.mk es lf) =
      match extend_edges bufs leaf rest es with
      | some es' => Node.mk es' lf
      | none =>
        match lf with
        | none => Node.mk (es ++ [{ label := rest, child := Node.mk [] (some leaf) }]) none
        | some old =>
          Node.mk ({ label := old.1.after (old.1.size bufs), child := Node.mk [] (some old) } ::
            (es ++ [{ label := rest, child := Node.mk [] (some leaf) }])) none := by
  rw [extend_node]
  cases extend_edges bufs leaf rest es with
  | some es' => rfl
  | none => cases lf <;> rfl

theorem Range.content_after_size (bufs : Buffers) (r : Range) :
    (r.after (r.size bufs)).content bufs = [] := by
  rw [Range.content_after, Range.size, List.drop_length]

theorem extend_edges_nil (bufs : Buffers) (leaf : Range × V) (rest : Range) :
    extend_edges bufs leaf rest ([] : List (Edge (Node V))) = none := by
  rw [extend_edges]

theorem extend_edges_cons (bufs : Buffers) (leaf : Range × V) (rest : Range)
    (e : Edge (Node V)) (es : List (Edge (Node V))) :
    extend_edges bufs leaf rest (e :: es) =
      if starts_with_next bufs e.label (rest.content bufs) then
        if common_prefix_length (e.label.content bufs) (rest.content bufs) = e.label.size bufs then
          some ({ label := e.label, child := (extend_node bufs leaf
            (rest.after (common_prefix_length (e.label.content bufs) (rest.content bufs))) e.child) } :: es)
        else
          some ({ label := e.label.first (common_prefix_length (e.label.content bufs) (rest.content bufs)),
                  child := Node.mk
                    [{ label := e.label.after (common_prefix_length (e.label.content bufs) (rest.content bufs)),
                       child := e.child },
                     { label := rest.after (common_prefix_length (e.label.content bufs) (rest.content bufs)),
                       child := Node.mk [] (some leaf) }] none } :: es)
      else
        match extend_edges bufs leaf rest es with
        | some es' => some (e :: es')
        | none => none := by
  rw [extend_edges]

/-! ### Suffix extension -/

theorem label_append_drop (a b : List Char)
    (h : common_prefix_length a b = a.length) :
    a ++ b.drop (common_prefix_length a b) = b := by
  have h1 := take_cpl a b
  rw [h, List.take_length] at h1
  rw [h]
  nth_rewrite 1 [h1]
  exact List.take_append_drop _ _

theorem take_append_drop_cpl (a b : List Char) :
    a.take (common_prefix_length a b) ++ b.drop (common_prefix_length a b) = b := by
  rw [take_cpl]; exact List.take_append_drop _ _

mutual
theorem entries_extend_node (bufs : Buffers) (leaf : Range × V) (rest : Range) :
    ∀ (n : Node V), (entries bufs (extend_node bufs leaf rest n)).Perm
      (entries bufs n ++ [(rest.content bufs, leaf)])
  | Node.mk es lf => by
    have ih := entries_extend_edges bufs leaf rest es
    rw [extend_node_mk]
    cases h : extend_edges bufs leaf rest es with
    | none =>
      cases lf with
      | none =>
        simp only [entries_mk, entries_edges_append, entries_edges_cons, entries_edges_nil,
          entries_leaf_node, List.map_cons, List.map_nil, List.append_nil, List.append_assoc]
        exact List.Perm.refl _
      | some old =>
        simp only [entries_mk, entries_edges_append, entries_edges_cons, entries_edges_nil,
          entries_leaf_node, List.map_cons, List.map_nil, List.append_nil, List.append_assoc,
          Range.content_after_size, List.nil_append]
        exact List.Perm.refl _
    | some es' =>
      simp only [entries_mk, List.append_assoc]
      exact (ih es' h).append_left _
theorem entries_extend_edges (bufs : Buffers) (leaf : Range × V) (rest : Range) :
    ∀ (es : List (Edge (Node V))),
      ∀ es', extend_edges bufs leaf rest es = some es' →
      (entries_edges bufs es').Perm (entries_edges bufs es ++ [(rest.content bufs, leaf)])
  | [] => by intro es' h; simp [extend_edges_nil] at h
  | e :: es => by
    intro es' h
    rw [extend_edges_cons] at h
    by_cases hs : starts_with_next bufs e.label (rest.content bufs) = true
    · rw [if_pos hs] at h
      by_cases hm : common_prefix_length (e.label.content bufs) (rest.content bufs) = e.label.size bufs
      · rw [if_pos hm] at h
        have ih1 := entries_extend_node bufs leaf
          (rest.after (common_prefix_length (e.label.content bufs) (rest.content bufs))) e.child
        injection h with h
        subst h
        simp only [entries_edges_cons]
        have h2 := ih1.map (fun x => (e.label.content bufs ++ x.1, x.2))
        simp only [List.map_append, List.map_cons, List.map_nil, Range.content_after,
          label_append_drop _ _ hm] at h2
        refine (h2.append_right _).trans ?_
        simp only [List.append_assoc]
        exact List.Perm.append_left _ List.perm_append_comm
      · rw [if_neg hm] at h
        injection h with h
        subst h
        have hle := cpl_le_left (e.label.content bufs) (rest.content bufs)
        simp only [entries_edges_cons, entries_mk, entries_edges_nil, entries_leaf_node,
          List.map_append, List.map_cons, List.map_nil, List.map_map, List.nil_append,
          List.append_nil, Range.content_after, Range.content_first _ _ _ hle,
          Function.comp_def, ← List.append_assoc, List.take_append_drop, take_append_drop_cpl]
        simp only [List.append_assoc]
        exact List.Perm.append_left _ List.perm_append_comm
    · rw [if_neg hs] at h
      have ih2 := entries_extend_edges bufs leaf rest es
      cases h3 : extend_edges bufs leaf rest es with
      | none => simp [h3] at h
      | some es'' =>
        simp only [h3, Option.some.injEq] at h
        subst h
        simp only [entries_edges_cons, List.append_assoc]
        exact (ih2 es'' h3).append_left _
end


theorem WF_mk (bufs : Buffers) (es : List (Edge (Node V))) (lf : Option (Range × V)) :
    WF bufs (Node.mk es lf) ↔ WF_edges bufs es ∧ Deterministic bufs es := by
  rw [WF]

theorem WF_edges_nil (bufs : Buffers) : WF_edges bufs ([] : List (Edge (Node V))) ↔ True := by
  rw [WF_edges]

theorem WF_edges_cons (bufs : Buffers) (e : Edge (Node V)) (es : List (Edge (Node V))) :
    WF_edges bufs (e :: es) ↔
      WF bufs e.child ∧ (e.label.content bufs = [] → e.child.edges = []) ∧ WF_edges bufs es := by
  rw [WF_edges]

theorem WF_edges_append (bufs : Buffers) (es fs : List (Edge (Node V))) :
    WF_edges bufs (es ++ fs) ↔ WF_edges bufs es ∧ WF_edges bufs fs := by
  induction es with
  | nil => simp [WF_edges_nil]
  | cons e es ih => simp [WF_edges_cons, ih, and_assoc]

theorem Deterministic_nil (bufs : Buffers) :
    Deterministic bufs ([] : List (Edge (Node V))) ↔ True := by
  simp [Deterministic]

theorem Node.edges_mk (es : List (Edge (Node V))) (lf : Option (Range × V)) :
    (Node.mk es lf).edges = es := rfl

theorem Node.leaf_mk (es : List (Edge (Node V))) (lf : Option (Range × V)) :
    (Node.mk es lf).leaf = lf := rfl

theorem WF_leaf_node (bufs : Buffers) (leaf : Range × V) :
    WF bufs (Node.mk [] (some leaf)) := by
  simp [WF_mk, WF_edges_nil, Deterministic]

theorem cpl_pos_of_starts (bufs : Buffers) (label : Range) (p : List Char)
    (h : starts_with_next bufs label p = true) :
    1 ≤ common_prefix_length (label.content bufs) p := by
  rw [starts_with_next_iff] at h
  obtain ⟨c, h1, h2⟩ := h
  cases hl : label.content bufs with
  | nil => simp [hl] at h1
  | cons a as =>
    cases p with
    | nil => simp at h2
    | cons b bs =>
      simp only [hl, List.head?_cons, Option.some.injEq] at h1 h2
      rw [cpl_cons, if_pos (h1.trans h2.symm)]
      omega

theorem head?_take_of_pos (a : List Char) (m : Nat) (h : 1 ≤ m) :
    (a.take m).head? = a.head? := by
  cases a with
  | nil => simp
  | cons x xs =>
    cases m with
    | zero => omega
    | succ k => simp

theorem keys_extend_edges (bufs : Buffers) (leaf : Range × V) (rest : Range) :
    ∀ (es es' : List (Edge (Node V))), extend_edges bufs leaf rest es = some es' →
      es'.map (edge_key bufs) = es.map (edge_key bufs) := by
  intro es
  induction es with
  | nil => intro es' h; simp [extend_edges_nil] at h
  | cons e es ih =>
    intro es' h
    rw [extend_edges_cons] at h
    by_cases hs : starts_with_next bufs e.label (rest.content bufs) = true
    · rw [if_pos hs] at h
      by_cases hm : common_prefix_length (e.label.content bufs) (rest.content bufs) = e.label.size bufs
      · rw [if_pos hm] at h
        injection h with h
        subst h
        simp [edge_key]
      · rw [if_neg hm] at h
        injection h with h
        subst h
        have hle := cpl_le_left (e.label.content bufs) (rest.content bufs)
        simp [edge_key, Range.content_first _ _ _ hle,
          head?_take_of_pos _ _ (cpl_pos_of_starts bufs e.label _ hs)]
    · rw [if_neg hs] at h
      cases h3 : extend_edges bufs leaf rest es with
      | none => simp [h3] at h
      | some es'' =>
        simp only [h3, Option.some.injEq] at h
        subst h
        simp [ih es'' h3]

theorem extend_edges_none (bufs : Buffers) (leaf : Range × V) (rest : Range) :
    ∀ (es : List (Edge (Node V))), extend_edges bufs leaf rest es = none →
      ∀ e ∈ es, starts_with_next bufs e.label (rest.content bufs) = false := by
  intro es
  induction es with
  | nil => intro _ e he; simp at he
  | cons e es ih =>
    intro h
    rw [extend_edges_cons] at h
    by_cases hs : starts_with_next bufs e.label (rest.content bufs) = true
    · rw [if_pos hs] at h
      split at h <;> simp at h
    · rw [if_neg hs] at h
      cases h3 : extend_edges bufs leaf rest es with
      | some es'' => simp [h3] at h
      | none =>
        intro e' he'
        rcases List.mem_cons.mp he' with h4 | h4
        · subst h4; simpa using hs
        · exact ih h3 e' h4

mutual
theorem WF_extend_node (bufs : Buffers) (leaf : Range × V) (rest : Range) :
    ∀ (n : Node V), WF bufs n → WF bufs (extend_node bufs leaf rest n)
  | Node.mk es lf => by
    intro hwf
    rw [WF_mk] at hwf
    have ih := WF_extend_edges bufs leaf rest es
    rw [extend_node_mk]
    cases h : extend_edges bufs leaf rest es with
    | none =>
      have hdet : Deterministic bufs
          (es ++ [{ label := rest, child := Node.mk [] (some leaf) }]) := by
        unfold Deterministic
        rw [List.map_append, List.pairwise_append]
        refine ⟨hwf.2, by simp, ?_⟩
        intro a ha b hb c hac hbc
        rw [List.mem_map] at ha
        obtain ⟨e, he, hea⟩ := ha
        simp only [List.map_cons, List.map_nil, List.mem_singleton] at hb
        have h1 := extend_edges_none bufs leaf rest es h e he
        have h2 : starts_with_next bufs e.label (rest.content bufs) = true := by
          rw [starts_with_next_iff]
          refine ⟨c, ?_, ?_⟩
          · rw [← hac, ← hea]; rfl
          · rw [← hbc, hb]; rfl
        rw [h1] at h2
        cases h2
      cases lf with
      | none =>
        simp only [WF_mk, WF_edges_append, WF_edges_cons, WF_edges_nil, Node.edges_mk,
          Deterministic_nil, and_true, true_and, implies_true]
        exact ⟨hwf.1, hdet⟩
      | some old =>
        simp only [WF_mk, WF_edges_append, WF_edges_cons, WF_edges_nil, Node.edges_mk,
          Deterministic_nil, and_true, true_and, implies_true]
        refine ⟨hwf.1, ?_⟩
        unfold Deterministic at hdet ⊢
        rw [List.map_cons, List.pairwise_cons]
        refine ⟨?_, hdet⟩
        intro b _ c hc
        simp [edge_key, Range.content_after_size] at hc
    | some es' =>
      rw [WF_mk]
      refine ⟨ih hwf.1 es' h, ?_⟩
      unfold Deterministic
      rw [keys_extend_edges bufs leaf rest es es' h]
      exact hwf.2
theorem WF_extend_edges (bufs : Buffers) (leaf : Range × V) (rest : Range) :
    ∀ (es : List (Edge (Node V))), WF_edges bufs es →
      ∀ es', extend_edges bufs leaf rest es = some es' → WF_edges bufs es'
  | [] => by intro _ es' h; simp [extend_edges_nil] at h
  | e :: es => by
    intro hwf es' h
    rw [WF_edges_cons] at hwf
    rw [extend_edges_cons] at h
    by_cases hs : starts_with_next bufs e.label (rest.content bufs) = true
    · rw [if_pos hs] at h
      have hpos := cpl_pos_of_starts bufs e.label _ hs
      have hle := cpl_le_left (e.label.content bufs) (rest.content bufs)
      by_cases hm : common_prefix_length (e.label.content bufs) (rest.content bufs) = e.label.size bufs
      · rw [if_pos hm] at h
        have ih1 := WF_extend_node bufs leaf
          (rest.after (common_prefix_length (e.label.content bufs) (rest.content bufs))) e.child
        injection h with h
        subst h
        rw [WF_edges_cons]
        refine ⟨ih1 hwf.1, ?_, hwf.2.2⟩
        intro h0
        simp only at h0
        rw [h0] at hpos
        simp [cpl_nil_left] at hpos
      · rw [if_neg hm] at h
        injection h with h
        subst h
        have hlt : common_prefix_length (e.label.content bufs) (rest.content bufs) <
            (e.label.content bufs).length := lt_of_le_of_ne hle hm
        rw [WF_edges_cons]
        refine ⟨?_, ?_, hwf.2.2⟩
        · simp only [WF_mk, WF_edges_cons, WF_edges_nil, Node.edges_mk, Deterministic_nil,
            and_true, true_and, implies_true]
          refine ⟨⟨hwf.1, ?_⟩, ?_⟩
          · intro h0
            rw [Range.content_after, List.drop_eq_nil_iff] at h0
            omega
          · unfold Deterministic
            simp only [List.map_cons, List.map_nil, List.pairwise_cons, List.mem_singleton,
              forall_eq, List.not_mem_nil, false_implies, implies_true, List.Pairwise.nil,
              and_true, edge_key, Range.content_after]
            intro c hc
            exact cpl_head_ne _ _ c hc
        · intro h0
          simp only at h0
          rw [Range.content_first _ _ _ hle, List.take_eq_nil_iff] at h0
          rcases h0 with h0 | h0
          · omega
          · rw [h0] at hlt; simp at hlt
    · rw [if_neg hs] at h
      have ih2 := WF_extend_edges bufs leaf rest es
      cases h3 : extend_edges bufs leaf rest es with
      | none => simp [h3] at h
      | some es'' =>
        simp only [h3, Option.some.injEq] at h
        subst h
        rw [WF_edges_cons]
        exact ⟨hwf.1, hwf.2.1, ih2 hwf.2.2 es'' h3⟩
end


/-! ### Pattern walk -/

theorem locate_node_mk (bufs : Buffers) (p : List Char) (es : List (Edge (Node V)))
    (lf : Option (Range × V)) :
    locate_node bufs p (Node.mk es lf) =
      if p.isEmpty then some (Node.mk es lf) else locate_edges bufs p es := by
  rw [locate_node]

theorem locate_edges_nil (bufs : Buffers) (p : List Char) :
    locate_edges bufs p ([] : List (Edge (Node V))) = none := by
  rw [locate_edges]

theorem locate_edges_cons (bufs : Buffers) (p : List Char) (e : Edge (Node V))
    (es : List (Edge (Node V))) :
    locate_edges bufs p (e :: es) =
      if starts_with_next bufs e.label p then
        if common_prefix_length (e.label.content bufs) p = p.length then some e.child
        else if common_prefix_length (e.label.content bufs) p = e.label.size bufs then
          locate_node bufs (p.drop (common_prefix_length (e.label.content bufs) p)) e.child
        else none
      else locate_edges bufs p es := by
  rw [locate_edges]

theorem matching_append (p : List Char) (l₁ l₂ : List (List Char × (Range × V))) :
    matching p (l₁ ++ l₂) = matching p l₁ ++ matching p l₂ := by
  simp [matching]

theorem matching_nil_pattern (l : List (List Char × (Range × V))) :
    matching [] l = l.map Prod.snd := by
  simp [matching]

theorem matching_eq_nil (p : List Char) (l : List (List Char × (Range × V)))
    (h : ∀ x ∈ l, ¬ p <+: x.1) : matching p l = [] := by
  simp only [matching, List.map_eq_nil_iff, List.filter_eq_nil_iff, decide_eq_true_eq]
  exact h

theorem matching_eq_all (p : List Char) (l : List (List Char × (Range × V)))
    (h : ∀ x ∈ l, p <+: x.1) : matching p l = l.map Prod.snd := by
  simp only [matching]
  congr 1
  rw [List.filter_eq_self]
  intro x hx
  simpa using h x hx

theorem entries_of_no_edges (bufs : Buffers) (n : Node V) (h : n.edges = []) :
    ∀ x ∈ entries bufs n, x.1 = [] := by
  cases n with
  | mk es lf =>
    rw [Node.edges_mk] at h
    subst h
    intro x hx
    rw [entries_mk, entries_edges_nil] at hx
    cases lf with
    | none => simp at hx
    | some l => simp at hx; rw [hx]

theorem prefix_cpl (l p x : List Char) (h : p <+: l ++ x) :
    common_prefix_length l p = p.length ∨ common_prefix_length l p = l.length := by
  induction l generalizing p with
  | nil => right; simp [cpl_nil_left]
  | cons a l ih =>
    cases p with
    | nil => left; simp [cpl_nil_right]
    | cons c p =>
      rw [List.cons_append, List.cons_prefix_cons] at h
      rw [cpl_cons, if_pos h.1.symm]
      rcases ih p h.2 with h1 | h1
      · left; simp [h1]
      · right; simp [h1]

/-- No leaf below an edge that the walk does not pick has the pattern as a prefix. -/
theorem no_match_under (bufs : Buffers) (p : List Char) (e : Edge (Node V))
    (hs : starts_with_next bufs e.label p = false)
    (hl : e.label.content bufs = [] → e.child.edges = []) (hp : p ≠ []) :
    ∀ x ∈ entries bufs e.child, ¬ p <+: e.label.content bufs ++ x.1 := by
  intro x hx hpre
  cases hc : e.label.content bufs with
  | nil =>
    have h1 := entries_of_no_edges bufs e.child (hl hc) x hx
    rw [hc, h1] at hpre
    simp at hpre
    exact hp hpre
  | cons a as =>
    cases p with
    | nil => exact hp rfl
    | cons c p =>
      rw [hc, List.cons_append, List.cons_prefix_cons] at hpre
      have : starts_with_next bufs e.label (c :: p) = true := by
        rw [starts_with_next_iff]
        exact ⟨a, by rw [hc]; rfl, by rw [hpre.1]; rfl⟩
      rw [hs] at this
      cases this

theorem matching_edges_eq_nil (bufs : Buffers) (p : List Char) (hp : p ≠ []) :
    ∀ (es : List (Edge (Node V))), WF_edges bufs es →
      (∀ e ∈ es, starts_with_next bufs e.label p = false) →
      matching p (entries_edges bufs es) = [] := by
  intro es
  induction es with
  | nil => intro _ _; simp [entries_edges_nil, matching]
  | cons e es ih =>
    intro hwf hall
    rw [WF_edges_cons] at hwf
    rw [entries_edges_cons, matching_append,
      ih hwf.2.2 (fun e' he' => hall e' (List.mem_cons_of_mem _ he')), List.append_nil]
    apply matching_eq_nil
    intro y hy
    rw [List.mem_map] at hy
    obtain ⟨x, hx, hxy⟩ := hy
    rw [← hxy]
    exact no_match_under bufs p e (hall e (List.mem_cons_self _ _)) hwf.2.1 hp x hx

theorem others_do_not_start (bufs : Buffers) (p : List Char) (e : Edge (Node V))
    (es : List (Edge (Node V))) (hd : Deterministic bufs (e :: es))
    (hs : starts_with_next bufs e.label p = true) :
    ∀ e' ∈ es, starts_with_next bufs e'.label p = false := by
  intro e' he'
  unfold Deterministic at hd
  rw [List.map_cons, List.pairwise_cons] at hd
  rw [starts_with_next_iff] at hs
  obtain ⟨c, hc1, hc2⟩ := hs
  have h1 := hd.1 (edge_key bufs e') (List.mem_map_of_mem _ he') c hc1
  cases h2 : starts_with_next bufs e'.label p with
  | false => rfl
  | true =>
    rw [starts_with_next_iff] at h2
    obtain ⟨c', hc3, hc4⟩ := h2
    rw [hc2] at hc4
    injection hc4 with hc4
    subst hc4
    exact absurd hc3 h1

theorem Deterministic_tail (bufs : Buffers) (e : Edge (Node V)) (es : List (Edge (Node V)))
    (hd : Deterministic bufs (e :: es)) : Deterministic bufs es := by
  unfold Deterministic at hd ⊢
  rw [List.map_cons, List.pairwise_cons] at hd
  exact hd.2

mutual
theorem located_node (bufs : Buffers) :
    ∀ (n : Node V), WF bufs n → ∀ p : List Char,
      located bufs (locate_node bufs p n) = matching p (entries bufs n)
  | Node.mk es lf => by
    intro hwf p
    rw [WF_mk] at hwf
    have ih := located_edges bufs es hwf.1 hwf.2
    rw [locate_node_mk]
    cases p with
    | nil => simp [located, matching_nil_pattern]
    | cons c p =>
      simp only [List.isEmpty_cons, Bool.false_eq_true, if_false]
      rw [ih (c :: p) (by simp), entries_mk, matching_append]
      cases lf <;> simp [matching]
theorem located_edges (bufs : Buffers) :
    ∀ (es : List (Edge (Node V))), WF_edges bufs es → Deterministic bufs es →
      ∀ p : List Char, p ≠ [] →
        located bufs (locate_edges bufs p es) = matching p (entries_edges bufs es)
  | [] => by
    intro _ _ p _
    simp [locate_edges_nil, located, entries_edges_nil, matching]
  | e :: es => by
    intro hwf hd p hp
    rw [WF_edges_cons] at hwf
    rw [locate_edges_cons, entries_edges_cons, matching_append]
    by_cases hs : starts_with_next bufs e.label p = true
    · rw [if_pos hs, matching_edges_eq_nil bufs p hp es hwf.2.2
        (others_do_not_start bufs p e es hd hs), List.append_nil]
      by_cases h1 : common_prefix_length (e.label.content bufs) p = p.length
      · rw [if_pos h1]
        have hpre : p <+: e.label.content bufs := by
          rw [cpl_comm] at h1
          exact (cpl_eq_length_left_iff _ _).mp h1
        rw [matching_eq_all]
        · simp [located, Function.comp_def]
        · intro y hy
          rw [List.mem_map] at hy
          obtain ⟨x, _, hxy⟩ := hy
          rw [← hxy]
          exact hpre.trans (List.prefix_append _ _)
      · rw [if_neg h1]
        by_cases h2 : common_prefix_length (e.label.content bufs) p = e.label.size bufs
        · rw [if_pos h2]
          have ih1 := located_node bufs e.child hwf.1
            (p.drop (common_prefix_length (e.label.content bufs) p))
          rw [ih1]
          have hp2 : e.label.content bufs ++
              p.drop (common_prefix_length (e.label.content bufs) p) = p :=
            label_append_drop _ _ h2
          simp only [matching, List.filter_map, List.map_map, Function.comp_def]
          congr 2
          funext x
          have h3 : (p <+: e.label.content bufs ++ x.1) ↔
              (p.drop (common_prefix_length (e.label.content bufs) p) <+: x.1) := by
            have h5 := @List.prefix_append_right_inj _
              (p.drop (common_prefix_length (e.label.content bufs) p)) x.1
              (e.label.content bufs)
            rw [hp2] at h5
            exact h5
          simp only [decide_eq_decide]
          exact h3.symm
        · rw [if_neg h2]
          simp only [located]
          symm
          apply matching_eq_nil
          intro y hy hpre
          rw [List.mem_map] at hy
          obtain ⟨x, _, hxy⟩ := hy
          rw [← hxy] at hpre
          rcases prefix_cpl _ _ _ hpre with h3 | h3
          · exact h1 h3
          · exact h2 h3
    · have hs' : starts_with_next bufs e.label p = false := by simpa using hs
      have h4 : matching p ((entries bufs e.child).map
          (fun x => (e.label.content bufs ++ x.1, x.2))) = [] := by
        apply matching_eq_nil
        intro y hy
        rw [List.mem_map] at hy
        obtain ⟨x, hx, hxy⟩ := hy
        rw [← hxy]
        exact no_match_under bufs p e hs' hwf.2.1 hp x hx
      rw [if_neg hs, located_edges bufs es hwf.2.2 (Deterministic_tail bufs e es hd) p hp, h4]
      simp
end


/-! ### Leaf collection -/

theorem leaves_rev_mk (es : List (Edge (Node V))) (lf : Option (Range × V)) :
    leaves_rev (Node.mk es lf) =
      (match lf with
        | some l => [l]
        | none => []) ++ leaves_rev_edges es := by
  rw [leaves_rev.eq_def]

theorem leaves_rev_edges_nil : leaves_rev_edges ([] : List (Edge (Node V))) = [] := by
  rw [leaves_rev_edges]

theorem leaves_rev_edges_cons (e : Edge (Node V)) (es : List (Edge (Node V))) :
    leaves_rev_edges (e :: es) = leaves_rev_edges es ++ leaves_rev e.child := by
  rw [leaves_rev_edges]

theorem Node.size_mk (es : List (Edge (Node V))) (lf : Option (Range × V)) :
    (Node.mk es lf).size = 1 + Node.sizeEdges es := by
  rw [Node.size]

theorem Node.sizeEdges_nil : Node.sizeEdges ([] : List (Edge (Node V))) = 0 := by
  rw [Node.sizeEdges]

theorem Node.sizeEdges_cons (e : Edge (Node V)) (es : List (Edge (Node V))) :
    Node.sizeEdges (e :: es) = e.child.size + Node.sizeEdges es := by
  rw [Node.sizeEdges]

theorem Node.size_pos (n : Node V) : 1 ≤ n.size := by
  cases n with
  | mk es lf => rw [Node.size_mk]; omega

theorem push_children (es : List (Edge (Node V))) (st : List (Node V)) :
    es.foldl (fun st edge => edge.child :: st) st = (es.map (fun e => e.child)).reverse ++ st := by
  induction es generalizing st with
  | nil => simp
  | cons e es ih => simp [ih]

theorem sum_size_children (es : List (Edge (Node V))) :
    ((es.map (fun e => e.child)).reverse.map Node.size).sum = Node.sizeEdges es := by
  induction es with
  | nil => simp [Node.sizeEdges_nil]
  | cons e es ih =>
    simp only [List.map_cons, List.reverse_cons, List.map_append, List.sum_append, ih,
      List.map_nil, List.sum_cons, List.sum_nil, Node.sizeEdges_cons]
    omega

theorem flatMap_leaves_rev_children (es : List (Edge (Node V))) :
    (es.map (fun e => e.child)).reverse.flatMap leaves_rev = leaves_rev_edges es := by
  induction es with
  | nil => simp [leaves_rev_edges_nil]
  | cons e es ih =>
    simp only [List.map_cons, List.reverse_cons, List.flatMap_append, ih, List.flatMap_cons,
      List.flatMap_nil, List.append_nil, leaves_rev_edges_cons]

/-- With fuel for every node on the stack, the loop ends and appends to `result` the
leaves of the stacked subtrees, top of the stack first. -/
theorem collect_loop_eq (fuel : Nat) :
    ∀ (stack : List (Node V)) (result : List (Range × V)),
      (stack.map Node.size).sum ≤ fuel →
      collect_loop fuel stack result = some (result ++ stack.flatMap leaves_rev) := by
  induction fuel with
  | zero =>
    intro stack result h
    cases stack with
    | nil => simp [collect_loop]
    | cons n st =>
      have := Node.size_pos n
      simp only [List.map_cons, List.sum_cons] at h
      omega
  | succ fuel ih =>
    intro stack result h
    cases stack with
    | nil => simp [collect_loop]
    | cons n st =>
      cases n with
      | mk es lf =>
        simp only [List.map_cons, List.sum_cons, Node.size_mk] at h
        simp only [collect_loop, Node.leaf_mk, Node.edges_mk, push_children]
        rw [ih]
        · simp only [List.flatMap_append, flatMap_leaves_rev_children, List.flatMap_cons,
            leaves_rev_mk]
          cases lf <;> simp
        · simp only [List.map_append, List.sum_append, sum_size_children]
          omega

mutual
theorem leaves_rev_perm (bufs : Buffers) :
    ∀ (n : Node V), (leaves_rev n).Perm ((entries bufs n).map Prod.snd)
  | Node.mk es lf => by
    have ih := leaves_rev_edges_perm bufs es
    rw [leaves_rev_mk, entries_mk, List.map_append]
    refine List.Perm.append ?_ ih
    cases lf <;> simp
theorem leaves_rev_edges_perm (bufs : Buffers) :
    ∀ (es : List (Edge (Node V))),
      (leaves_rev_edges es).Perm ((entries_edges bufs es).map Prod.snd)
  | [] => by simp [leaves_rev_edges_nil, entries_edges_nil]
  | e :: es => by
    have ih1 := leaves_rev_perm bufs e.child
    have ih2 := leaves_rev_edges_perm bufs es
    rw [leaves_rev_edges_cons, entries_edges_cons, List.map_append, List.map_map]
    refine List.perm_append_comm.trans (List.Perm.append ?_ ih2)
    simpa [Function.comp_def] using ih1
end

/-- On a well-formed tree `find_with_positions` returns, in some order, exactly the
leaves whose root-to-leaf path starts with the pattern. -/
theorem find_with_positions_spec (bufs : Buffers) (root : Node V) (hwf : WF bufs root)
    (p : List Char) :
    ∃ res, find_with_positions bufs root p = some res ∧
      res.Perm (matching p (entries bufs root)) := by
  have h := located_node bufs root hwf p
  unfold find_with_positions
  cases hl : locate_node bufs p root with
  | none =>
    rw [hl] at h
    exact ⟨[], rfl, by rw [← h]; simp [located]⟩
  | some n =>
    rw [hl] at h
    refine ⟨leaves_rev n, ?_, ?_⟩
    · simp only
      rw [collect_loop_eq n.size [n] [] (by simp)]
      simp
    · rw [← h]
      exact leaves_rev_perm bufs n


/-! ### insert and the tree of a sequence of inserts -/

theorem content_suffix_range (bufs : Buffers) (id i : Nat) :
    (suffix_range id i (bufs.getD id []).length).content bufs = (bufs.getD id []).drop i := by
  unfold Range.content suffix_range
  simp only
  rw [List.take_of_length_le]
  simp

theorem WF_empty_tree (bufs : Buffers) : WF bufs (empty_tree : Node V) := by
  simp [empty_tree, WF_mk, WF_edges_nil, Deterministic]

theorem entries_empty_tree (bufs : Buffers) : entries bufs (empty_tree : Node V) = [] := by
  simp [empty_tree, entries_mk, entries_edges_nil]

theorem foldl_extend (bufs : Buffers) (id n : Nat) (value : V) (l : List Nat) :
    ∀ root : Node V, WF bufs root →
      WF bufs (l.foldl (fun node i =>
        extend_node bufs (suffix_range id i n, value) (suffix_range id i n) node) root) ∧
      (entries bufs (l.foldl (fun node i =>
        extend_node bufs (suffix_range id i n, value) (suffix_range id i n) node) root)).Perm
        (entries bufs root ++ l.map (fun i =>
          ((suffix_range id i n).content bufs, (suffix_range id i n, value)))) := by
  induction l with
  | nil => intro root hwf; simp [hwf]
  | cons i l ih =>
    intro root hwf
    rw [List.foldl_cons]
    have h1 := WF_extend_node bufs (suffix_range id i n, value) (suffix_range id i n) root hwf
    have h2 := entries_extend_node bufs (suffix_range id i n, value) (suffix_range id i n) root
    obtain ⟨h3, h4⟩ := ih _ h1
    refine ⟨h3, h4.trans ?_⟩
    rw [List.map_cons]
    refine (h2.append_right _).trans ?_
    simp

theorem insert_spec (bufs : Buffers) (root : Node V) (id : Nat) (value : V)
    (hwf : WF bufs root) :
    WF bufs (insert bufs root id value) ∧
      (entries bufs (insert bufs root id value)).Perm
        (entries bufs root ++ suffix_entries bufs id value) := by
  unfold insert suffix_entries
  simp only
  cases h : (bufs.getD id []).isEmpty with
  | true =>
    rw [List.isEmpty_iff] at h
    rw [h]
    simp [hwf]
  | false =>
    simp only [Bool.false_eq_true, if_false]
    have h1 := foldl_extend bufs id (bufs.getD id []).length value
      (List.range (bufs.getD id []).length) root hwf
    refine ⟨h1.1, h1.2.trans ?_⟩
    simp only [content_suffix_range]
    exact List.Perm.refl _

theorem foldl_insert_spec (bufs : Buffers) (l : List (Nat × (List Char × V))) :
    ∀ root : Node V, WF bufs root →
      WF bufs (l.foldl (fun t kv => insert bufs t kv.1 kv.2.2) root) ∧
      (entries bufs (l.foldl (fun t kv => insert bufs t kv.1 kv.2.2) root)).Perm
        (entries bufs root ++ l.flatMap (fun kv => suffix_entries bufs kv.1 kv.2.2)) := by
  induction l with
  | nil => intro root hwf; simp [hwf]
  | cons kv l ih =>
    intro root hwf
    rw [List.foldl_cons]
    obtain ⟨h1, h2⟩ := insert_spec bufs root kv.1 kv.2.2 hwf
    obtain ⟨h3, h4⟩ := ih _ h1
    refine ⟨h3, h4.trans ?_⟩
    rw [List.flatMap_cons, ← List.append_assoc]
    exact h2.append_right _

theorem WF_build (ops : List (List Char × V)) : WF (texts ops) (build ops) :=
  (foldl_insert_spec (texts ops) ops.enum empty_tree (WF_empty_tree _)).1

theorem entries_build (ops : List (List Char × V)) :
    (entries (texts ops) (build ops)).Perm (all_suffixes ops) := by
  have h := (foldl_insert_spec (texts ops) ops.enum empty_tree (WF_empty_tree _)).2
  rw [entries_empty_tree, List.nil_append] at h
  exact h

theorem texts_getD (ops : List (List Char × V)) (k : Nat) (t : List Char) (v : V)
    (h : (k, (t, v)) ∈ ops.enum) : (texts ops).getD k [] = t := by
  rw [List.mk_mem_enum_iff_getElem?] at h
  simp [texts, List.getD_eq_getElem?_getD, List.getElem?_map, h]

/-- Every leaf of the tree of a sequence of inserts is the suffix of an inserted text
that starts at its `Range`, and its path spells that suffix. -/
theorem mem_all_suffixes (ops : List (List Char × V)) (x : List Char × (Range × V)) :
    x ∈ all_suffixes ops ↔
      ∃ k t v i, (k, (t, v)) ∈ ops.enum ∧ i < t.length ∧
        x = (t.drop i, (suffix_range k i t.length, v)) := by
  unfold all_suffixes suffix_entries
  simp only [List.mem_flatMap, List.mem_map, List.mem_range, Prod.exists]
  constructor
  · rintro ⟨k, t, v, hk, i, hi, hx⟩
    rw [texts_getD ops k t v hk] at hi hx
    exact ⟨k, t, v, i, hk, hi, hx.symm⟩
  · rintro ⟨k, t, v, i, hk, hi, hx⟩
    refine ⟨k, t, v, hk, i, ?_, ?_⟩
    · rw [texts_getD ops k t v hk]; exact hi
    · rw [texts_getD ops k t v hk]; exact hx.symm

theorem path_eq_content (ops : List (List Char × V)) (x : List Char × (Range × V))
    (hx : x ∈ all_suffixes ops) : x.1 = x.2.1.content (texts ops) := by
  rw [mem_all_suffixes] at hx
  obtain ⟨k, t, v, i, hk, _, rfl⟩ := hx
  have h := content_suffix_range (texts ops) k i
  rw [texts_getD ops k t v hk] at h
  exact h.symm


/-! ### Queries on the tree of a sequence of inserts -/

theorem matching_perm (p : List Char) {l₁ l₂ : List (List Char × (Range × V))}
    (h : l₁.Perm l₂) : (matching p l₁).Perm (matching p l₂) :=
  (h.filter _).map _

theorem find_with_positions_build (ops : List (List Char × V)) (p : List Char) :
    ∃ res, find_with_positions (texts ops) (build ops) p = some res ∧
      res.Perm (matching p (all_suffixes ops)) := by
  obtain ⟨res, h1, h2⟩ := find_with_positions_spec (texts ops) (build ops) (WF_build ops) p
  exact ⟨res, h1, h2.trans (matching_perm p (entries_build ops))⟩

theorem not_prefix_drop_length (p t : List Char) (hp : p ≠ []) :
    ¬ p <+: t.drop t.length := by
  rw [List.drop_length]
  intro h
  exact hp (List.prefix_nil.mp h)

theorem matching_all_suffixes (ops : List (List Char × V)) (p : List Char) (hp : p ≠ []) :
    matching p (all_suffixes ops) = occurrences ops p := by
  unfold matching all_suffixes occurrences
  rw [List.filter_flatMap, List.map_flatMap]
  apply List.flatMap_congr
  intro kv hkv
  have hg := texts_getD ops kv.1 kv.2.1 kv.2.2 hkv
  unfold suffix_entries
  rw [hg, List.range_succ, List.filter_append, List.filter_map, List.map_map, List.map_append]
  have h0 : List.filter (fun i => decide (p <+: List.drop i kv.2.1)) [kv.2.1.length] = [] := by
    have := not_prefix_drop_length p kv.2.1 hp
    rw [List.filter_cons, if_neg (by simpa using this), List.filter_nil]
  rw [h0, List.map_nil, List.append_nil]
  rfl

theorem infix_iff_prefix_drop (p t : List Char) :
    p <:+: t ↔ ∃ i, i < t.length + 1 ∧ p <+: t.drop i := by
  constructor
  · rintro ⟨s, u, h⟩
    refine ⟨s.length, ?_, u, ?_⟩
    · rw [← h]; simp; omega
    · rw [← h]; simp
  · rintro ⟨i, _, h⟩
    exact h.isInfix.trans (List.drop_suffix i t).isInfix

theorem mem_occurrences_value (ops : List (List Char × V)) (p : List Char) (v : V) :
    (∃ x ∈ occurrences ops p, x.2 = v) ↔ ∃ t, (t, v) ∈ ops ∧ p <:+: t := by
  unfold occurrences
  simp only [List.mem_flatMap, List.mem_map, List.mem_filter, List.mem_range,
    decide_eq_true_eq, Prod.exists]
  constructor
  · rintro ⟨r, w, ⟨k, t, u, hk, i, ⟨hi, hp⟩, hx⟩, hv⟩
    injection hx with _ h2
    refine ⟨t, ?_, (infix_iff_prefix_drop p t).mpr ⟨i, hi, hp⟩⟩
    rw [← hv, ← h2]
    rw [List.mk_mem_enum_iff_getElem?] at hk
    exact List.mem_iff_getElem?.mpr ⟨k, hk⟩
  · rintro ⟨t, ht, hinf⟩
    obtain ⟨i, hi, hp⟩ := (infix_iff_prefix_drop p t).mp hinf
    obtain ⟨k, hk⟩ := List.mem_iff_getElem?.mp ht
    exact ⟨_, v, ⟨k, t, v, List.mk_mem_enum_iff_getElem?.mpr hk, i, ⟨hi, hp⟩, rfl⟩, rfl⟩

theorem find_build [DecidableEq V] (ops : List (List Char × V)) (p : List Char)
    (hp : p ≠ []) :
    ∃ S, find (texts ops) (build ops) p = some S ∧
      ∀ v, v ∈ S ↔ ∃ t, (t, v) ∈ ops ∧ p <:+: t := by
  obtain ⟨res, h1, h2⟩ := find_with_positions_build ops p
  rw [matching_all_suffixes ops p hp] at h2
  refine ⟨(res.map Prod.snd).toFinset, by simp [find, h1], ?_⟩
  intro v
  rw [← mem_occurrences_value ops p v]
  simp only [List.mem_toFinset, List.mem_map]
  constructor
  · rintro ⟨x, hx, hv⟩; exact ⟨x, h2.mem_iff.mp hx, hv⟩
  · rintro ⟨x, hx, hv⟩; exact ⟨x, h2.mem_iff.mpr hx, hv⟩

theorem find_build_any [DecidableEq V] (ops : List (List Char × V)) (p : List Char) :
    ∃ S, find (texts ops) (build ops) p = some S ∧
      ∀ v, v ∈ S ↔ ∃ t, (t, v) ∈ ops ∧ t ≠ [] ∧ p <:+: t := by
  obtain ⟨res, h1, h2⟩ := find_with_positions_build ops p
  refine ⟨(res.map Prod.snd).toFinset, by simp [find, h1], ?_⟩
  intro v
  simp only [List.mem_toFinset, List.mem_map]
  constructor
  · rintro ⟨x, hx, hv⟩
    rw [h2.mem_iff] at hx
    unfold matching at hx
    obtain ⟨y, hy, hyx⟩ := List.mem_map.1 hx
    rw [List.mem_filter, mem_all_suffixes] at hy
    obtain ⟨⟨k, t, w, i, hk, hi, rfl⟩, hp⟩ := hy
    have hp2 : p <+: t.drop i := by simpa using hp
    refine ⟨t, ?_, ?_, hp2.isInfix.trans (List.drop_suffix i t).isInfix⟩
    · rw [List.mk_mem_enum_iff_getElem?] at hk
      rw [← hv, ← hyx]
      exact List.mem_iff_getElem?.2 ⟨k, hk⟩
    · intro h0
      rw [h0] at hi
      exact Nat.not_lt_zero _ hi
  · rintro ⟨t, ht, hne, hinf⟩
    obtain ⟨k, hk⟩ := List.mem_iff_getElem?.1 ht
    have hlen : 0 < t.length := List.length_pos.2 hne
    obtain ⟨i, hi, hp⟩ : ∃ i, i < t.length ∧ p <+: t.drop i := by
      obtain ⟨j, hj, hpj⟩ := (infix_iff_prefix_drop p t).1 hinf
      by_cases hjl : j < t.length
      · exact ⟨j, hjl, hpj⟩
      · have hje : j = t.length := by omega
        rw [hje, List.drop_length] at hpj
        rw [List.prefix_nil.1 hpj]
        exact ⟨0, hlen, List.nil_prefix⟩
    refine ⟨(suffix_range k i t.length, v), ?_, rfl⟩
    rw [h2.mem_iff]
    unfold matching
    rw [List.mem_map]
    refine ⟨(t.drop i, (suffix_range k i t.length, v)), ?_, rfl⟩
    rw [List.mem_filter, mem_all_suffixes]
    exact ⟨⟨k, t, v, i, List.mk_mem_enum_iff_getElem?.2 hk, hi, rfl⟩, by simpa using hp⟩

/-! ### Claims C1 to C4 -/

/-- C1 as stated fails: after `insert("", 0)` on the empty tree, `find("")` is the
empty set although the pattern `""` is a substring of the inserted text `""`. -/
theorem find_empty_iff_counterexample :
    ¬ (find (texts [(([] : List Char), (0 : Nat))]) (build [(([] : List Char), (0 : Nat))]) []
          = some ∅ ↔
        ¬ ∃ t v, (t, v) ∈ [(([] : List Char), (0 : Nat))] ∧ ([] : List Char) <:+: t) := by
  intro h
  have h1 : find (texts [(([] : List Char), (0 : Nat))])
      (build [(([] : List Char), (0 : Nat))]) [] = some ∅ := by decide
  exact h.mp h1 ⟨[], 0, by simp, List.infix_refl _⟩

/-- C1 (amended): for every sequence of inserts on the empty tree and every pattern, the
empty one included, `find(pattern)` returns the empty set if and only if the pattern is
not a substring of any inserted text that is not empty. -/
theorem find_empty_iff_not_substring [DecidableEq V] (ops : List (List Char × V))
    (p : List Char) :
    ∃ S, find (texts ops) (build ops) p = some S ∧
      (S = ∅ ↔ ¬ ∃ t v, (t, v) ∈ ops ∧ t ≠ [] ∧ p <:+: t) := by
  obtain ⟨S, h1, h2⟩ := find_build_any ops p
  refine ⟨S, h1, ?_⟩
  rw [Finset.eq_empty_iff_forall_not_mem]
  constructor
  · rintro h ⟨t, v, hv⟩
    exact h v ((h2 v).mpr ⟨t, hv⟩)
  · rintro h v hv
    obtain ⟨t, ht⟩ := (h2 v).mp hv
    exact h ⟨t, v, ht⟩

/-- Witness of C1 (amended): the pattern `bob` and the empty pattern on the tree of
`banana`, `bandana`, `bar`, `foobar`. -/
theorem find_empty_iff_not_substring_witness :
    (∃ S, find (texts banana_ops) (build banana_ops) "bob".toList = some S ∧
      (S = ∅ ↔ ¬ ∃ t v, (t, v) ∈ banana_ops ∧ t ≠ [] ∧ "bob".toList <:+: t)) ∧
    (∃ S, find (texts banana_ops) (build banana_ops) [] = some S ∧
      (S = ∅ ↔ ¬ ∃ t v, (t, v) ∈ banana_ops ∧ t ≠ [] ∧ ([] : List Char) <:+: t)) :=
  ⟨find_empty_iff_not_substring banana_ops "bob".toList,
    find_empty_iff_not_substring banana_ops []⟩

/-- C2: for every sequence of inserts on the empty tree and every non-empty pattern,
`find(pattern)` is exactly the set of the values whose text contains the pattern as a
substring. -/
theorem find_eq_values_of_containing_texts [DecidableEq V] (ops : List (List Char × V))
    (p : List Char) (hp : p ≠ []) :
    ∃ S, find (texts ops) (build ops) p = some S ∧
      ∀ v, v ∈ S ↔ ∃ t, (t, v) ∈ ops ∧ p <:+: t :=
  find_build ops p hp

/-- Witness of C2: `find("an")` on the tree of `banana`, `bandana`, `bar`, `foobar`. -/
theorem find_eq_values_of_containing_texts_witness :
    "an".toList ≠ [] ∧
      ∃ S, find (texts banana_ops) (build banana_ops) "an".toList = some S ∧
        ∀ v, v ∈ S ↔ ∃ t, (t, v) ∈ banana_ops ∧ "an".toList <:+: t :=
  ⟨by decide, find_eq_values_of_containing_texts banana_ops "an".toList (by decide)⟩

theorem find_with_positions_suffix_at (ops : List (List Char × V)) (t : List Char)
    (v : V) (i : Nat) (ht : (t, v) ∈ ops) (hi : i < t.length) :
    ∃ res, find_with_positions (texts ops) (build ops) (t.drop i) = some res ∧
      ∃ x ∈ res, x.1.content (texts ops) = t.drop i ∧ x.2 = v := by
  obtain ⟨res, h1, h2⟩ := find_with_positions_build ops (t.drop i)
  refine ⟨res, h1, ?_⟩
  obtain ⟨k, hk⟩ := List.mem_iff_getElem?.mp ht
  have hmem : (t.drop i, (suffix_range k i t.length, v)) ∈ all_suffixes ops :=
    (mem_all_suffixes ops _).mpr ⟨k, t, v, i, List.mk_mem_enum_iff_getElem?.mpr hk, hi, rfl⟩
  refine ⟨(suffix_range k i t.length, v), ?_, ?_, rfl⟩
  · rw [h2.mem_iff]
    unfold matching
    rw [List.mem_map]
    refine ⟨(t.drop i, (suffix_range k i t.length, v)), ?_, rfl⟩
    rw [List.mem_filter]
    exact ⟨hmem, by simp⟩
  · exact (path_eq_content ops _ hmem).symm

/-- C3: for every sequence of inserts, every inserted `(text, value)` and every suffix
`s` of `text`, `find_with_positions(s)` contains an entry whose `Range` content equals
`s` and whose value equals `value`, also when `s` is a suffix or a substring of another
inserted text. The suffixes of a text of length `n` are the `n` sequences that start at
its offsets, so `s` is not empty. -/
theorem find_with_positions_contains_suffix (ops : List (List Char × V)) (t : List Char)
    (v : V) (s : List Char) (ht : (t, v) ∈ ops) (hs : s <:+ t) (hne : s ≠ []) :
    ∃ res, find_with_positions (texts ops) (build ops) s = some res ∧
      ∃ x ∈ res, x.1.content (texts ops) = s ∧ x.2 = v := by
  have hd := List.suffix_iff_eq_drop.mp hs
  have hlen := hs.length_le
  have hpos : 0 < s.length := List.length_pos.mpr hne
  have h := find_with_positions_suffix_at ops t v (t.length - s.length) ht (by omega)
  rw [← hd] at h
  exact h

/-- Witness of C3: the suffix `bar` of `foobar`, which is also the whole text
`bar`. -/
theorem find_with_positions_contains_suffix_witness :
    ("foobar".toList, 3) ∈ banana_ops ∧ "bar".toList <:+ "foobar".toList ∧
      "bar".toList ≠ [] ∧
      ∃ res, find_with_positions (texts banana_ops) (build banana_ops) "bar".toList = some res ∧
        ∃ x ∈ res, x.1.content (texts banana_ops) = "bar".toList ∧ x.2 = 3 :=
  ⟨by decide, by decide, by decide,
    find_with_positions_contains_suffix banana_ops "foobar".toList 3 "bar".toList
      (by decide) (by decide) (by decide)⟩

/-- C4: for every sequence of inserts and every non-empty pattern,
`find_with_positions(pattern)` holds exactly one entry per occurrence of the pattern in
an inserted text, the `Range` from the occurrence to the end of the text with the text's
value, and no other entry. -/
theorem find_with_positions_eq_occurrences (ops : List (List Char × V)) (p : List Char)
    (hp : p ≠ []) :
    ∃ res, find_with_positions (texts ops) (build ops) p = some res ∧
      res.Perm (occurrences ops p) := by
  obtain ⟨res, h1, h2⟩ := find_with_positions_build ops p
  rw [matching_all_suffixes ops p hp] at h2
  exact ⟨res, h1, h2⟩

/-- Witness of C4: `find_with_positions("an")` on the tree of `banana`, `bandana`, `bar`,
`foobar` has exactly the 4 entries at offsets 1 and 3 of `banana` and 1 and 4 of
`bandana`. -/
theorem find_with_positions_eq_occurrences_witness :
    "an".toList ≠ [] ∧
      (∃ res, find_with_positions (texts banana_ops) (build banana_ops) "an".toList = some res ∧
        res.Perm (occurrences banana_ops "an".toList)) ∧
      occurrences banana_ops "an".toList =
        [({ buffer_id := 0, start_offset := 1, end_offset := 6 }, 0),
         ({ buffer_id := 0, start_offset := 3, end_offset := 6 }, 0),
         ({ buffer_id := 1, start_offset := 1, end_offset := 7 }, 1),
         ({ buffer_id := 1, start_offset := 4, end_offset := 7 }, 1)] :=
  ⟨by decide, find_with_positions_eq_occurrences banana_ops "an".toList (by decide), by decide⟩


/-! ### Sorting the edges -/

theorem sort_node_mk (bufs : Buffers) (es : List (Edge (Node V))) (lf : Option (Range × V)) :
    sort_node bufs (Node.mk es lf) = Node.mk (sort_edges bufs es) lf := by
  rw [sort_node]

theorem sort_edges_nil (bufs : Buffers) :
    sort_edges bufs ([] : List (Edge (Node V))) = [] := by
  rw [sort_edges]

theorem sort_edges_cons (bufs : Buffers) (e : Edge (Node V)) (es : List (Edge (Node V))) :
    sort_edges bufs (e :: es) =
      insert_edge bufs { label := e.label, child := (sort_node bufs e.child) }
        (sort_edges bufs es) := by
  rw [sort_edges]

theorem insert_edge_perm (bufs : Buffers) (e : Edge (Node V)) (l : List (Edge (Node V))) :
    (insert_edge bufs e l).Perm (e :: l) := by
  induction l with
  | nil => simp [insert_edge]
  | cons f fs ih =>
    unfold insert_edge
    split
    · exact List.Perm.refl _
    · exact (ih.cons f).trans (List.Perm.swap e f fs)

theorem key_le_total (a b : Option Char) : key_le a b = true ∨ key_le b a = true := by
  cases a with
  | none => left; rfl
  | some x =>
    cases b with
    | none => right; rfl
    | some y =>
      simp only [key_le, decide_eq_true_eq]
      exact le_total x y

theorem key_le_trans (a b c : Option Char) (h1 : key_le a b = true) (h2 : key_le b c = true) :
    key_le a c = true := by
  cases a with
  | none => rfl
  | some x =>
    cases b with
    | none => simp [key_le] at h1
    | some y =>
      cases c with
      | none => simp [key_le] at h2
      | some z =>
        simp only [key_le, decide_eq_true_eq] at h1 h2 ⊢
        exact le_trans h1 h2

theorem insert_edge_sorted (bufs : Buffers) (e : Edge (Node V)) (l : List (Edge (Node V)))
    (h : l.Pairwise (fun a b => key_le (edge_key bufs a) (edge_key bufs b) = true)) :
    (insert_edge bufs e l).Pairwise
      (fun a b => key_le (edge_key bufs a) (edge_key bufs b) = true) := by
  induction l with
  | nil => simp [insert_edge]
  | cons f fs ih =>
    rw [List.pairwise_cons] at h
    unfold insert_edge
    split
    · rename_i hef
      rw [List.pairwise_cons]
      refine ⟨?_, List.pairwise_cons.mpr h⟩
      intro x hx
      rcases List.mem_cons.mp hx with hx | hx
      · rw [hx]; exact hef
      · exact key_le_trans _ _ _ hef (h.1 x hx)
    · rename_i hef
      rw [List.pairwise_cons]
      refine ⟨?_, ih h.2⟩
      intro x hx
      rcases List.mem_cons.mp ((insert_edge_perm bufs e fs).mem_iff.mp hx) with hx | hx
      · rw [hx]
        rcases key_le_total (edge_key bufs e) (edge_key bufs f) with h3 | h3
        · exact absurd h3 hef
        · exact h3
      · exact h.1 x hx

theorem entries_edges_eq_flatMap (bufs : Buffers) (es : List (Edge (Node V))) :
    entries_edges bufs es =
      es.flatMap (fun e => (entries bufs e.child).map
        (fun x => (e.label.content bufs ++ x.1, x.2))) := by
  induction es with
  | nil => simp [entries_edges_nil]
  | cons e es ih => simp [entries_edges_cons, ih]

theorem entries_edges_perm (bufs : Buffers) {es fs : List (Edge (Node V))} (h : es.Perm fs) :
    (entries_edges bufs es).Perm (entries_edges bufs fs) := by
  rw [entries_edges_eq_flatMap, entries_edges_eq_flatMap]
  exact h.flatMap_right _

theorem mem_entries_edges (bufs : Buffers) (es : List (Edge (Node V)))
    (b : List Char × (Range × V)) :
    b ∈ entries_edges bufs es ↔
      ∃ e ∈ es, ∃ y ∈ entries bufs e.child, b = (e.label.content bufs ++ y.1, y.2) := by
  rw [entries_edges_eq_flatMap]
  simp only [List.mem_flatMap, List.mem_map]
  constructor
  · rintro ⟨e, he, y, hy, h⟩; exact ⟨e, he, y, hy, h.symm⟩
  · rintro ⟨e, he, y, hy, h⟩; exact ⟨e, he, y, hy, h.symm⟩

theorem WF_edges_iff (bufs : Buffers) (es : List (Edge (Node V))) :
    WF_edges bufs es ↔
      ∀ e ∈ es, WF bufs e.child ∧ (e.label.content bufs = [] → e.child.edges = []) := by
  induction es with
  | nil => simp [WF_edges_nil]
  | cons e es ih =>
    rw [WF_edges_cons, ih]
    simp only [List.mem_cons, forall_eq_or_imp]
    tauto

theorem Deterministic_perm (bufs : Buffers) {es fs : List (Edge (Node V))}
    (h : (es.map (edge_key bufs)).Perm (fs.map (edge_key bufs)))
    (hd : Deterministic bufs es) : Deterministic bufs fs := by
  unfold Deterministic at hd ⊢
  refine (h.pairwise_iff ?_).mp hd
  intro a b hab c hb ha
  exact hab c ha hb

theorem sort_node_edges_nil (bufs : Buffers) (n : Node V) (h : n.edges = []) :
    (sort_node bufs n).edges = [] := by
  cases n with
  | mk es lf =>
    rw [Node.edges_mk] at h
    rw [sort_node_mk, Node.edges_mk, h, sort_edges_nil]

mutual
theorem entries_sort_node (bufs : Buffers) :
    ∀ n : Node V, (entries bufs (sort_node bufs n)).Perm (entries bufs n)
  | Node.mk es lf => by
    rw [sort_node_mk, entries_mk, entries_mk]
    exact (entries_sort_edges bufs es).append_left _
theorem entries_sort_edges (bufs : Buffers) :
    ∀ es : List (Edge (Node V)),
      (entries_edges bufs (sort_edges bufs es)).Perm (entries_edges bufs es)
  | [] => by rw [sort_edges_nil]
  | e :: es => by
    rw [sort_edges_cons]
    refine (entries_edges_perm bufs (insert_edge_perm bufs _ _)).trans ?_
    rw [entries_edges_cons, entries_edges_cons]
    exact ((entries_sort_node bufs e.child).map _).append (entries_sort_edges bufs es)
end

mutual
theorem WF_sort_node (bufs : Buffers) :
    ∀ n : Node V, WF bufs n → WF bufs (sort_node bufs n) ∧ SortedKeys bufs (sort_node bufs n)
  | Node.mk es lf => by
    intro hwf
    rw [WF_mk] at hwf
    obtain ⟨h1, h2, h3, h4⟩ := WF_sort_edges bufs es hwf.1
    rw [sort_node_mk, WF_mk, SortedKeys]
    exact ⟨⟨h1, Deterministic_perm bufs h4.symm hwf.2⟩, h2, h3⟩
theorem WF_sort_edges (bufs : Buffers) :
    ∀ es : List (Edge (Node V)), WF_edges bufs es →
      WF_edges bufs (sort_edges bufs es) ∧ SortedKeys_edges bufs (sort_edges bufs es) ∧
      (sort_edges bufs es).Pairwise
        (fun a b => key_le (edge_key bufs a) (edge_key bufs b) = true) ∧
      ((sort_edges bufs es).map (edge_key bufs)).Perm (es.map (edge_key bufs))
  | [] => by
    intro _
    rw [sort_edges_nil]
    simp [WF_edges_nil, SortedKeys_edges]
  | e :: es => by
    intro hwf
    rw [WF_edges_cons] at hwf
    obtain ⟨h1, h2, h3, h4⟩ := WF_sort_edges bufs es hwf.2.2
    obtain ⟨h5, h6⟩ := WF_sort_node bufs e.child hwf.1
    rw [sort_edges_cons]
    have hp := insert_edge_perm bufs
      ({ label := e.label, child := (sort_node bufs e.child) } : Edge (Node V))
      (sort_edges bufs es)
    refine ⟨?_, ?_, insert_edge_sorted bufs _ _ h3, ?_⟩
    · rw [WF_edges_iff]
      intro x hx
      rcases List.mem_cons.mp (hp.mem_iff.mp hx) with hx | hx
      · rw [hx]
        exact ⟨h5, fun h0 => sort_node_edges_nil bufs e.child (hwf.2.1 h0)⟩
      · exact (WF_edges_iff bufs _).mp h1 x hx
    · have : ∀ l : List (Edge (Node V)),
          SortedKeys_edges bufs l ↔ ∀ x ∈ l, SortedKeys bufs x.child := by
        intro l
        induction l with
        | nil => simp [SortedKeys_edges]
        | cons a l ih => rw [SortedKeys_edges, ih]; simp
      rw [this] at h2 ⊢
      intro x hx
      rcases List.mem_cons.mp (hp.mem_iff.mp hx) with hx | hx
      · rw [hx]; exact h6
      · exact h2 x hx
    · refine (hp.map _).trans ?_
      rw [List.map_cons, List.map_cons]
      exact h4.cons _
end


/-! ### Traversal: suffix array and LCP array -/

theorem walk_node_mk (bufs : Buffers) (d : Nat) (es : List (Edge (Node V)))
    (lf : Option (Range × V)) :
    walk_node bufs d (Node.mk es lf) =
      join d (match lf with
        | some l => ([l], [])
        | none => ([], [])) (walk_edges bufs d es) := by
  rw [walk_node.eq_def]

theorem walk_edges_nil (bufs : Buffers) (d : Nat) :
    walk_edges bufs d ([] : List (Edge (Node V))) = ([], []) := by
  rw [walk_edges]

theorem walk_edges_cons (bufs : Buffers) (d : Nat) (e : Edge (Node V))
    (es : List (Edge (Node V))) :
    walk_edges bufs d (e :: es) =
      join d (walk_node bufs (d + e.label.size bufs) e.child) (walk_edges bufs d es) := by
  rw [walk_edges]

theorem lcps_nil (d : Nat) : lcps d [] = [] := by
  simp [lcps]

theorem lcps_singleton (d : Nat) (a : List Char) : lcps d [a] = [] := by
  simp [lcps]

theorem lcps_cons_cons (d : Nat) (a b : List Char) (l : List (List Char)) :
    lcps d (a :: b :: l) = (d + common_prefix_length a b) :: lcps d (b :: l) := by
  rw [lcps]

theorem lcps_append (d : Nat) (q : List Char) (Q : List (List Char)) :
    ∀ P : List (List Char), P ≠ [] → (∀ a ∈ P, common_prefix_length a q = 0) →
      lcps d (P ++ q :: Q) = lcps d P ++ d :: lcps d (q :: Q) := by
  intro P
  induction P with
  | nil => intro h; exact absurd rfl h
  | cons a P ih =>
    intro _ hall
    cases P with
    | nil =>
      rw [List.singleton_append, lcps_cons_cons, lcps_singleton,
        hall a (List.mem_singleton.mpr rfl)]
      rfl
    | cons b P =>
      rw [List.cons_append, List.cons_append, lcps_cons_cons, lcps_cons_cons,
        ← List.cons_append, ih (by simp) (fun x hx => hall x (List.mem_cons_of_mem _ hx))]
      rfl

theorem lcps_map_append (d : Nat) (label : List Char) :
    ∀ P : List (List Char),
      lcps d (P.map (fun x => label ++ x)) = lcps (d + label.length) P := by
  intro P
  induction P with
  | nil => simp [lcps_nil]
  | cons a P ih =>
    cases P with
    | nil => simp [lcps_singleton]
    | cons b P =>
      rw [List.map_cons, List.map_cons, lcps_cons_cons, lcps_cons_cons, cpl_append_left,
        ← List.map_cons, ih]
      congr 1
      omega

theorem lcps_length (d : Nat) : ∀ P : List (List Char), (lcps d P).length = P.length - 1 := by
  intro P
  induction P with
  | nil => simp [lcps_nil]
  | cons a P ih =>
    cases P with
    | nil => simp [lcps_singleton]
    | cons b P =>
      rw [lcps_cons_cons, List.length_cons, ih]
      simp

theorem lcps_getElem? (d : Nat) :
    ∀ (P : List (List Char)) (i : Nat) (a b : List Char),
      P[i]? = some a → P[i + 1]? = some b →
      (lcps d P)[i]? = some (d + common_prefix_length a b) := by
  intro P
  induction P with
  | nil => intro i a b h; simp at h
  | cons x P ih =>
    intro i a b ha hb
    cases P with
    | nil => simp at hb
    | cons y P =>
      rw [lcps_cons_cons]
      cases i with
      | zero =>
        simp only [List.getElem?_cons_zero, Option.some.injEq, zero_add,
          List.getElem?_cons_succ] at ha hb ⊢
        rw [ha, hb]
      | succ i =>
        rw [List.getElem?_cons_succ] at ha hb ⊢
        exact ih i a b ha hb

theorem join_spec (d : Nat) (A B : List (List Char × (Range × V)))
    (h : ∀ a ∈ A, ∀ b ∈ B, common_prefix_length a.1 b.1 = 0) :
    join d (A.map Prod.snd, lcps d (A.map Prod.fst)) (B.map Prod.snd, lcps d (B.map Prod.fst)) =
      ((A ++ B).map Prod.snd, lcps d ((A ++ B).map Prod.fst)) := by
  unfold join
  cases A with
  | nil => simp
  | cons a A =>
    cases B with
    | nil => simp
    | cons b B =>
      simp only [List.map_cons, List.isEmpty_cons, Bool.false_eq_true, if_false, List.map_append,
        List.cons_append]
      have h2 := lcps_append d b.1 (B.map Prod.fst) (a.1 :: A.map Prod.fst) (by simp) ?_
      · rw [List.cons_append] at h2
        rw [h2]
      · intro x hx
        rw [← List.map_cons, List.mem_map] at hx
        obtain ⟨y, hy, hxy⟩ := hx
        rw [← hxy]
        exact h y hy b (List.mem_cons_self _ _)

/-- The first character of the path of a leaf below an edge is the key of the edge. -/
theorem head?_path (bufs : Buffers) (e : Edge (Node V))
    (hl : e.label.content bufs = [] → e.child.edges = [])
    (x : List Char × (Range × V)) (hx : x ∈ entries bufs e.child) :
    (e.label.content bufs ++ x.1).head? = edge_key bufs e := by
  unfold edge_key
  cases hc : e.label.content bufs with
  | nil =>
    rw [entries_of_no_edges bufs e.child (hl hc) x hx]
    rfl
  | cons c l => rfl

theorem cross_edges (bufs : Buffers) (e : Edge (Node V)) (es : List (Edge (Node V)))
    (hwf : WF_edges bufs (e :: es)) (x : List Char × (Range × V))
    (hx : x ∈ entries bufs e.child) (b : List Char × (Range × V))
    (hb : b ∈ entries_edges bufs es) :
    (e.label.content bufs ++ x.1).head? = edge_key bufs e ∧
      ∃ e' ∈ es, b.1.head? = edge_key bufs e' := by
  rw [WF_edges_cons] at hwf
  refine ⟨head?_path bufs e hwf.2.1 x hx, ?_⟩
  rw [mem_entries_edges] at hb
  obtain ⟨e', he', y, hy, hby⟩ := hb
  refine ⟨e', he', ?_⟩
  rw [hby]
  exact head?_path bufs e' ((WF_edges_iff bufs es).mp hwf.2.2 e' he').2 y hy

mutual
theorem walk_node_eq (bufs : Buffers) :
    ∀ n : Node V, WF bufs n → ∀ d : Nat,
      walk_node bufs d n =
        ((entries bufs n).map Prod.snd, lcps d ((entries bufs n).map Prod.fst))
  | Node.mk es lf => by
    intro hwf d
    rw [WF_mk] at hwf
    rw [walk_node_mk, walk_edges_eq bufs es hwf.1 hwf.2 d, entries_mk]
    cases lf with
    | none => simp [join]
    | some l =>
      have h := join_spec d [(([] : List Char), l)] (entries_edges bufs es)
        (fun a ha b _ => by
          rw [List.mem_singleton.mp ha]
          exact cpl_nil_left _)
      simpa [lcps_singleton] using h
theorem walk_edges_eq (bufs : Buffers) :
    ∀ es : List (Edge (Node V)), WF_edges bufs es → Deterministic bufs es → ∀ d : Nat,
      walk_edges bufs d es =
        ((entries_edges bufs es).map Prod.snd, lcps d ((entries_edges bufs es).map Prod.fst))
  | [] => by
    intro _ _ d
    simp [walk_edges_nil, entries_edges_nil, lcps_nil]
  | e :: es => by
    intro hwf hd d
    have hwf' := hwf
    rw [WF_edges_cons] at hwf'
    rw [walk_edges_cons, walk_node_eq bufs e.child hwf'.1,
      walk_edges_eq bufs es hwf'.2.2 (Deterministic_tail bufs e es hd) d, entries_edges_cons]
    have h := join_spec d
      ((entries bufs e.child).map (fun x => (e.label.content bufs ++ x.1, x.2)))
      (entries_edges bufs es)
      (fun a ha b hb => by
        rw [List.mem_map] at ha
        obtain ⟨x, hx, hxa⟩ := ha
        obtain ⟨h1, e', he', h2⟩ := cross_edges bufs e es hwf x hx b hb
        apply cpl_eq_zero_of_head
        rw [← hxa, h1, h2]
        unfold Deterministic at hd
        rw [List.map_cons, List.pairwise_cons] at hd
        exact hd.1 _ (List.mem_map_of_mem _ he'))
    rw [← h]
    congr 2
    · simp [Function.comp_def]
    · rw [List.map_map, Range.size, ← lcps_map_append, List.map_map]
      rfl
end

/-! ### Order of the suffix array -/

theorem SortedKeys_mk (bufs : Buffers) (es : List (Edge (Node V))) (lf : Option (Range × V)) :
    SortedKeys bufs (Node.mk es lf) ↔
      SortedKeys_edges bufs es ∧
        es.Pairwise (fun a b => key_le (edge_key bufs a) (edge_key bufs b) = true) := by
  rw [SortedKeys]

theorem SortedKeys_edges_cons (bufs : Buffers) (e : Edge (Node V))
    (es : List (Edge (Node V))) :
    SortedKeys_edges bufs (e :: es) ↔ SortedKeys bufs e.child ∧ SortedKeys_edges bufs es := by
  rw [SortedKeys_edges]

theorem nil_lex_le (b : List Char) : lex_le [] b := by
  cases b with
  | nil => left; rfl
  | cons c l => right; exact List.Lex.nil

theorem lex_le_append_left (p a b : List Char) (h : lex_le a b) : lex_le (p ++ a) (p ++ b) := by
  rcases h with h | h
  · left; rw [h]
  · right; exact List.Lex.append_left _ h p

theorem lex_le_of_heads (a b : List Char) (h1 : key_le a.head? b.head? = true)
    (h2 : ∀ c, a.head? = some c → b.head? ≠ some c) : lex_le a b := by
  cases a with
  | nil => exact nil_lex_le b
  | cons c l =>
    cases b with
    | nil => simp [key_le] at h1
    | cons c' l' =>
      simp only [List.head?_cons, key_le, decide_eq_true_eq] at h1
      have hne : c ≠ c' := fun h => h2 c rfl (by rw [h]; rfl)
      right
      exact List.Lex.rel (lt_of_le_of_ne h1 hne)

mutual
theorem sorted_entries (bufs : Buffers) :
    ∀ n : Node V, WF bufs n → SortedKeys bufs n →
      ((entries bufs n).map Prod.fst).Pairwise lex_le
  | Node.mk es lf => by
    intro hwf hs
    rw [WF_mk] at hwf
    rw [SortedKeys_mk] at hs
    have ih := sorted_entries_edges bufs es hwf.1 hwf.2 hs.1 hs.2
    rw [entries_mk, List.map_append, List.pairwise_append]
    refine ⟨by cases lf <;> simp, ih, ?_⟩
    intro a ha b _
    cases lf with
    | none => simp at ha
    | some l =>
      simp only [List.map_cons, List.map_nil, List.mem_singleton] at ha
      rw [ha]
      exact nil_lex_le b
theorem sorted_entries_edges (bufs : Buffers) :
    ∀ es : List (Edge (Node V)), WF_edges bufs es → Deterministic bufs es →
      SortedKeys_edges bufs es →
      es.Pairwise (fun a b => key_le (edge_key bufs a) (edge_key bufs b) = true) →
      ((entries_edges bufs es).map Prod.fst).Pairwise lex_le
  | [] => by
    intro _ _ _ _
    simp [entries_edges_nil]
  | e :: es => by
    intro hwf hd hs hp
    have hwf' := hwf
    rw [WF_edges_cons] at hwf'
    rw [SortedKeys_edges_cons] at hs
    rw [List.pairwise_cons] at hp
    have ih1 := sorted_entries bufs e.child hwf'.1 hs.1
    have ih2 := sorted_entries_edges bufs es hwf'.2.2 (Deterministic_tail bufs e es hd) hs.2 hp.2
    rw [entries_edges_cons, List.map_append, List.pairwise_append]
    refine ⟨?_, ih2, ?_⟩
    · rw [List.map_map]
      have : (Prod.fst ∘ fun x : List Char × (Range × V) => (e.label.content bufs ++ x.1, x.2)) =
          (fun p => e.label.content bufs ++ p) ∘ Prod.fst := rfl
      rw [this, ← List.map_map, List.pairwise_map]
      exact ih1.imp (fun h => lex_le_append_left _ _ _ h)
    · intro a ha b hb
      rw [List.mem_map] at ha hb
      obtain ⟨a', ha', rfl⟩ := ha
      obtain ⟨b', hb', rfl⟩ := hb
      rw [List.mem_map] at ha'
      obtain ⟨x, hx, rfl⟩ := ha'
      obtain ⟨h1, e', he', h2⟩ := cross_edges bufs e es hwf x hx b' hb'
      apply lex_le_of_heads
      · rw [h1, h2]; exact hp.1 e' he'
      · rw [h1, h2]
        unfold Deterministic at hd
        rw [List.map_cons, List.pairwise_cons] at hd
        exact hd.1 _ (List.mem_map_of_mem _ he')
end


/-! ### The suffix array of the tree of a sequence of inserts -/

/-- The suffix array and the LCP array of the tree of a sequence of inserts, in terms of
the leaves `E` of the tree with sorted edges. -/
theorem suffix_array_build (ops : List (List Char × V)) :
    ∃ E : List (List Char × (Range × V)),
      E.Perm (all_suffixes ops) ∧
      (E.map Prod.fst).Pairwise lex_le ∧
      get_suffix_array_and_lcp_array (texts ops) (build ops) =
        (E.map Prod.snd, lcps 0 (E.map Prod.fst)) ∧
      E.map Prod.fst = (E.map Prod.snd).map (fun y => y.1.content (texts ops)) ∧
      E = (E.map Prod.snd).map (fun y => (y.1.content (texts ops), y)) := by
  obtain ⟨h1, h2⟩ := WF_sort_node (texts ops) (build ops) (WF_build ops)
  have h3 := (entries_sort_node (texts ops) (build ops)).trans (entries_build ops)
  refine ⟨entries (texts ops) (sort_node (texts ops) (build ops)), h3,
    sorted_entries _ _ h1 h2, walk_node_eq _ _ h1 0, ?_, ?_⟩
  · rw [List.map_map]
    apply List.map_congr_left
    intro x hx
    exact path_eq_content ops x (h3.mem_iff.mp hx)
  · rw [List.map_map]
    nth_rewrite 1 [← List.map_id (entries (texts ops) (sort_node (texts ops) (build ops)))]
    apply List.map_congr_left
    intro x hx
    have := path_eq_content ops x (h3.mem_iff.mp hx)
    simp only [id, Function.comp_apply]
    rw [← this]

theorem length_all_suffixes (ops : List (List Char × V)) :
    (all_suffixes ops).length = (ops.map (fun o => o.1.length)).sum := by
  unfold all_suffixes
  rw [List.length_flatMap]
  have h : ops.enum.map (List.length ∘ fun kv => suffix_entries (texts ops) kv.1 kv.2.2) =
      ops.enum.map (fun kv => kv.2.1.length) := by
    apply List.map_congr_left
    intro kv hkv
    unfold suffix_entries
    rw [Function.comp_apply, List.length_map, List.length_range,
      texts_getD ops kv.1 kv.2.1 kv.2.2 hkv]
  have h2 : ops.enum.map (fun kv => kv.2.1.length) =
      (ops.enum.map Prod.snd).map (fun o => o.1.length) := by
    rw [List.map_map]; rfl
  rw [h, h2, List.enum_map_snd]

theorem nodup_single_text (t : List Char) (v : V) :
    ((all_suffixes [(t, v)]).map Prod.fst).Nodup := by
  have h : (all_suffixes [(t, v)]).map Prod.fst = (List.range t.length).map (fun i => t.drop i) := by
    simp [all_suffixes, suffix_entries, texts, List.enum_cons, Function.comp_def]
  rw [h]
  refine List.Nodup.map_on ?_ (List.nodup_range _)
  intro x hx y hy hxy
  rw [List.mem_range] at hx hy
  have h2 := congrArg List.length hxy
  simp only [List.length_drop] at h2
  omega

theorem nodup_at_most_one_text (ops : List (List Char × V)) (h : ops.length ≤ 1) :
    ((all_suffixes ops).map Prod.fst).Nodup := by
  cases ops with
  | nil => simp [all_suffixes]
  | cons o ops =>
    cases ops with
    | nil => exact nodup_single_text o.1 o.2
    | cons o' ops => simp at h

/-! ### Claims C5 and C7 -/

/-- C5 as stated fails: after inserting `bar` and `foobar` (two of the texts of
`test_simple_multiple`), the suffix array holds the suffix `bar` of both texts, so it
is not strictly sorted by `Range` content. -/
theorem suffix_array_strictly_sorted_counterexample :
    ¬ (get_suffix_array_and_lcp_array (texts [("bar".toList, 2), ("foobar".toList, 3)])
        (build [("bar".toList, 2), ("foobar".toList, 3)])).1.Pairwise
      (fun a b => List.Lex (· < ·)
        (a.1.content (texts [("bar".toList, 2), ("foobar".toList, 3)]))
        (b.1.content (texts [("bar".toList, 2), ("foobar".toList, 3)]))) := by
  decide

/-- C5 (amended): for every tree built by inserts, the suffix array is sorted by `Range`
content lexicographically, entries of equal content (the same suffix of several texts)
being adjacent; `lcp[i]` is the exact length of the longest common prefix of
`suffix_array[i]` and `suffix_array[i+1]`; and the order is strict when at most one text
was inserted. -/
theorem suffix_array_sorted_and_lcp_exact (ops : List (List Char × V)) :
    (get_suffix_array_and_lcp_array (texts ops) (build ops)).1.Pairwise
        (fun a b => a.1.content (texts ops) = b.1.content (texts ops) ∨
          List.Lex (· < ·) (a.1.content (texts ops)) (b.1.content (texts ops))) ∧
      (∀ i a b,
        (get_suffix_array_and_lcp_array (texts ops) (build ops)).1[i]? = some a →
        (get_suffix_array_and_lcp_array (texts ops) (build ops)).1[i + 1]? = some b →
        (get_suffix_array_and_lcp_array (texts ops) (build ops)).2[i]? =
          some (common_prefix_length (a.1.content (texts ops)) (b.1.content (texts ops)))) ∧
      (ops.length ≤ 1 →
        (get_suffix_array_and_lcp_array (texts ops) (build ops)).1.Pairwise
          (fun a b => List.Lex (· < ·) (a.1.content (texts ops)) (b.1.content (texts ops)))) := by
  obtain ⟨E, hperm, hsorted, heq, hpath, _⟩ := suffix_array_build ops
  rw [heq]
  simp only
  rw [hpath, List.pairwise_map] at hsorted
  refine ⟨hsorted, ?_, ?_⟩
  · intro i a b ha hb
    have h := lcps_getElem? 0 (E.map Prod.fst) i (a.1.content (texts ops))
      (b.1.content (texts ops))
      (by rw [hpath, List.getElem?_map, ha]; rfl) (by rw [hpath, List.getElem?_map, hb]; rfl)
    rw [h, Nat.zero_add]
  · intro hlen
    have hnd : ((E.map Prod.snd).map (fun y => y.1.content (texts ops))).Nodup := by
      rw [← hpath]
      exact ((hperm.map Prod.fst).nodup_iff).mpr (nodup_at_most_one_text ops hlen)
    unfold List.Nodup at hnd
    rw [List.pairwise_map] at hnd
    refine List.Pairwise.imp₂ ?_ hsorted hnd
    intro a b h1 h2
    rcases h1 with h1 | h1
    · exact absurd h1 h2
    · exact h1

/-- Witness of C5 (amended): `bananabanana` (test_get_suffix_array): one text, so the
suffix array is strictly sorted, and the LCP array is `[1,1,3,3,5,0,6,0,2,2,4]`. -/
theorem suffix_array_sorted_and_lcp_exact_witness :
    [("bananabanana".toList, 0)].length ≤ 1 ∧
      (get_suffix_array_and_lcp_array (texts [("bananabanana".toList, 0)])
        (build [("bananabanana".toList, 0)])).1.Pairwise
          (fun a b => List.Lex (· < ·) (a.1.content (texts [("bananabanana".toList, 0)]))
            (b.1.content (texts [("bananabanana".toList, 0)]))) ∧
      (get_suffix_array_and_lcp_array (texts [("bananabanana".toList, 0)])
        (build [("bananabanana".toList, 0)])).2 = [1, 1, 3, 3, 5, 0, 6, 0, 2, 2, 4] :=
  ⟨by decide,
    (suffix_array_sorted_and_lcp_exact [("bananabanana".toList, 0)]).2.2 (by decide),
    by decide⟩

/-- C7 as stated fails for the empty tree: both arrays are empty, so the size of the LCP
array, 0, is not the size of the suffix array minus 1. -/
theorem lcp_array_size_counterexample :
    ¬ (((get_suffix_array_and_lcp_array (texts ([] : List (List Char × Nat)))
          (build ([] : List (List Char × Nat)))).2.length : Int) =
        ((get_suffix_array_and_lcp_array (texts ([] : List (List Char × Nat)))
          (build ([] : List (List Char × Nat)))).1.length : Int) - 1) := by
  decide

/-- C7 (amended): for every tree built by inserts, the size of the suffix array is the
number of leaves, which is the sum of the lengths of the inserted texts; the size of the
LCP array is the size of the suffix array minus 1 when the suffix array is not empty,
and the LCP array is empty when the suffix array is empty. -/
theorem suffix_array_and_lcp_array_sizes (ops : List (List Char × V)) :
    (get_suffix_array_and_lcp_array (texts ops) (build ops)).1.length =
        (entries (texts ops) (build ops)).length ∧
      (get_suffix_array_and_lcp_array (texts ops) (build ops)).1.length =
        (ops.map (fun o => o.1.length)).sum ∧
      ((get_suffix_array_and_lcp_array (texts ops) (build ops)).1 ≠ [] →
        (get_suffix_array_and_lcp_array (texts ops) (build ops)).2.length + 1 =
          (get_suffix_array_and_lcp_array (texts ops) (build ops)).1.length) ∧
      ((get_suffix_array_and_lcp_array (texts ops) (build ops)).1 = [] →
        (get_suffix_array_and_lcp_array (texts ops) (build ops)).2 = []) := by
  obtain ⟨E, hperm, _, heq, _, _⟩ := suffix_array_build ops
  rw [heq]
  simp only [List.length_map, lcps_length]
  refine ⟨?_, ?_, ?_, ?_⟩
  · rw [hperm.length_eq, (entries_build ops).length_eq]
  · rw [hperm.length_eq, length_all_suffixes]
  · intro h
    have : E.length ≠ 0 := by
      intro h0
      exact h (by rw [List.length_eq_zero.mp h0]; rfl)
    omega
  · intro h
    rw [List.map_eq_nil_iff] at h
    rw [h]
    simp [lcps_nil]

/-- Witness of C7 (amended): `bananabanana` gives 12 suffix-array entries and 11 LCP
values (test_get_suffix_array). -/
theorem suffix_array_and_lcp_array_sizes_witness :
    (get_suffix_array_and_lcp_array (texts [("bananabanana".toList, 0)])
        (build [("bananabanana".toList, 0)])).1 ≠ [] ∧
      (get_suffix_array_and_lcp_array (texts [("bananabanana".toList, 0)])
        (build [("bananabanana".toList, 0)])).2.length + 1 =
      (get_suffix_array_and_lcp_array (texts [("bananabanana".toList, 0)])
        (build [("bananabanana".toList, 0)])).1.length ∧
      (get_suffix_array_and_lcp_array (texts [("bananabanana".toList, 0)])
        (build [("bananabanana".toList, 0)])).1.length = 12 :=
  ⟨by decide,
    (suffix_array_and_lcp_array_sizes [("bananabanana".toList, 0)]).2.2.1 (by decide),
    by decide⟩


/-! ### Reconstruction from the suffix array and the LCP array -/

theorem close_nil (top : Open V) : close top [] = Node.mk top.edges none := by
  rw [close]

theorem close_cons (top parent : Open V) (rest : List (Open V)) :
    close top (parent :: rest) = close (attach_open top parent) rest := by
  rw [close]

theorem pop_to_nil (l : Nat) (top : Open V) : pop_to l top [] = [top] := by
  rw [pop_to]

theorem pop_to_cons (l : Nat) (top parent : Open V) (rest : List (Open V)) :
    pop_to l top (parent :: rest) =
      if l < top.depth then pop_to l (attach_open top parent) rest
      else top :: parent :: rest := by
  rw [pop_to]

theorem entries_close (bufs : Buffers) :
    ∀ (rest : List (Open V)) (top : Open V),
      entries bufs (close top rest) = up bufs rest top.label (entries_edges bufs top.edges) := by
  intro rest
  induction rest with
  | nil => intro top; simp [close_nil, up, entries_mk]
  | cons parent rest ih =>
    intro top
    rw [close_cons, ih]
    simp [up, attach_open, entries_edges_append, entries_edges_cons, entries_edges_nil,
      entries_mk]

theorem up_append (bufs : Buffers) :
    ∀ (rest : List (Open V)) (lab : Range) (C D : List (List Char × (Range × V))),
      up bufs rest lab (C ++ D) =
        up bufs rest lab C ++ D.map (fun x => (path_above bufs rest lab ++ x.1, x.2)) := by
  intro rest
  induction rest with
  | nil => intro lab C D; simp [up, path_above]
  | cons parent rest ih =>
    intro lab C D
    simp only [up, path_above, List.map_append, ← List.append_assoc]
    rw [ih]
    simp [Function.comp_def]

theorem Below_nil (bufs : Buffers) (q : List Char) (child : Open V) :
    Below bufs q child [] ↔ child.depth = 0 := by
  rw [Below]

theorem Below_cons (bufs : Buffers) (q : List Char) (child parent : Open V)
    (rest : List (Open V)) :
    Below bufs q child (parent :: rest) ↔
      parent.depth < child.depth ∧ child.depth ≤ q.length ∧
        child.label.content bufs = (q.drop parent.depth).take (child.depth - parent.depth) ∧
        FrameOK bufs (q.drop parent.depth).head? parent ∧ Below bufs q parent rest := by
  rw [Below]

/-- The labels of the stack spell the path of the last suffix up to the depth of the
top. -/
theorem path_above_eq (bufs : Buffers) (q : List Char) :
    ∀ (rest : List (Open V)) (top : Open V), Below bufs q top rest →
      path_above bufs rest top.label = q.take top.depth := by
  intro rest
  induction rest with
  | nil =>
    intro top h
    rw [Below_nil] at h
    simp [path_above, h]
  | cons parent rest ih =>
    intro top h
    rw [Below_cons] at h
    obtain ⟨h1, _, h3, _, h5⟩ := h
    rw [path_above, ih parent h5, h3]
    have h6 := List.take_add q parent.depth (top.depth - parent.depth)
    rw [← h6]
    congr 1
    omega

theorem key_le_refl (a : Option Char) : key_le a a = true := by
  cases a with
  | none => rfl
  | some c => simp [key_le]

theorem lex_le_cons_cons (a b : Char) (q p : List Char) (h : lex_le (a :: q) (b :: p)) :
    a < b ∨ (a = b ∧ lex_le q p) := by
  rcases h with h | h
  · injection h with h1 h2
    exact Or.inr ⟨h1, Or.inl h2⟩
  · cases h with
    | cons h' => exact Or.inr ⟨rfl, Or.inr h'⟩
    | rel h' => exact Or.inl h'

/-- Where two ascending character sequences part, the first continues with the smaller
character, or ends. -/
theorem key_le_at_cpl (q p : List Char) (h : lex_le q p) :
    key_le (q.drop (common_prefix_length q p)).head? (p.drop (common_prefix_length q p)).head?
      = true := by
  induction q generalizing p with
  | nil => simp [cpl_nil_left, key_le]
  | cons a q ih =>
    cases p with
    | nil =>
      rcases h with h | h
      · cases h
      · cases h
    | cons b p =>
      rw [cpl_cons]
      rcases lex_le_cons_cons a b q p h with h1 | ⟨h1, h2⟩
      · have hne : a ≠ b := ne_of_lt h1
        rw [if_neg hne]
        simp only [List.drop_zero, List.head?_cons, key_le, decide_eq_true_eq]
        exact le_of_lt h1
      · rw [if_pos h1]
        simp only [List.drop_succ_cons]
        exact ih p h2

theorem drop_take_of_take_eq (q p : List Char) (l a n : Nat) (h : q.take l = p.take l)
    (han : a + n ≤ l) : (q.drop a).take n = (p.drop a).take n := by
  have h1 : ∀ s : List Char, (s.drop a).take n = ((s.take l).drop a).take n := by
    intro s
    rw [List.drop_take, List.take_take]
    congr 1
    omega
  rw [h1 q, h1 p, h]

theorem head?_drop_of_take_eq (q p : List Char) (l a : Nat) (h : q.take l = p.take l)
    (hal : a < l) : (q.drop a).head? = (p.drop a).head? := by
  have h1 := drop_take_of_take_eq q p l a 1 h (by omega)
  have h2 : ∀ s : List Char, s.head? = (s.take 1).head? := by
    intro s
    cases s <;> simp
  rw [h2 (q.drop a), h2 (p.drop a), h1]

theorem Below_congr (bufs : Buffers) (q : List Char) (c c' : Open V) (rest : List (Open V))
    (hd : c'.depth = c.depth) (hl : c'.label = c.label) (h : Below bufs q c rest) :
    Below bufs q c' rest := by
  cases rest with
  | nil => rw [Below_nil] at h ⊢; rw [hd]; exact h
  | cons parent rest => rw [Below_cons] at h ⊢; rw [hd, hl]; exact h

theorem Below_transfer (bufs : Buffers) (q p : List Char) (l : Nat)
    (h : q.take l = p.take l) (hp : l ≤ p.length) :
    ∀ (rest : List (Open V)) (top : Open V), top.depth ≤ l → Below bufs q top rest →
      Below bufs p top rest := by
  intro rest
  induction rest with
  | nil => intro top _ hb; rw [Below_nil] at hb ⊢; exact hb
  | cons parent rest ih =>
    intro top hl hb
    rw [Below_cons] at hb ⊢
    obtain ⟨h1, _, h3, h4, h5⟩ := hb
    refine ⟨h1, by omega, ?_, ?_, ih parent (by omega) h5⟩
    · rw [h3]
      exact drop_take_of_take_eq q p l _ _ h (by omega)
    · rw [← head?_drop_of_take_eq q p l _ h (by omega)]
      exact h4

theorem label_length (bufs : Buffers) (q : List Char) (top parent : Open V)
    (rest : List (Open V)) (hb : Below bufs q top (parent :: rest)) :
    (top.label.content bufs).length = top.depth - parent.depth := by
  rw [Below_cons] at hb
  obtain ⟨h1, h2, h3, _, _⟩ := hb
  rw [h3, List.length_take, List.length_drop]
  omega

theorem label_key (bufs : Buffers) (q : List Char) (top parent : Open V)
    (rest : List (Open V)) (hb : Below bufs q top (parent :: rest)) :
    (top.label.content bufs).head? = (q.drop parent.depth).head? := by
  rw [Below_cons] at hb
  obtain ⟨h1, h2, h3, _, _⟩ := hb
  rw [h3]
  exact head?_take_of_pos _ _ (by omega)

theorem Deterministic_append_single (bufs : Buffers) (es : List (Edge (Node V)))
    (e : Edge (Node V)) (hd : Deterministic bufs es)
    (h : ∀ x ∈ es, ∀ c, edge_key bufs x = some c → edge_key bufs e ≠ some c) :
    Deterministic bufs (es ++ [e]) := by
  unfold Deterministic at hd ⊢
  rw [List.map_append, List.pairwise_append]
  refine ⟨hd, by simp, ?_⟩
  intro a ha b hb c hac
  rw [List.mem_map] at ha
  obtain ⟨x, hx, hxa⟩ := ha
  simp only [List.map_cons, List.map_nil, List.mem_singleton] at hb
  rw [hb]
  exact h x hx c (hxa.trans hac)

/-- Popping the top and attaching it to its parent keeps the stack consistent. -/
theorem pop_step (bufs : Buffers) (q : List Char) (nxt : Option Char) (top parent : Open V)
    (rest : List (Open V)) (ht : TopBasic bufs nxt top)
    (hb : Below bufs q top (parent :: rest)) :
    TopBasic bufs (q.drop parent.depth).head? (attach_open top parent) ∧
      Below bufs q (attach_open top parent) rest := by
  have hlen := label_length bufs q top parent rest hb
  have hkey := label_key bufs q top parent rest hb
  rw [Below_cons] at hb
  obtain ⟨h1, h2, h3, ⟨⟨h4, h5, h6⟩, h7⟩, h8⟩ := hb
  obtain ⟨t1, t2, _⟩ := ht
  refine ⟨⟨?_, ?_, ?_⟩, Below_congr bufs q parent _ rest rfl rfl h8⟩
  · simp only [attach_open, WF_edges_append, WF_edges_cons, WF_edges_nil, WF_mk, and_true]
    refine ⟨h4, ⟨t1, t2⟩, ?_⟩
    intro h0
    rw [h0] at hlen
    simp at hlen
    omega
  · apply Deterministic_append_single bufs _ _ h5
    intro x hx c hc
    simp only [edge_key]
    rw [hkey]
    exact h7 x hx c hc
  · intro e he
    simp only [attach_open, List.mem_append, List.mem_singleton] at he
    rcases he with he | he
    · exact h6 e he
    · rw [he]
      simp only [edge_key]
      rw [hkey]
      exact key_le_refl _

theorem pop_to_spec (bufs : Buffers) (q : List Char) (l : Nat) :
    ∀ (rest : List (Open V)) (top : Open V),
      TopBasic bufs (q.drop top.depth).head? top → Below bufs q top rest →
      SplitCond bufs l q top →
      ∃ top' rest', pop_to l top rest = top' :: rest' ∧ close top' rest' = close top rest ∧
        TopBasic bufs (q.drop top'.depth).head? top' ∧ Below bufs q top' rest' ∧
        top'.depth ≤ l ∧ SplitCond bufs l q top' := by
  intro rest
  induction rest with
  | nil =>
    intro top ht hb hs
    rw [Below_nil] at hb
    exact ⟨top, [], pop_to_nil l top, rfl, ht, (Below_nil bufs q top).mpr hb, by omega, hs⟩
  | cons parent rest ih =>
    intro top ht hb hs
    rw [pop_to_cons]
    by_cases hl : l < top.depth
    · rw [if_pos hl]
      obtain ⟨h1, h2⟩ := pop_step bufs q _ top parent rest ht hb
      have hlen := label_length bufs q top parent rest hb
      have hb' := hb
      rw [Below_cons] at hb'
      obtain ⟨b1, b2, b3, _, _⟩ := hb'
      have hs' : SplitCond bufs l q (attach_open top parent) := by
        intro _
        refine ⟨parent.edges, { label := top.label, child := Node.mk top.edges none }, rfl, ?_, ?_, ?_⟩
        · simp only [attach_open]; omega
        · simp only [attach_open]
          rw [b3]
          exact List.take_prefix _ _
        · simp only [attach_open]
          intro h0
          omega
      obtain ⟨top', rest', e1, e2, e3, e4, e5, e6⟩ := ih (attach_open top parent) h1 h2 hs'
      exact ⟨top', rest', e1, by rw [e2, close_cons], e3, e4, e5, e6⟩
    · rw [if_neg hl]
      exact ⟨top, parent :: rest, rfl, rfl, ht, hb, by omega, hs⟩


theorem Deterministic_singleton (bufs : Buffers) (e : Edge (Node V)) :
    Deterministic bufs [e] := by
  simp [Deterministic]

theorem Deterministic_init (bufs : Buffers) (init : List (Edge (Node V))) (e : Edge (Node V))
    (hd : Deterministic bufs (init ++ [e])) :
    Deterministic bufs init ∧
      ∀ x ∈ init, ∀ c, edge_key bufs x = some c → edge_key bufs e ≠ some c := by
  unfold Deterministic at hd ⊢
  rw [List.map_append, List.pairwise_append] at hd
  refine ⟨hd.1, ?_⟩
  intro x hx c hc
  exact hd.2.2 _ (List.mem_map_of_mem _ hx) _ (by simp) c hc

theorem split_top_cons (l : Nat) (top : Open V) (rest : List (Open V)) :
    split_top l (top :: rest) =
      if top.depth < l then
        match top.edges.getLast? with
        | none => top :: rest
        | some e =>
          { depth := l, label := e.label.first (l - top.depth),
            edges := [{ label := e.label.after (l - top.depth), child := e.child }] } ::
          { top with edges := top.edges.dropLast } :: rest
      else top :: rest := rfl

theorem prefix_eq_take (a b : List Char) (h : a <+: b) : a = b.take a.length := by
  obtain ⟨t, rfl⟩ := h
  simp

theorem split_spec (bufs : Buffers) (q : List Char) (l : Nat) (top : Open V)
    (rest : List (Open V)) (ht : TopBasic bufs (q.drop top.depth).head? top)
    (hb : Below bufs q top rest) (hl : top.depth ≤ l) (hq : l ≤ q.length)
    (hs : SplitCond bufs l q top) :
    ∃ top' rest', split_top l (top :: rest) = top' :: rest' ∧
      entries bufs (close top' rest') = entries bufs (close top rest) ∧
      TopBasic bufs (q.drop l).head? top' ∧ Below bufs q top' rest' ∧ top'.depth = l := by
  rw [split_top_cons]
  by_cases hlt : top.depth < l
  · rw [if_pos hlt]
    obtain ⟨init, e, he, h1, h2, h3⟩ := hs hlt
    obtain ⟨t1, t2, t3⟩ := ht
    rw [he] at t1 t2 t3
    rw [he, List.getLast?_concat, List.dropLast_concat]
    have hk1 : 1 ≤ l - top.depth := by omega
    have hk2 : l - top.depth ≤ (e.label.content bufs).length := by omega
    have hlab := prefix_eq_take _ _ h2
    have hkey : edge_key bufs e = (q.drop top.depth).head? := by
      unfold edge_key
      rw [hlab]
      exact head?_take_of_pos _ _ (by omega)
    rw [WF_edges_append, WF_edges_cons] at t1
    obtain ⟨hd1, hd2⟩ := Deterministic_init bufs init e t2
    refine ⟨_, _, rfl, ?_, ⟨?_, Deterministic_singleton bufs _, ?_⟩, ?_, rfl⟩
    · rw [entries_close, entries_close]
      simp only [up, he, entries_edges_append, entries_edges_cons, entries_edges_nil,
        List.append_nil, List.map_map, Function.comp_def, Range.content_after,
        Range.content_first _ _ _ hk2, ← List.append_assoc, List.take_append_drop]
    · simp only [WF_edges_cons, WF_edges_nil, and_true]
      refine ⟨t1.2.1, ?_⟩
      intro h0
      rw [Range.content_after, List.drop_eq_nil_iff] at h0
      exact h3 (by omega)
    · intro x hx
      simp only [List.mem_singleton] at hx
      rw [hx]
      simp only [edge_key, Range.content_after]
      rw [hlab, List.drop_take, List.drop_drop]
      have hd : top.depth + (l - top.depth) = l := by omega
      rw [hd]
      by_cases h0 : (e.label.content bufs).length - (l - top.depth) = 0
      · rw [h0]; simp [key_le]
      · rw [head?_take_of_pos _ _ (by omega)]
        exact key_le_refl _
    · rw [Below_cons]
      refine ⟨hlt, hq, ?_, ⟨⟨t1.1, hd1, ?_⟩, ?_⟩, Below_congr bufs q top _ rest rfl rfl hb⟩
      · simp only
        rw [Range.content_first _ _ _ hk2]
        nth_rewrite 1 [hlab]
        rw [List.take_take]
        congr 1
        omega
      · intro x hx
        exact t3 x (List.mem_append_left _ hx)
      · intro x hx c hc
        simp only
        rw [← hkey]
        exact hd2 x hx c hc
  · rw [if_neg hlt]
    have : top.depth = l := by omega
    refine ⟨top, rest, rfl, rfl, ?_, hb, this⟩
    rw [← this]
    exact ht

theorem attach_spec (bufs : Buffers) (q p : List Char) (l : Nat) (entry : Range × V)
    (top : Open V) (rest : List (Open V)) (ht : TopBasic bufs (q.drop l).head? top)
    (hb : Below bufs q top rest) (hd : top.depth = l)
    (hl : l = common_prefix_length q p) (hle : lex_le q p)
    (hp : entry.1.content bufs = p) :
    ∃ top', attach_leaf l entry (top :: rest) = top' :: rest ∧ Inv bufs p top' rest ∧
      entries bufs (close top' rest) = entries bufs (close top rest) ++ [(p, entry)] := by
  obtain ⟨t1, t2, t3⟩ := ht
  have hlp : l ≤ p.length := by rw [hl]; exact cpl_le_right q p
  have htake : q.take l = p.take l := by rw [hl]; exact take_cpl q p
  have hnew : edge_key bufs ({ label := entry.1.after l, child := Node.mk [] (some entry) } :
      Edge (Node V)) = (p.drop l).head? := by
    simp only [edge_key, Range.content_after, hp]
  have hqp : key_le (q.drop l).head? (p.drop l).head? = true := by
    rw [hl]; exact key_le_at_cpl q p hle
  refine ⟨{ top with edges := top.edges ++
    [{ label := entry.1.after l, child := Node.mk [] (some entry) }] }, rfl, ⟨⟨?_, ?_, ?_⟩, ?_, ?_⟩, ?_⟩
  · simp only [WF_edges_append, WF_edges_cons, WF_edges_nil, and_true]
    exact ⟨t1, WF_leaf_node bufs entry, fun _ => rfl⟩
  · apply Deterministic_append_single bufs _ _ t2
    intro x hx c hc
    rw [hnew]
    intro hpc
    have h1 := t3 x hx
    rw [hc] at h1
    cases hq : (q.drop l).head? with
    | none => rw [hq] at h1; simp [key_le] at h1
    | some c' =>
      rw [hq] at h1
      rw [hq, hpc] at hqp
      simp only [key_le, decide_eq_true_eq] at h1 hqp
      have hcc : c' = c := le_antisymm hqp h1
      have h2 := cpl_head_ne q p c' (by rw [← hl]; exact hq)
      rw [← hl, hpc, hcc] at h2
      exact h2 rfl
  · intro x hx
    simp only [List.mem_append, List.mem_singleton] at hx
    simp only [hd]
    rcases hx with hx | hx
    · exact key_le_trans _ _ _ (t3 x hx) hqp
    · rw [hx, hnew]; exact key_le_refl _
  · exact Below_congr bufs p top _ rest rfl rfl
      (Below_transfer bufs q p l htake hlp rest top (by omega) hb)
  · intro l' hl' _
    refine ⟨top.edges, _, rfl, ?_, ?_, fun _ => rfl⟩
    · simp only [Range.content_after, hp, List.length_drop, hd]
      omega
    · simp only [Range.content_after, hp, hd]
      exact List.prefix_refl _
  · rw [entries_close, entries_close]
    simp only [entries_edges_append, entries_edges_cons, entries_edges_nil, entries_leaf_node,
      List.map_cons, List.map_nil, List.append_nil, up_append, Range.content_after, hp]
    rw [path_above_eq bufs q rest top hb, hd, htake, List.take_append_drop]

theorem reconstruct_step_spec (bufs : Buffers) (q p : List Char) (l : Nat) (entry : Range × V)
    (top : Open V) (rest : List (Open V)) (hinv : Inv bufs q top rest)
    (hl : l = common_prefix_length q p) (hle : lex_le q p)
    (hp : entry.1.content bufs = p) :
    ∃ top' rest', reconstruct_step (top :: rest) (entry, l) = top' :: rest' ∧
      Inv bufs p top' rest' ∧
      entries bufs (close top' rest') = entries bufs (close top rest) ++ [(p, entry)] := by
  obtain ⟨i1, i2, i3⟩ := hinv
  have hlq : l ≤ q.length := by rw [hl]; exact cpl_le_left q p
  obtain ⟨t1, r1, e1, e2, e3, e4, e5, e6⟩ := pop_to_spec bufs q l rest top i1 i2 (i3 l hlq)
  obtain ⟨t2, r2, f1, f2, f3, f4, f5⟩ := split_spec bufs q l t1 r1 e3 e4 e5 hlq e6
  obtain ⟨t3, g1, g2, g3⟩ := attach_spec bufs q p l entry t2 r2 f3 f4 f5 hl hle hp
  refine ⟨t3, r2, ?_, g2, ?_⟩
  · simp only [reconstruct_step]
    rw [e1, f1, g1]
  · rw [g3, f2, e2]

theorem foldl_reconstruct_step (bufs : Buffers) :
    ∀ (items : List ((Range × V) × Nat)) (q : List Char) (top : Open V) (rest : List (Open V)),
      Inv bufs q top rest → Valid bufs q items →
      ∃ q' top' rest', items.foldl reconstruct_step (top :: rest) = top' :: rest' ∧
        Inv bufs q' top' rest' ∧
        entries bufs (close top' rest') =
          entries bufs (close top rest) ++ items.map (fun it => (it.1.1.content bufs, it.1)) := by
  intro items
  induction items with
  | nil => intro q top rest hinv _; exact ⟨q, top, rest, rfl, hinv, by simp⟩
  | cons item items ih =>
    intro q top rest hinv hv
    rw [Valid] at hv
    obtain ⟨h1, h2, h3⟩ := hv
    obtain ⟨t1, r1, e1, e2, e3⟩ := reconstruct_step_spec bufs q (item.1.1.content bufs) item.2
      item.1 top rest hinv h1 h2 rfl
    obtain ⟨q', t2, r2, f1, f2, f3⟩ := ih _ t1 r1 e2 h3
    refine ⟨q', t2, r2, ?_, f2, ?_⟩
    · rw [List.foldl_cons]
      have : (item.1, item.2) = item := rfl
      rw [this] at e1
      rw [e1, f1]
    · rw [f3, e3]
      simp

theorem WF_close (bufs : Buffers) (q : List Char) :
    ∀ (rest : List (Open V)) (top : Open V) (nxt : Option Char),
      TopBasic bufs nxt top → Below bufs q top rest → WF bufs (close top rest) := by
  intro rest
  induction rest with
  | nil =>
    intro top nxt ht _
    rw [close_nil, WF_mk]
    exact ⟨ht.1, ht.2.1⟩
  | cons parent rest ih =>
    intro top nxt ht hb
    rw [close_cons]
    obtain ⟨h1, h2⟩ := pop_step bufs q nxt top parent rest ht hb
    exact ih _ _ h1 h2

theorem valid_zip (bufs : Buffers) :
    ∀ (sa : List (Range × V)) (q : List Char),
      (q :: sa.map (fun x => x.1.content bufs)).Pairwise lex_le →
      Valid bufs q (sa.zip (lcps 0 (q :: sa.map (fun x => x.1.content bufs)))) := by
  intro sa
  induction sa with
  | nil => intro q _; simp [Valid]
  | cons x sa ih =>
    intro q hp
    rw [List.map_cons, lcps_cons_cons, List.zip_cons_cons, Valid]
    rw [List.pairwise_cons] at hp
    refine ⟨by simp, hp.1 _ (by simp), ih _ ?_⟩
    exact hp.2

theorem zip_zero_lcps (bufs : Buffers) (sa : List (Range × V)) :
    sa.zip (0 :: lcps 0 (sa.map (fun x => x.1.content bufs))) =
      sa.zip (lcps 0 ([] :: sa.map (fun x => x.1.content bufs))) := by
  cases sa with
  | nil => simp
  | cons x sa => rw [List.map_cons, lcps_cons_cons, cpl_nil_left]

/-- The tree reconstructed from a suffix array that ascends by content, with its exact
LCP array, is well-formed, and its leaves are the entries of the suffix array, each at
the end of the path that spells its content. -/
theorem reconstruct_spec (bufs : Buffers) (sa : List (Range × V))
    (hs : (sa.map (fun x => x.1.content bufs)).Pairwise lex_le) :
    WF bufs (reconstruct sa (lcps 0 (sa.map (fun x => x.1.content bufs)))) ∧
      entries bufs (reconstruct sa (lcps 0 (sa.map (fun x => x.1.content bufs)))) =
        sa.map (fun x => (x.1.content bufs, x)) := by
  have hinv : Inv bufs [] (open_root : Open V) [] := by
    refine ⟨⟨?_, ?_, ?_⟩, ?_, ?_⟩
    · simp [open_root, WF_edges_nil]
    · simp [open_root, Deterministic]
    · simp [open_root]
    · rw [Below_nil]; rfl
    · intro l hl hlt
      simp [open_root] at hl hlt
      omega
  have hv := valid_zip bufs sa []
    (List.pairwise_cons.mpr ⟨fun a _ => nil_lex_le a, hs⟩)
  obtain ⟨q', top, rest, h1, h2, h3⟩ :=
    foldl_reconstruct_step bufs _ [] open_root [] hinv hv
  unfold reconstruct
  rw [zip_zero_lcps, h1]
  simp only
  refine ⟨WF_close bufs q' rest top _ h2.1 h2.2.1, ?_⟩
  rw [h3, close_nil, entries_mk]
  simp only [open_root, entries_edges_nil, List.append_nil, List.nil_append, List.map_map]
  have hlen : sa.length ≤ (lcps 0 ([] :: sa.map (fun x => x.1.content bufs))).length := by
    rw [lcps_length]; simp
  generalize lcps 0 ([] :: sa.map (fun x => x.1.content bufs)) = L at hlen
  clear h1 h3 hv hs
  induction sa generalizing L with
  | nil => simp
  | cons x sa ih =>
    cases L with
    | nil => simp at hlen
    | cons y L =>
      simp only [List.zip_cons_cons, List.map_cons, Function.comp_apply]
      simp only [List.length_cons, Nat.add_le_add_iff_right] at hlen
      rw [ih L hlen]


/-! ### Claim C6 -/

/-- The tree rebuilt from the suffix array and the LCP array of the tree of a sequence
of inserts is well-formed and has the leaves of that tree, on the same paths. -/
theorem roundtrip_tree (ops : List (List Char × V)) :
    WF (texts ops) (reconstruct
        (get_suffix_array_and_lcp_array (texts ops) (build ops)).1
        (get_suffix_array_and_lcp_array (texts ops) (build ops)).2) ∧
      (entries (texts ops) (reconstruct
        (get_suffix_array_and_lcp_array (texts ops) (build ops)).1
        (get_suffix_array_and_lcp_array (texts ops) (build ops)).2)).Perm
        (entries (texts ops) (build ops)) := by
  obtain ⟨E, hperm, hsorted, heq, hpath, hE⟩ := suffix_array_build ops
  rw [heq]
  simp only
  rw [hpath] at hsorted ⊢
  obtain ⟨h1, h2⟩ := reconstruct_spec (texts ops) (E.map Prod.snd) hsorted
  refine ⟨h1, ?_⟩
  rw [h2, ← hE]
  exact hperm.trans (entries_build ops).symm

/-- C6 (round trip): for the tree `T` of any sequence of inserts and the tree `T2`
rebuilt from `T.get_suffix_array_and_lcp_array()`, for every pattern `find` yields the
same value set on `T` and on `T2`, and `find_with_positions` the same entries. -/
theorem roundtrip_find [DecidableEq V] (ops : List (List Char × V)) (p : List Char) :
    (∃ S, find (texts ops) (build ops) p = some S ∧
      find (texts ops) (reconstruct
        (get_suffix_array_and_lcp_array (texts ops) (build ops)).1
        (get_suffix_array_and_lcp_array (texts ops) (build ops)).2) p = some S) ∧
    (∃ r1 r2, find_with_positions (texts ops) (build ops) p = some r1 ∧
      find_with_positions (texts ops) (reconstruct
        (get_suffix_array_and_lcp_array (texts ops) (build ops)).1
        (get_suffix_array_and_lcp_array (texts ops) (build ops)).2) p = some r2 ∧
      r1.Perm r2) := by
  obtain ⟨hwf, hperm⟩ := roundtrip_tree ops
  obtain ⟨r1, h1, h2⟩ := find_with_positions_spec (texts ops) (build ops) (WF_build ops) p
  obtain ⟨r2, h3, h4⟩ := find_with_positions_spec (texts ops) _ hwf p
  have h5 : r1.Perm r2 := h2.trans ((matching_perm p hperm).symm.trans h4.symm)
  refine ⟨⟨(r1.map Prod.snd).toFinset, by simp [find, h1], ?_⟩, r1, r2, h1, h3, h5⟩
  simp only [find, h3, Option.map_some', Option.some.injEq]
  exact List.toFinset_eq_of_perm _ _ (h5.map _).symm

/-! ### The assertions of tests/test_suffix_tree.cc on the model -/

theorem find_of_find_with_positions [DecidableEq V] (bufs : Buffers) (root : Node V)
    (p : List Char) (res : List (Range × V))
    (h : find_with_positions bufs root p = some res) :
    find bufs root p = some (res.map Prod.snd).toFinset := by
  simp [find, h]

/-- Scenario 1 (test_simple_single, test_simple_single_construction): on the tree of
`xyzxyaxyz`, `find("bob") == {}`, `find("an") == {}` and `find("zx") == {0}`. -/
theorem test_simple_single :
    find (texts [("xyzxyaxyz".toList, 0)]) (build [("xyzxyaxyz".toList, 0)]) "bob".toList
      = some ∅ ∧
    find (texts [("xyzxyaxyz".toList, 0)]) (build [("xyzxyaxyz".toList, 0)]) "an".toList
      = some ∅ ∧
    find (texts [("xyzxyaxyz".toList, 0)]) (build [("xyzxyaxyz".toList, 0)]) "zx".toList
      = some {0} := by
  decide

/-- Scenario 2 (test_simple_multiple): `find("an") == {0, 1}` and `find("bar") == {2, 3}`. -/
theorem test_simple_multiple :
    find (texts banana_ops) (build banana_ops) "an".toList = some {0, 1} ∧
    find (texts banana_ops) (build banana_ops) "bar".toList = some {2, 3} := by
  have h1 : find_with_positions (texts banana_ops) (build banana_ops) "an".toList =
      some [(suffix_range 1 1 7, 1), (suffix_range 1 4 7, 1), (suffix_range 0 3 6, 0),
        (suffix_range 0 1 6, 0)] := by decide
  have h2 : find_with_positions (texts banana_ops) (build banana_ops) "bar".toList =
      some [(suffix_range 3 3 6, 3), (suffix_range 2 0 3, 2)] := by decide
  have e1 : ([1, 1, 0, 0] : List Nat).toFinset = ({0, 1} : Finset Nat) := by decide
  have e2 : ([3, 2] : List Nat).toFinset = ({2, 3} : Finset Nat) := by decide
  exact ⟨(find_of_find_with_positions _ _ _ _ h1).trans (congrArg some e1),
    (find_of_find_with_positions _ _ _ _ h2).trans (congrArg some e2)⟩

/-- Scenario 3 (test_simple_multiple_with_positions): `find_with_positions("an")` has the
4 entries at offsets 1 and 3 of `banana` and 1 and 4 of `bandana`, and
`find_with_positions("bar")` the 2 entries at offset 0 of `bar` and 3 of `foobar`; the
order is unspecified. -/
theorem test_simple_multiple_with_positions :
    (∃ res, find_with_positions (texts banana_ops) (build banana_ops) "an".toList = some res ∧
      res.Perm [(suffix_range 1 1 7, 1), (suffix_range 0 3 6, 0), (suffix_range 1 4 7, 1),
        (suffix_range 0 1 6, 0)]) ∧
    (∃ res, find_with_positions (texts banana_ops) (build banana_ops) "bar".toList = some res ∧
      res.Perm [(suffix_range 2 0 3, 2), (suffix_range 3 3 6, 3)]) :=
  ⟨⟨[(suffix_range 1 1 7, 1), (suffix_range 1 4 7, 1), (suffix_range 0 3 6, 0),
      (suffix_range 0 1 6, 0)], by decide, by decide⟩,
    ⟨[(suffix_range 3 3 6, 3), (suffix_range 2 0 3, 2)], by decide, by decide⟩⟩

/-- The assertion of test_simple_single_construction on `find_with_positions("xy")`: the 3
entries at offsets 3, 6 and 0 of `xyzxyaxyz`. -/
theorem test_simple_single_construction :
    find_with_positions (texts [("xyzxyaxyz".toList, 0)]) (build [("xyzxyaxyz".toList, 0)])
      "xy".toList =
      some [(suffix_range 0 3 9, 0), (suffix_range 0 6 9, 0), (suffix_range 0 0 9, 0)] := by
  decide

/-! ### The paths of the tree and the empty text -/

/-- C13: `insert` of an empty text (the buffer passed holds no character) returns the tree
unchanged, so `find`, `exists`, `find_with_positions` and
`get_suffix_array_and_lcp_array` answer every argument as before the call. -/
theorem insert_empty_text_is_noop [DecidableEq V] (bufs : Buffers) (root : Node V)
    (id : Nat) (value : V) (h : bufs.getD id [] = []) :
    insert bufs root id value = root ∧
    (∀ p, find bufs (insert bufs root id value) p = find bufs root p) ∧
    (∀ p, «exists» bufs (insert bufs root id value) p = «exists» bufs root p) ∧
    (∀ p, find_with_positions bufs (insert bufs root id value) p =
      find_with_positions bufs root p) ∧
    get_suffix_array_and_lcp_array bufs (insert bufs root id value) =
      get_suffix_array_and_lcp_array bufs root := by
  have h0 : insert bufs root id value = root := by
    unfold insert
    simp only [h, List.isEmpty_nil, if_true]
  rw [h0]
  exact ⟨rfl, fun _ => rfl, fun _ => rfl, fun _ => rfl, rfl⟩

/-- Witness of C13: the empty text is inserted, as buffer 1, into the tree that holds
`banana`. -/
theorem insert_empty_text_is_noop_witness :
    (["banana".toList, []] : Buffers).getD 1 [] = [] ∧
    insert ["banana".toList, []] (insert ["banana".toList, []] (empty_tree : Node Nat) 0 7) 1 8 =
      insert ["banana".toList, []] (empty_tree : Node Nat) 0 7 :=
  ⟨by decide, (insert_empty_text_is_noop _ _ _ _ (by decide)).1⟩

end SuffixTree
